import Mathlib

/-! # Connect-four board engine of the MVC lab (`lab11.cpp`)

A shallow embedding of `class Board` of `src/TP/Labo 11  MVC-20211221/lab11.cpp`
and theorems about it, followed by the win scan and the click handler of
`lab11sol.cpp`, the key handler of `lab11.cpp` and `class Range` of
`src/exam/exam.cpp`.

* C++ `int` values are modelled by `Int`; every value the board code computes
  is bounded by the grid constants, so no wrap-around can occur. The iterator
  of `Range` adds arbitrary `int`s: there the addition wraps modulo `2^32`.
* `std::array::at` throws `std::out_of_range`; an operation that can throw
  returns `Except Fault _`.
* A member function that mutates the object returns the object it leaves
  behind next to its result; a C++ exception leaves the object as it was at the
  point of the throw, so the state is returned in the faulting case too.
-/

namespace Lab11

/-! ## Data model -/

/-- The constant `static const int rows = 6`. -/
abbrev rows : Nat := 6

/-- The constant `static const int columns = 7`. -/
abbrev columns : Nat := 7

/-- The constant `static const int toWin = 4`. -/
abbrev toWin : Nat := 4

/-- The enumeration `enum squareType {Empty, Red, Black}`. -/
inductive squareType where
  | Empty
  | Red
  | Black
  deriving DecidableEq, Repr

/-- The enumeration `enum gameState {RedTurn, BlackTurn, RedWins, BlackWins, Tie}`. -/
inductive gameState where
  | RedTurn
  | BlackTurn
  | RedWins
  | BlackWins
  | Tie
  deriving DecidableEq, Repr

/-- The only fault of the board code: `std::out_of_range`, thrown by `array::at`. -/
inductive Fault where
  | outOfRange
  deriving DecidableEq, Repr

open squareType gameState

instance {ε α : Type} [DecidableEq ε] [DecidableEq α] : DecidableEq (Except ε α)
  | .ok a, .ok b =>
    if h : a = b then isTrue (by rw [h]) else isFalse (by intro e; cases e; exact h rfl)
  | .error a, .error b =>
    if h : a = b then isTrue (by rw [h]) else isFalse (by intro e; cases e; exact h rfl)
  | .ok _, .error _ => isFalse (by intro e; cases e)
  | .error _, .ok _ => isFalse (by intro e; cases e)

/-- The member `array< array< squareType, columns >, rows > board`. -/
abbrev Grid := Fin rows → Fin columns → squareType

/-- The data members of `class Board`. -/
structure Board where
  currentGameState : gameState
  blackWentFirst : Bool
  board : Grid

namespace Board

/-! ## Operations -/

/-- The method `getSquare(int row, int column)`: `board.at(row).at(column)`.
`at` takes a `size_t`, so a negative index is as much out of range as one
past the end; the row is checked before the column. -/
def getSquare (b : Board) (row column : Int) : Except Fault squareType :=
  if hr : 0 ≤ row ∧ row < rows then
    if hc : 0 ≤ column ∧ column < columns then
      .ok (b.board ⟨row.toNat, by omega⟩ ⟨column.toNat, by omega⟩)
    else .error .outOfRange
  else .error .outOfRange

/-- The method `getGameState()`. -/
def getGameState (b : Board) : gameState := b.currentGameState

/-- The assignment `board.at(row).at(column) = v`. -/
def setSquare (b : Board) (row column : Int) (v : squareType) : Except Fault Board :=
  if hr : 0 ≤ row ∧ row < rows then
    if hc : 0 ≤ column ∧ column < columns then
      let r : Fin rows := ⟨row.toNat, by omega⟩
      let c : Fin columns := ⟨column.toNat, by omega⟩
      .ok { b with board := Function.update b.board r (Function.update (b.board r) c v) }
    else .error .outOfRange
  else .error .outOfRange

/-- The loop `while (row<rows && getSquare(row, column) == Empty) row+=1;` of
`move`, started at `row`; the result is the value of `row` when the loop is
left. The first argument counts the iterations that are still possible
(`rows - row`), so that the recursion is structural; when it is `0` the guard
`row<rows` is false. -/
def findRowLoop (b : Board) (column : Int) : Nat → Int → Except Fault Int
  | 0, row => .ok row
  | n + 1, row =>
    if row < rows then
      match b.getSquare row column with
      | .error e => .error e
      | .ok s => if s = squareType.Empty then findRowLoop b column n (row + 1) else .ok row
    else .ok row

/-- The loop `while (row<rows && getSquare(row, column) == Empty) row+=1;`,
started at `row`. -/
def findRowFrom (b : Board) (column : Int) (row : Int) : Except Fault Int :=
  findRowLoop b column ((rows : Int) - row).toNat row

/-- The statements `int row = 0; while (...) row+=1;` of `move`. -/
def findRow (b : Board) (column : Int) : Except Fault Int :=
  findRowFrom b column 0

/-- A loop `for (; x<hi; x++) if (brk x) break;`, started at `x`; the
result is the value of `x` when the loop is left. The first argument counts
the iterations that are still possible (`hi - x`). -/
def forBreakLoop (hi : Int) (brk : Int → Except Fault Bool) : Nat → Int → Except Fault Int
  | 0, x => .ok x
  | n + 1, x =>
    if x < hi then
      match brk x with
      | .error e => .error e
      | .ok true => .ok x
      | .ok false => forBreakLoop hi brk n (x + 1)
    else .ok x

/-- The loop `for (x=lo; x<hi; x++) if (brk x) break;`. -/
def forBreak (lo hi : Int) (brk : Int → Except Fault Bool) : Except Fault Int :=
  forBreakLoop hi brk (hi - lo).toNat lo

/-- The test `row+x>=rows || getSquare(row+x, column)!=color` (vertical scan).
`||` evaluates its right operand only when the left one is false. -/
def brkDown (b : Board) (color : squareType) (row column x : Int) : Except Fault Bool :=
  if row + x ≥ rows then .ok true
  else match b.getSquare (row + x) column with
    | .error e => .error e
    | .ok s => .ok (decide (s ≠ color))

/-- The test `column+x>=columns || getSquare(row, column+x)!=color`
(horizontal scan). -/
def brkRight (b : Board) (color : squareType) (row column x : Int) : Except Fault Bool :=
  if column + x ≥ columns then .ok true
  else match b.getSquare row (column + x) with
    | .error e => .error e
    | .ok s => .ok (decide (s ≠ color))

/-- The test
`row+x>=rows || column+x>=columns || getSquare(row+x, column+x)!=color`. -/
def brkDownRight (b : Board) (color : squareType) (row column x : Int) : Except Fault Bool :=
  if row + x ≥ rows then .ok true
  else if column + x ≥ columns then .ok true
  else match b.getSquare (row + x) (column + x) with
    | .error e => .error e
    | .ok s => .ok (decide (s ≠ color))

/-- The test
`row+x>=rows || column-x<0 || getSquare(row+x, column-x)!=color`. -/
def brkDownLeft (b : Board) (color : squareType) (row column x : Int) : Except Fault Bool :=
  if row + x ≥ rows then .ok true
  else if column - x < 0 then .ok true
  else match b.getSquare (row + x) (column - x) with
    | .error e => .error e
    | .ok s => .ok (decide (s ≠ color))

/-- The four direction scans of `move` at one square, chained by
`if (x<toWin)`: the value of `x` that reaches the test `x==toWin`. -/
def scanDirections (b : Board) (color : squareType) (row column : Int) : Except Fault Int :=
  match forBreak 1 toWin (brkDown b color row column) with
  | .error e => .error e
  | .ok x1 =>
    match (if x1 < toWin then forBreak 1 toWin (brkRight b color row column) else .ok x1) with
    | .error e => .error e
    | .ok x2 =>
      match (if x2 < toWin then forBreak 1 toWin (brkDownRight b color row column)
             else .ok x2) with
      | .error e => .error e
      | .ok x3 =>
        if x3 < toWin then forBreak 1 toWin (brkDownLeft b color row column) else .ok x3

/-- The body of the two nested loops of the win scan, at one square:
`some color` when the body reaches `return true` with that colour (the state it
assigns is `RedWins` for `Red`, `BlackWins` otherwise), `none` when it falls
through to the next square. -/
def squareWins (b : Board) (row column : Int) : Except Fault (Option squareType) :=
  match b.getSquare row column with
  | .error e => .error e
  | .ok s =>
    if s ≠ squareType.Empty then
      match b.getSquare row column with
      | .error e => .error e
      | .ok color =>
        match scanDirections b color row column with
        | .error e => .error e
        | .ok x => if x = toWin then .ok (some color) else .ok none
    else .ok none

/-- A loop `for (int i=...; i<hi; i++) { body }` whose body may return from
the enclosing function: `some v` is that return, `none` is leaving the loop at
its end. The first argument counts the iterations that are still possible. -/
def forReturnLoop {α : Type} (hi : Int) (body : Int → Except Fault (Option α)) :
    Nat → Int → Except Fault (Option α)
  | 0, _ => .ok none
  | n + 1, i =>
    if i < hi then
      match body i with
      | .error e => .error e
      | .ok (some v) => .ok (some v)
      | .ok none => forReturnLoop hi body n (i + 1)
    else .ok none

/-- The loop `for (int i=lo; i<hi; i++) { body }` with a returning body. -/
def forReturn {α : Type} (lo hi : Int) (body : Int → Except Fault (Option α)) :
    Except Fault (Option α) :=
  forReturnLoop hi body (hi - lo).toNat lo

/-- The win scan of `move`:
`for (int row=0; row<rows; row++) for (int column=0; column<columns; column++) {...}`. -/
def winScan (b : Board) : Except Fault (Option squareType) :=
  forReturn 0 rows (fun row => forReturn 0 columns (fun column => squareWins b row column))

/-- The test `getSquare(0, x)==Empty` of the tie loop. -/
def brkTie (b : Board) (x : Int) : Except Fault Bool :=
  match b.getSquare 0 x with
  | .error e => .error e
  | .ok s => .ok (decide (s = squareType.Empty))

/-- The tie loop `for (x=0; x<columns; x++) if (getSquare(0, x)==Empty) break;`. -/
def tieScan (b : Board) : Except Fault Int :=
  forBreak 0 columns (brkTie b)

/-- The method `move(int column)`: the value returned (or the fault raised)
and the board left behind. -/
def move (b : Board) (column : Int) : Except Fault Bool × Board :=
  if b.currentGameState = RedWins ∨ b.currentGameState = BlackWins
      ∨ b.currentGameState = Tie then
    (.ok false, b)
  else
    match b.findRow column with
    | .error e => (.error e, b)
    | .ok row =>
      if row = 0 then (.ok false, b)
      else
        match b.setSquare (row - 1) column
            (if b.currentGameState = RedTurn then Red else Black) with
        | .error e => (.error e, b)
        | .ok b1 =>
          match b1.winScan with
          | .error e => (.error e, b1)
          | .ok (some color) =>
            (.ok true,
              { b1 with currentGameState := if color = Red then RedWins else BlackWins })
          | .ok none =>
            match b1.tieScan with
            | .error e => (.error e, b1)
            | .ok x =>
              if x = columns then (.ok true, { b1 with currentGameState := Tie })
              else
                (.ok true,
                  { b1 with currentGameState :=
                      if b1.currentGameState = RedTurn then BlackTurn else RedTurn })

/-- The method `newGame()`. -/
def newGame (b : Board) : Board :=
  let blackWentFirst := !b.blackWentFirst
  { board := fun _ _ => squareType.Empty
    blackWentFirst := blackWentFirst
    currentGameState := if blackWentFirst then BlackTurn else RedTurn }

/-- The constructor `Board()`: the member initialisers
`currentGameState = RedTurn`, `blackWentFirst = true`, then `newGame()`. The
array has no initialiser; `newGame` assigns every square, so the squares the
constructor starts from (the argument) do not show in the result. -/
def construct (uninitialised : Grid) : Board :=
  newGame { currentGameState := RedTurn, blackWentFirst := true, board := uninitialised }

/-- The freshly constructed board. -/
def fresh : Board := construct (fun _ _ => squareType.Empty)

/-- The board after a sequence of `move` calls (whatever each call returns). -/
def moves (b : Board) (cols : List Int) : Board :=
  cols.foldl (fun s c => (s.move c).2) b

/-- The values returned by a sequence of `move` calls. -/
def moveResults : Board → List Int → List (Except Fault Bool)
  | _, [] => []
  | b, c :: cs => (b.move c).1 :: moveResults (b.move c).2 cs

end Board

/-! ## Predicates used to state the properties -/

/-- The state is one of the two turn states. -/
def isTurn (s : gameState) : Prop := s = RedTurn ∨ s = BlackTurn

/-- The state is one of the three end states, the ones `move` tests first. -/
def isTerminal (s : gameState) : Prop := s = RedWins ∨ s = BlackWins ∨ s = Tie

instance (s : gameState) : Decidable (isTurn s) := by unfold isTurn; infer_instance

instance (s : gameState) : Decidable (isTerminal s) := by unfold isTerminal; infer_instance

/-- The colour `move` writes: `currentGameState == RedTurn ? Red : Black`. -/
def moverColour (b : Board) : squareType :=
  if b.currentGameState = RedTurn then Red else Black

/-- The win state `move` assigns for a colour: `(color==Red) ? RedWins : BlackWins`. -/
def winState (color : squareType) : gameState :=
  if color = Red then RedWins else BlackWins

/-- The square `(row, column)` lies inside the grid and holds `s`. -/
def holds (b : Board) (row column : Int) (s : squareType) : Prop :=
  b.getSquare row column = .ok s

instance (b : Board) (row column : Int) (s : squareType) : Decidable (holds b row column s) := by
  unfold holds; infer_instance

/-- The four squares `(r, c)`, `(r, c)+d`, `(r, c)+2d`, `(r, c)+3d`, with
`d = (dr, dc)`, all lie inside the grid and all hold `color`. -/
def lineFrom (b : Board) (color : squareType) (r c dr dc : Int) : Prop :=
  holds b r c color ∧ holds b (r + dr) (c + dc) color
    ∧ holds b (r + 2 * dr) (c + 2 * dc) color ∧ holds b (r + 3 * dr) (c + 3 * dc) color

instance (b : Board) (color : squareType) (r c dr dc : Int) :
    Decidable (lineFrom b color r c dr dc) := by
  unfold lineFrom; infer_instance

/-- The direction `(dr, dc)` is one of down, right, down-right, down-left. -/
def isDirection (dr dc : Int) : Prop :=
  (dr = 1 ∧ dc = 0) ∨ (dr = 0 ∧ dc = 1) ∨ (dr = 1 ∧ dc = 1) ∨ (dr = 1 ∧ dc = -1)

instance (dr dc : Int) : Decidable (isDirection dr dc) := by unfold isDirection; infer_instance

/-- A line of 4 squares of `color` starts at `(r, c)` in one of the four directions. -/
def startsLine (b : Board) (color : squareType) (r c : Int) : Prop :=
  ∃ dr dc : Int, isDirection dr dc ∧ lineFrom b color r c dr dc

/-- The grid holds a line of 4 squares of `color` in one of the four directions. -/
def hasLine (b : Board) (color : squareType) : Prop :=
  ∃ r c dr dc : Int, isDirection dr dc ∧ lineFrom b color r c dr dc

/-- The grid holds a line of 4 squares of one colour that is not `Empty`. -/
def hasWinningLine (b : Board) : Prop :=
  ∃ color, color ≠ squareType.Empty ∧ hasLine b color

/-- The gravity invariant: no `Empty` square below a square that is not `Empty`
in the same column. -/
def Gravity (b : Board) : Prop :=
  ∀ (c : Fin columns) (r r' : Fin rows), r < r' →
    b.board r c ≠ squareType.Empty → b.board r' c ≠ squareType.Empty

instance (b : Board) : Decidable (Gravity b) := by unfold Gravity; infer_instance

/-- Every square of row 0 is not `Empty`. -/
def topRowFilled (b : Board) : Prop :=
  ∀ c : Fin columns, b.board 0 c ≠ squareType.Empty

instance (b : Board) : Decidable (topRowFilled b) := by unfold topRowFilled; infer_instance

/-- The states reachable from a freshly constructed `Board` by calls of `move`
(with any argument) and `newGame`. -/
inductive Reachable : Board → Prop
  | fresh : Reachable Board.fresh
  | move (b : Board) (column : Int) : Reachable b → Reachable (b.move column).2
  | newGame (b : Board) : Reachable b → Reachable b.newGame

/-! ## The variant of `move` that looks at the placed square only

The specification (design notes) allows an implementation that, instead of
scanning the whole board, checks only the lines through the square just
placed. `movePlacedSquareOnly` is that variant, written from the words of the
specification; it is compared with `Board.move`, the translation of the source. -/

/-- The four directions of a line: down, right, down-right, down-left. -/
def directions : List (Int × Int) := [(1, 0), (0, 1), (1, 1), (1, -1)]

/-- Some line of 4 squares of `color` along one of the four axes contains the
square `(r, c)`: the square is the one at offset `k` of the line, `k` in 0..3. -/
def lineThrough (b : Board) (color : squareType) (r c : Int) : Prop :=
  ∃ d ∈ directions, ∃ k ∈ ([0, 1, 2, 3] : List Int),
    lineFrom b color (r - k * d.1) (c - k * d.2) d.1 d.2

instance (b : Board) (color : squareType) (r c : Int) : Decidable (lineThrough b color r c) := by
  unfold lineThrough; infer_instance

/-- The variant of `move` of the specification's design notes: as `move` up to
the placement, then the mover wins if and only if some line of 4 of the mover's
colour contains the placed square; the tie test and the change of turn are
those of `move`. -/
def movePlacedSquareOnly (b : Board) (column : Int) : Except Fault Bool × Board :=
  if b.currentGameState = RedWins ∨ b.currentGameState = BlackWins
      ∨ b.currentGameState = Tie then
    (.ok false, b)
  else
    match b.findRow column with
    | .error e => (.error e, b)
    | .ok row =>
      if row = 0 then (.ok false, b)
      else
        match b.setSquare (row - 1) column (moverColour b) with
        | .error e => (.error e, b)
        | .ok b1 =>
          if lineThrough b1 (moverColour b) (row - 1) column then
            (.ok true, { b1 with currentGameState := winState (moverColour b) })
          else
            match b1.tieScan with
            | .error e => (.error e, b1)
            | .ok x =>
              if x = columns then (.ok true, { b1 with currentGameState := Tie })
              else
                (.ok true,
                  { b1 with currentGameState :=
                      if b1.currentGameState = RedTurn then BlackTurn else RedTurn })

/-! ## The direction scans tried in another order

To state that the order in which the four directions are tried at a square does
not matter, the win scan is written once more with the order as a parameter;
with the order of the source it is the win scan of `Board.move`. -/

/-- The four direction scans of `move`, in the order of the source: vertical,
horizontal, and the two diagonals. -/
inductive Direction where
  | down
  | right
  | downRight
  | downLeft
  deriving DecidableEq, Repr

/-- The order in which `move` tries the directions. -/
def sourceOrder : List Direction :=
  [Direction.down, Direction.right, Direction.downRight, Direction.downLeft]

/-- The test of the scan loop of a direction. -/
def brkAlong (b : Board) (color : squareType) (row column : Int) :
    Direction → Int → Except Fault Bool
  | Direction.down => b.brkDown color row column
  | Direction.right => b.brkRight color row column
  | Direction.downRight => b.brkDownRight color row column
  | Direction.downLeft => b.brkDownLeft color row column

/-- The square at offset `x` from `(row, column)` in a direction holds `color`. -/
def offsetHolds (b : Board) (color : squareType) (row column : Int) :
    Direction → Int → Prop
  | Direction.down, x => holds b (row + x) column color
  | Direction.right, x => holds b row (column + x) color
  | Direction.downRight, x => holds b (row + x) (column + x) color
  | Direction.downLeft, x => holds b (row + x) (column - x) color

instance (b : Board) (color : squareType) (row column : Int) (d : Direction) (x : Int) :
    Decidable (offsetHolds b color row column d x) := by
  cases d <;> unfold offsetHolds <;> infer_instance

/-- The direction scans in the order of the list, each run as
`if (x<toWin) { for (x=1; x<toWin; x++) ... }`, from the value `x`. -/
def scanRest (b : Board) (color : squareType) (row column : Int) :
    List Direction → Int → Except Fault Int
  | [], x => .ok x
  | d :: ds, x =>
    match (if x < toWin then Board.forBreak 1 toWin (brkAlong b color row column d)
           else .ok x) with
    | .error e => .error e
    | .ok x' => scanRest b color row column ds x'

/-- The chained direction scans at a square with the directions tried in the
order of the list. The first scan of the source has no guard; it is run here
from `x = 1`, for which the guard `x<toWin` holds. -/
def scanDirectionsInOrder (order : List Direction) (b : Board) (color : squareType)
    (row column : Int) : Except Fault Int :=
  scanRest b color row column order 1

/-- The body of the win scan at a square, with the directions tried in the
order of the list. -/
def squareWinsInOrder (order : List Direction) (b : Board) (row column : Int) :
    Except Fault (Option squareType) :=
  match b.getSquare row column with
  | .error e => .error e
  | .ok s =>
    if s ≠ squareType.Empty then
      match b.getSquare row column with
      | .error e => .error e
      | .ok color =>
        match scanDirectionsInOrder order b color row column with
        | .error e => .error e
        | .ok x => if x = toWin then .ok (some color) else .ok none
    else .ok none

/-- The win scan with the directions tried in the order of the list. -/
def winScanInOrder (order : List Direction) (b : Board) : Except Fault (Option squareType) :=
  Board.forReturn 0 rows (fun row =>
    Board.forReturn 0 columns (fun column => squareWinsInOrder order b row column))

/-- The method `move` with the directions of the win scan tried in the order of
the list. -/
def moveInOrder (order : List Direction) (b : Board) (column : Int) :
    Except Fault Bool × Board :=
  if b.currentGameState = RedWins ∨ b.currentGameState = BlackWins
      ∨ b.currentGameState = Tie then
    (.ok false, b)
  else
    match b.findRow column with
    | .error e => (.error e, b)
    | .ok row =>
      if row = 0 then (.ok false, b)
      else
        match b.setSquare (row - 1) column
            (if b.currentGameState = RedTurn then Red else Black) with
        | .error e => (.error e, b)
        | .ok b1 =>
          match winScanInOrder order b1 with
          | .error e => (.error e, b1)
          | .ok (some color) =>
            (.ok true,
              { b1 with currentGameState := if color = Red then RedWins else BlackWins })
          | .ok none =>
            match b1.tieScan with
            | .error e => (.error e, b1)
            | .ok x =>
              if x = columns then (.ok true, { b1 with currentGameState := Tie })
              else
                (.ok true,
                  { b1 with currentGameState :=
                      if b1.currentGameState = RedTurn then BlackTurn else RedTurn })

/-- A grid no game reaches, with Red to move: Black holds `(2, 0)` to `(2, 3)`,
Red holds `(3, 6)`, `(4, 6)` and `(5, 6)`, every other square is `Empty`. -/
def twoLines : Board :=
  { currentGameState := RedTurn
    blackWentFirst := false
    board := fun r c =>
      if r.val = 2 ∧ c.val < 4 then Black
      else if 3 ≤ r.val ∧ c.val = 6 then Red
      else squareType.Empty }

/-- The board after the moves 0,0,1,1,2,2 on a fresh board: Red holds row 5,
columns 0-2, Black row 4, columns 0-2, and Red is to move. -/
def threeInRow : Board := Board.fresh.moves [0, 0, 1, 1, 2, 2]

/-- The board after the moves 0,0,1,1,2,2,3 on a fresh board. -/
def redWon : Board := Board.fresh.moves [0, 0, 1, 1, 2, 2, 3]

/-- The board after six moves into column 0 of a fresh board. -/
def columnZeroFull : Board := Board.fresh.moves [0, 0, 0, 0, 0, 0]

/-- The board after 41 moves of a game without a line of 4: only the square
`(0, 0)` is `Empty`, and Black is to move. -/
def oneSquareLeft : Board := Board.fresh.moves
  [5, 4, 5, 0, 6, 2, 4, 5, 5, 0, 4, 1, 1, 0, 4, 5, 6, 5, 3, 1, 1, 2, 2, 6, 2, 6, 6, 3, 6, 2,
    0, 3, 0, 3, 3, 4, 3, 1, 4, 2, 1]

/-- The board after 41 moves of another game without a line of 4: only the
square `(0, 3)` is `Empty`, Black is to move, and Black holds `(1, 4)`, `(2, 5)`
and `(3, 6)`. -/
def lastSquareWins : Board := Board.fresh.moves
  [5, 6, 1, 3, 6, 1, 4, 4, 5, 1, 0, 3, 1, 5, 2, 0, 0, 6, 1, 0, 4, 5, 2, 0, 4, 5, 0, 4, 2, 4,
    5, 1, 6, 2, 6, 2, 2, 3, 3, 6, 3]

/-! ## Counting pieces and successful moves -/

/-- The number of squares of the grid that hold `v`. -/
def countOf (b : Board) (v : squareType) : Nat :=
  (Finset.univ.filter (fun p : Fin rows × Fin columns => b.board p.1 p.2 = v)).card

/-- The number of squares of the grid that are not `Empty`. -/
def occupied (b : Board) : Nat :=
  (Finset.univ.filter (fun p : Fin rows × Fin columns => b.board p.1 p.2 ≠ squareType.Empty)).card

/-- The colour of the player who started the current game: `newGame` sets the
state to `blackWentFirst ? BlackTurn : RedTurn`. -/
def starterColour (b : Board) : squareType :=
  if b.blackWentFirst = true then Black else Red

/-- The colour of the other player. -/
def otherColour (v : squareType) : squareType :=
  if v = Red then Black else Red

/-- The number of calls that return `true` in a sequence of `move` calls. -/
def successes : Board → List Int → Nat
  | _, [] => 0
  | b, c :: cs =>
    (if (b.move c).1 = .ok true then 1 else 0) + successes (b.move c).2 cs

/-- The states reachable from a freshly constructed `Board` by calls of `move`
and `newGame`, with the number of `move` calls that returned `true` since the
last `newGame` (or since the construction). -/
inductive ReachableIn : Nat → Board → Prop
  | fresh : ReachableIn 0 Board.fresh
  | newGame (k : Nat) (b : Board) : ReachableIn k b → ReachableIn 0 b.newGame
  | moved (k : Nat) (b : Board) (column : Int) : ReachableIn k b →
      (b.move column).1 = .ok true → ReachableIn (k + 1) (b.move column).2
  | rejected (k : Nat) (b : Board) (column : Int) : ReachableIn k b →
      (b.move column).1 ≠ .ok true → ReachableIn k (b.move column).2

/-- Five squares in a row from `(r, c)` in the direction `(dr, dc)` all lie
inside the grid and hold `color`. -/
def runOfFive (b : Board) (color : squareType) (r c dr dc : Int) : Prop :=
  lineFrom b color r c dr dc ∧ holds b (r + 4 * dr) (c + 4 * dc) color

instance (b : Board) (color : squareType) (r c dr dc : Int) :
    Decidable (runOfFive b color r c dr dc) := by
  unfold runOfFive; infer_instance

/-- The board after the moves 0,0,1,1,3,3,4,4 on a fresh board: Red holds the
bottom row at columns 0, 1, 3, 4, and Red is to move. -/
def fourOfFive : Board := Board.fresh.moves [0, 0, 1, 1, 3, 3, 4, 4]

/-! ## The console controller of `lab11.cpp` -/

/-- How a call of a controller method ends: it returns (with a value), an
exception leaves it, or it ends the program with `exit(0)`. -/
inductive Outcome (α : Type) where
  | returned (value : α)
  | threw (fault : Fault)
  | exited
  deriving DecidableEq, Repr

/-- The method `ControllBoard::processKey(char key)` of `lab11.cpp`, on the
board the controller shares: how the call ends and the board it leaves. The
value `key-'1'` is the difference of the character codes. -/
def processKey (b : Board) (key : Char) : Outcome Unit × Board :=
  if key = '1' ∨ key = '2' ∨ key = '3' ∨ key = '4' ∨ key = '5' ∨ key = '6' ∨ key = '7' then
    match b.move ((key.toNat : Int) - ('1'.toNat : Int)) with
    | (.error e, b') => (.threw e, b')
    | (.ok _, b') => (.returned (), b')
  else if key = 'n' then (.returned (), b.newGame)
  else if key = 'q' then (.exited, b)
  else (.returned (), b)

end Lab11

/-! # The board and the controller of `lab11sol.cpp`

The class `Board` of `lab11sol.cpp` has the data members, the constants, the
constructor, `getSquare`, `getGameState` and `newGame` of `lab11.cpp`, and in
`move` the same landing loop, the same four tests and the same tie loop; they are
not written twice. `move` differs in the win scan: four separate scans, each
followed by its own test `x==toWin`. -/

namespace Lab11Sol

open Lab11 Lab11.Board Lab11.squareType Lab11.gameState

/-- The body of the two nested loops of the win scan of `lab11sol.cpp` at one
square: `some color` when one of the four `return true` is reached, `none` when
the body falls through to the next square. -/
def squareWins (b : Board) (row column : Int) : Except Fault (Option squareType) :=
  match b.getSquare row column with
  | .error e => .error e
  | .ok s =>
    if s ≠ squareType.Empty then
      match b.getSquare row column with
      | .error e => .error e
      | .ok color =>
        match forBreak 1 toWin (b.brkDown color row column) with
        | .error e => .error e
        | .ok x1 =>
          if x1 = toWin then .ok (some color)
          else
            match forBreak 1 toWin (b.brkRight color row column) with
            | .error e => .error e
            | .ok x2 =>
              if x2 = toWin then .ok (some color)
              else
                match forBreak 1 toWin (b.brkDownRight color row column) with
                | .error e => .error e
                | .ok x3 =>
                  if x3 = toWin then .ok (some color)
                  else
                    match forBreak 1 toWin (b.brkDownLeft color row column) with
                    | .error e => .error e
                    | .ok x4 => if x4 = toWin then .ok (some color) else .ok none
    else .ok none

/-- The win scan of `move` of `lab11sol.cpp`. -/
def winScan (b : Board) : Except Fault (Option squareType) :=
  forReturn 0 rows (fun row => forReturn 0 columns (fun column => squareWins b row column))

/-- The method `move(int column)` of `lab11sol.cpp`. -/
def move (b : Board) (column : Int) : Except Fault Bool × Board :=
  if b.currentGameState = RedWins ∨ b.currentGameState = BlackWins
      ∨ b.currentGameState = Tie then
    (.ok false, b)
  else
    match b.findRow column with
    | .error e => (.error e, b)
    | .ok row =>
      if row = 0 then (.ok false, b)
      else
        match b.setSquare (row - 1) column
            (if b.currentGameState = RedTurn then Red else Black) with
        | .error e => (.error e, b)
        | .ok b1 =>
          match winScan b1 with
          | .error e => (.error e, b1)
          | .ok (some color) =>
            (.ok true,
              { b1 with currentGameState := if color = Red then RedWins else BlackWins })
          | .ok none =>
            match b1.tieScan with
            | .error e => (.error e, b1)
            | .ok x =>
              if x = columns then (.ok true, { b1 with currentGameState := Tie })
              else
                (.ok true,
                  { b1 with currentGameState :=
                      if b1.currentGameState = RedTurn then BlackTurn else RedTurn })

/-- The events `processEvent` tells apart. `FL_PUSH` and `FL_KEYDOWN` are
constants of the GUI library, `Fl::event_x()` and `Fl::event_key()` are values it
supplies: they come with the event. -/
inductive Event where
  | push (event_x : Int)
  | keydown (event_key : Int)
  | other
  deriving DecidableEq, Repr

/-- The method `ControllBoard::processEvent(const int event)` of
`lab11sol.cpp`, on the board the controller shares. `Fl::event_x()/50` is the
division of C++, which truncates toward zero. -/
def processEvent (b : Board) : Event → Outcome Bool × Board
  | Event.push event_x =>
    let col := Int.tdiv event_x 50
    if col ≥ 0 ∧ col ≤ columns then
      match move b col with
      | (.error e, b') => (.threw e, b')
      | (.ok _, b') => (.returned true, b')
    else (.returned false, b)
  | Event.keydown event_key =>
    if event_key = (' '.toNat : Int) then (.returned true, b.newGame)
    else if event_key = ('q'.toNat : Int) then (.exited, b)
    else (.returned false, b)
  | Event.other => (.returned false, b)

end Lab11Sol

/-! # The class `Range` of `exam.cpp`

The members of `Range` and of its iterator are `int`s, and `operator++` adds
with `index+=step`. In the compiled program this addition wraps around modulo
`2^32`; it is modelled so, with `Int` values kept in the range of `int`. -/

namespace Exam

/-- The value of the type `int` that the compiled program holds after computing
`x`: the representative of `x` modulo `2^32` between `-2^31` and `2^31 - 1`. -/
def wrapInt (x : Int) : Int := (x + 2147483648) % 4294967296 - 2147483648

/-- The integer `x` is a value of the type `int`. -/
def isInt (x : Int) : Prop := -2147483648 ≤ x ∧ x < 2147483648

instance (x : Int) : Decidable (isInt x) := by unfold isInt; infer_instance

/-- The data members `int start,stop,step` of `class Range`. -/
structure Range where
  start : Int
  stop : Int
  step : Int

/-- The data members `int index,step` of `class Range::Iterator`. -/
structure Iterator where
  index : Int
  step : Int

namespace Iterator

/-- The operator `int operator *()`. -/
def deref (i : Iterator) : Int := i.index

/-- The operator `Iterator &operator++()`: `index+=step` in `int` arithmetic. -/
def next (i : Iterator) : Iterator := { i with index := wrapInt (i.index + i.step) }

/-- The operator `bool operator ==(const Iterator&I) const`: it compares the
indices only. -/
def eq (i j : Iterator) : Bool := decide (i.index = j.index)

end Iterator

namespace Range

/-- The three members of the range are values of the type `int`, as they are
for every `Range` the constructors build. -/
def wellFormed (r : Range) : Prop := isInt r.start ∧ isInt r.stop ∧ isInt r.step

instance (r : Range) : Decidable (wellFormed r) := by unfold wellFormed; infer_instance

/-- The constructor `Range(int stop)`. -/
def ofStop (stop : Int) : Range := { start := 0, stop := stop, step := 1 }

/-- The constructor `Range(int start,int stop,int step=1)`. -/
def ofBounds (start stop : Int) (step : Int := 1) : Range :=
  { start := start, stop := stop, step := step }

/-- The method `begin()`. -/
def begin (r : Range) : Iterator := { index := r.start, step := r.step }

/-- The method `end()`. -/
def endIterator (r : Range) : Iterator := { index := r.stop, step := r.step }

/-- The loop of a range-based `for`, `for (; it != e; ++it) { x = *it; ... }`,
where `it != e` is the negation of `operator ==`: the values of `x` in the order
of the iterations, when the loop ends within `fuel` tests of its condition, and
`none` when it is still running after them. -/
def rangeForLoop (e : Iterator) : Nat → Iterator → Option (List Int)
  | 0, _ => none
  | fuel + 1, it =>
    if it.eq e then some []
    else (rangeForLoop e fuel it.next).map (fun out => it.deref :: out)

/-- The statement `for (auto x : r)`: the loop from `r.begin()` to `r.end()`. -/
def rangeFor (r : Range) (fuel : Nat) : Option (List Int) :=
  rangeForLoop r.endIterator fuel r.begin

/-- The loop `for (auto x : r)` ends. -/
def terminates (r : Range) : Prop := ∃ fuel out, rangeFor r fuel = some out

end Range

end Exam

namespace Lab11

open squareType gameState

/-! ## Reading and writing squares -/

namespace Board

theorem getSquare_inRange (b : Board) (row column : Int)
    (hr : 0 ≤ row ∧ row < 6) (hc : 0 ≤ column ∧ column < 7) :
    b.getSquare row column
      = .ok (b.board ⟨row.toNat, by simp only [rows]; omega⟩
          ⟨column.toNat, by simp only [columns]; omega⟩) := by
  unfold getSquare
  rw [dif_pos (by simpa using hr), dif_pos (by simpa using hc)]

theorem getSquare_fin (b : Board) (r : Fin rows) (c : Fin columns) :
    b.getSquare (r.val : Int) (c.val : Int) = .ok (b.board r c) := by
  have hr := r.isLt
  have hc := c.isLt
  simp only [rows, columns] at hr hc
  rw [getSquare_inRange b _ _ (by omega) (by omega)]
  simp

theorem getSquare_outOfRange (b : Board) (row column : Int)
    (h : ¬ ((0 ≤ row ∧ row < 6) ∧ (0 ≤ column ∧ column < 7))) :
    b.getSquare row column = .error .outOfRange := by
  unfold getSquare
  by_cases hr : 0 ≤ row ∧ row < (rows : Int)
  · have hc : ¬ (0 ≤ column ∧ column < (columns : Int)) := by
      intro hc; exact h ⟨by simpa using hr, by simpa using hc⟩
    rw [dif_pos hr, dif_neg hc]
  · rw [dif_neg hr]

theorem getSquare_ok_inRange (b : Board) (row column : Int) (s : squareType)
    (h : b.getSquare row column = .ok s) :
    (0 ≤ row ∧ row < 6) ∧ (0 ≤ column ∧ column < 7) := by
  by_contra hn
  rw [getSquare_outOfRange b row column hn] at h
  cases h

theorem getSquare_congr (b b' : Board) (h : b.board = b'.board) (row column : Int) :
    b.getSquare row column = b'.getSquare row column := by
  unfold getSquare; rw [h]

theorem setSquare_inRange (b : Board) (row column : Int) (v : squareType)
    (hr : 0 ≤ row ∧ row < 6) (hc : 0 ≤ column ∧ column < 7) :
    ∃ b', b.setSquare row column v = .ok b'
      ∧ b'.currentGameState = b.currentGameState
      ∧ b'.blackWentFirst = b.blackWentFirst
      ∧ ∀ (r : Fin rows) (c : Fin columns),
          b'.board r c = if (r.val : Int) = row ∧ (c.val : Int) = column then v else b.board r c := by
  unfold setSquare
  rw [dif_pos (by simpa using hr), dif_pos (by simpa using hc)]
  refine ⟨_, rfl, rfl, rfl, ?_⟩
  have hrn : row.toNat < rows := by simp only [rows]; omega
  have hcn : column.toNat < columns := by simp only [columns]; omega
  intro r c
  have hr' := r.isLt
  have hc' := c.isLt
  simp only [rows, columns] at hr' hc'
  show Function.update b.board ⟨row.toNat, hrn⟩
      (Function.update (b.board ⟨row.toNat, hrn⟩) ⟨column.toNat, hcn⟩ v) r c = _
  by_cases h1 : (r.val : Int) = row
  · have e1 : r = ⟨row.toNat, hrn⟩ := by
      apply Fin.ext; simp only; omega
    by_cases h2 : (c.val : Int) = column
    · have e2 : c = ⟨column.toNat, hcn⟩ := by
        apply Fin.ext; simp only; omega
      rw [if_pos ⟨h1, h2⟩, e1, e2]
      simp
    · have e2 : c ≠ ⟨column.toNat, hcn⟩ := by
        intro e; apply h2; rw [e]; simp only; omega
      rw [if_neg (fun h => h2 h.2), e1]
      simp [Function.update_noteq e2]
  · have e1 : r ≠ ⟨row.toNat, hrn⟩ := by
      intro e; apply h1; rw [e]; simp only; omega
    rw [if_neg (fun h => h1 h.1)]
    simp [Function.update_noteq e1]

theorem getSquare_setSquare (b b' : Board) (row column : Int) (v : squareType)
    (h : b.setSquare row column v = .ok b') (r c : Int) :
    b'.getSquare r c = if r = row ∧ c = column then .ok v else b.getSquare r c := by
  have hin : (0 ≤ row ∧ row < 6) ∧ (0 ≤ column ∧ column < 7) := by
    by_contra hn
    unfold setSquare at h
    by_cases hr : 0 ≤ row ∧ row < (rows : Int)
    · have hc : ¬ (0 ≤ column ∧ column < (columns : Int)) := by
        intro hc; exact hn ⟨by simpa using hr, by simpa using hc⟩
      rw [dif_pos hr, dif_neg hc] at h; cases h
    · rw [dif_neg hr] at h; cases h
  obtain ⟨b2, h2, -, -, hb⟩ := setSquare_inRange b row column v hin.1 hin.2
  rw [h] at h2
  cases h2
  by_cases hrc : (0 ≤ r ∧ r < 6) ∧ (0 ≤ c ∧ c < 7)
  · rw [getSquare_inRange _ _ _ hrc.1 hrc.2, getSquare_inRange _ _ _ hrc.1 hrc.2, hb]
    have e1 : ((r.toNat : Nat) : Int) = r := by omega
    have e2 : ((c.toNat : Nat) : Int) = c := by omega
    simp only [e1, e2]
    split <;> rfl
  · rw [getSquare_outOfRange _ _ _ hrc, getSquare_outOfRange _ _ _ hrc]
    rw [if_neg]
    rintro ⟨rfl, rfl⟩
    exact hrc hin

/-! ## The loops of the model are the loops of the source

The iteration counter of each loop function is the distance of the loop
variable to its bound, so it reaches `0` only when the guard of the loop is
false: the functions satisfy the equation of the loop they stand for. -/

theorem findRowFrom_unfold (b : Board) (column row : Int) :
    b.findRowFrom column row
      = if row < rows then
          match b.getSquare row column with
          | .error e => .error e
          | .ok s => if s = squareType.Empty then b.findRowFrom column (row + 1) else .ok row
        else .ok row := by
  unfold findRowFrom
  by_cases h : row < (rows : Int)
  · have e : ((rows : Int) - row).toNat = ((rows : Int) - (row + 1)).toNat + 1 := by omega
    rw [e, findRowLoop]
  · have e : ((rows : Int) - row).toNat = 0 := by omega
    rw [e, if_neg h, findRowLoop]

theorem forBreak_unfold (lo hi : Int) (brk : Int → Except Fault Bool) :
    forBreak lo hi brk
      = if lo < hi then
          match brk lo with
          | .error e => .error e
          | .ok true => .ok lo
          | .ok false => forBreak (lo + 1) hi brk
        else .ok lo := by
  unfold forBreak
  by_cases h : lo < hi
  · have e : (hi - lo).toNat = (hi - (lo + 1)).toNat + 1 := by omega
    rw [e, forBreakLoop]
  · have e : (hi - lo).toNat = 0 := by omega
    rw [e, if_neg h, forBreakLoop]

theorem forReturn_unfold {α : Type} (lo hi : Int) (body : Int → Except Fault (Option α)) :
    forReturn lo hi body
      = if lo < hi then
          match body lo with
          | .error e => .error e
          | .ok (some v) => .ok (some v)
          | .ok none => forReturn (lo + 1) hi body
        else .ok none := by
  unfold forReturn
  by_cases h : lo < hi
  · have e : (hi - lo).toNat = (hi - (lo + 1)).toNat + 1 := by omega
    rw [e, forReturnLoop]
  · have e : (hi - lo).toNat = 0 := by omega
    rw [e, if_neg h, forReturnLoop]

/-! ## The landing scan -/

theorem findRowLoop_spec (b : Board) (column : Int) (hc : 0 ≤ column ∧ column < 7) :
    ∀ (n : Nat) (row : Int), 0 ≤ row → row + n = 6 →
      ∃ row', b.findRowLoop column n row = .ok row' ∧ row ≤ row' ∧ row' ≤ 6
        ∧ (∀ r, row ≤ r → r < row' → holds b r column squareType.Empty)
        ∧ (row' < 6 → ¬ holds b row' column squareType.Empty) := by
  intro n
  induction n with
  | zero =>
    intro row h0 hn
    refine ⟨row, rfl, le_refl _, by omega, ?_, ?_⟩
    · intro r h1 h2; omega
    · intro h; omega
  | succ n ih =>
    intro row h0 hn
    have hlt : row < (rows : Int) := by simp only [rows]; omega
    have hr : 0 ≤ row ∧ row < 6 := by omega
    unfold findRowLoop
    rw [if_pos hlt, getSquare_inRange b row column hr hc]
    simp only
    by_cases he : b.board ⟨row.toNat, by simp only [rows]; omega⟩
        ⟨column.toNat, by simp only [columns]; omega⟩ = squareType.Empty
    · rw [if_pos he]
      obtain ⟨row', h1, h2, h3, h4, h5⟩ := ih (row + 1) (by omega) (by omega)
      refine ⟨row', h1, by omega, h3, ?_, h5⟩
      intro r hr1 hr2
      by_cases e : r = row
      · subst e
        unfold holds
        rw [getSquare_inRange b r column hr hc, he]
      · exact h4 r (by omega) hr2
    · rw [if_neg he]
      refine ⟨row, rfl, le_refl _, by omega, ?_, ?_⟩
      · intro r h1 h2; omega
      · intro _ hh
        unfold holds at hh
        rw [getSquare_inRange b row column hr hc] at hh
        injection hh with hh
        exact he hh

/-- The landing scan on a valid column: it raises no fault, and the row it
stops at is the first one of the column that is not `Empty` (or `rows`). -/
theorem findRow_spec (b : Board) (column : Int) (hc : 0 ≤ column ∧ column < 7) :
    ∃ row, b.findRow column = .ok row ∧ 0 ≤ row ∧ row ≤ 6
      ∧ (∀ r, 0 ≤ r → r < row → holds b r column squareType.Empty)
      ∧ (row < 6 → ¬ holds b row column squareType.Empty) := by
  unfold findRow findRowFrom
  exact findRowLoop_spec b column hc _ 0 (le_refl _) (by simp)

/-- The landing scan on a column outside the grid raises the fault of
`getSquare(0, column)`. -/
theorem findRow_invalid (b : Board) (column : Int) (hc : column < 0 ∨ 7 ≤ column) :
    b.findRow column = .error .outOfRange := by
  unfold findRow findRowFrom
  show b.findRowLoop column (5 + 1) 0 = _
  unfold findRowLoop
  rw [if_pos (by simp), getSquare_outOfRange b 0 column (by omega)]

/-! ## Loops -/

theorem forBreakLoop_spec (hi : Int) (brk : Int → Except Fault Bool) (p : Int → Bool) :
    ∀ (n : Nat) (x : Int), x + n = hi → (∀ y, x ≤ y → y < hi → brk y = .ok (p y)) →
      ∃ x', forBreakLoop hi brk n x = .ok x' ∧ x ≤ x' ∧ x' ≤ hi
        ∧ (∀ y, x ≤ y → y < x' → p y = false) ∧ (x' < hi → p x' = true) := by
  intro n
  induction n with
  | zero =>
    intro x hn _
    refine ⟨x, rfl, le_refl _, by omega, ?_, ?_⟩
    · intro y h1 h2; omega
    · intro h; omega
  | succ n ih =>
    intro x hn hb
    unfold forBreakLoop
    rw [if_pos (by omega), hb x (le_refl _) (by omega)]
    cases hp : p x with
    | true =>
      refine ⟨x, rfl, le_refl _, by omega, ?_, fun _ => hp⟩
      intro y h1 h2; omega
    | false =>
      obtain ⟨x', h1, h2, h3, h4, h5⟩ :=
        ih (x + 1) (by omega) (fun y hy1 hy2 => hb y (by omega) hy2)
      refine ⟨x', h1, by omega, h3, ?_, h5⟩
      intro y hy1 hy2
      by_cases e : y = x
      · rw [e]; exact hp
      · exact h4 y (by omega) hy2

/-- A `for`/`break` loop whose test raises no fault: the loop raises none, and
leaves `x` at the first value of `[lo, hi)` where the test is true, or at `hi`. -/
theorem forBreak_spec (lo hi : Int) (h : lo ≤ hi) (brk : Int → Except Fault Bool)
    (p : Int → Bool) (hb : ∀ y, lo ≤ y → y < hi → brk y = .ok (p y)) :
    ∃ x', forBreak lo hi brk = .ok x' ∧ lo ≤ x' ∧ x' ≤ hi
      ∧ (∀ y, lo ≤ y → y < x' → p y = false) ∧ (x' < hi → p x' = true) := by
  unfold forBreak
  exact forBreakLoop_spec hi brk p _ lo (by omega) hb

theorem forReturnLoop_spec {α : Type} (hi : Int) (body : Int → Except Fault (Option α))
    (f : Int → Option α) :
    ∀ (n : Nat) (i : Int), i + n = hi → (∀ j, i ≤ j → j < hi → body j = .ok (f j)) →
      ∃ o, forReturnLoop hi body n i = .ok o
        ∧ ((o = none ∧ ∀ j, i ≤ j → j < hi → f j = none)
          ∨ ∃ j, i ≤ j ∧ j < hi ∧ o = f j ∧ f j ≠ none
              ∧ ∀ j', i ≤ j' → j' < j → f j' = none) := by
  intro n
  induction n with
  | zero =>
    intro i hn _
    refine ⟨none, rfl, Or.inl ⟨rfl, ?_⟩⟩
    intro j h1 h2; omega
  | succ n ih =>
    intro i hn hb
    unfold forReturnLoop
    rw [if_pos (by omega), hb i (le_refl _) (by omega)]
    cases hf : f i with
    | some v =>
      refine ⟨some v, rfl, Or.inr ⟨i, le_refl _, by omega, hf.symm, by simp [hf], ?_⟩⟩
      intro j' h1 h2; omega
    | none =>
      obtain ⟨o, h1, h2⟩ := ih (i + 1) (by omega) (fun j hj1 hj2 => hb j (by omega) hj2)
      refine ⟨o, h1, ?_⟩
      rcases h2 with ⟨ho, hall⟩ | ⟨j, hj1, hj2, hj3, hj4, hj5⟩
      · refine Or.inl ⟨ho, ?_⟩
        intro j hj1 hj2
        by_cases e : j = i
        · rw [e]; exact hf
        · exact hall j (by omega) hj2
      · refine Or.inr ⟨j, by omega, hj2, hj3, hj4, ?_⟩
        intro j' h1' h2'
        by_cases e : j' = i
        · rw [e]; exact hf
        · exact hj5 j' (by omega) h2'

/-- A `for` loop with a returning body that raises no fault: the loop raises
none, and returns what the body returns at the first index of `[lo, hi)` where
the body returns, or falls through when there is none. -/
theorem forReturn_spec {α : Type} (lo hi : Int) (h : lo ≤ hi)
    (body : Int → Except Fault (Option α)) (f : Int → Option α)
    (hb : ∀ j, lo ≤ j → j < hi → body j = .ok (f j)) :
    ∃ o, forReturn lo hi body = .ok o
      ∧ ((o = none ∧ ∀ j, lo ≤ j → j < hi → f j = none)
        ∨ ∃ j, lo ≤ j ∧ j < hi ∧ o = f j ∧ f j ≠ none
            ∧ ∀ j', lo ≤ j' → j' < j → f j' = none) := by
  unfold forReturn
  exact forReturnLoop_spec hi body f _ lo (by omega) hb

theorem forReturn_noFault {α : Type} (lo hi : Int) (h : lo ≤ hi)
    (body : Int → Except Fault (Option α))
    (hb : ∀ j, lo ≤ j → j < hi → ∃ o, body j = .ok o) :
    ∃ o, forReturn lo hi body = .ok o
      ∧ ((o = none ∧ ∀ j, lo ≤ j → j < hi → body j = .ok none)
        ∨ ∃ j v, lo ≤ j ∧ j < hi ∧ o = some v ∧ body j = .ok (some v)
            ∧ ∀ j', lo ≤ j' → j' < j → body j' = .ok none) := by
  have key : ∀ j, lo ≤ j → j < hi →
      body j = .ok (match body j with | .ok o => o | .error _ => none) := by
    intro j h1 h2
    obtain ⟨o, ho⟩ := hb j h1 h2
    rw [ho]
  obtain ⟨o, h1, h2⟩ := forReturn_spec lo hi h body _ key
  refine ⟨o, h1, ?_⟩
  rcases h2 with ⟨ho, hall⟩ | ⟨j, hj1, hj2, hj3, hj4, hj5⟩
  · refine Or.inl ⟨ho, ?_⟩
    intro j hj1 hj2
    rw [key j hj1 hj2, hall j hj1 hj2]
  · obtain ⟨oj, hoj⟩ := hb j hj1 hj2
    rw [hoj] at hj3 hj4
    simp only at hj3 hj4
    cases oj with
    | none => exact absurd rfl hj4
    | some v =>
      refine Or.inr ⟨j, v, hj1, hj2, hj3, hoj, ?_⟩
      intro j' h1' h2'
      rw [key j' h1' (by omega), hj5 j' h1' h2']

/-! ## The direction scans at one square -/

theorem brkDown_eq (b : Board) (color : squareType) (row column x : Int)
    (hr : 0 ≤ row ∧ row < 6) (hc : 0 ≤ column ∧ column < 7) (hx : 0 ≤ x) :
    brkDown b color row column x = .ok (decide (¬ holds b (row + x) column color)) := by
  unfold brkDown holds
  by_cases h : row + x ≥ (rows : Int)
  · have hg := getSquare_outOfRange b (row + x) column (by simp only [rows] at h; omega)
    rw [if_pos h]
    simp [hg]
  · rw [if_neg h]
    simp only [rows] at h
    have hg := getSquare_inRange b (row + x) column (by omega) hc
    simp [hg]

theorem brkRight_eq (b : Board) (color : squareType) (row column x : Int)
    (hr : 0 ≤ row ∧ row < 6) (hc : 0 ≤ column ∧ column < 7) (hx : 0 ≤ x) :
    brkRight b color row column x = .ok (decide (¬ holds b row (column + x) color)) := by
  unfold brkRight holds
  by_cases h : column + x ≥ (columns : Int)
  · have hg := getSquare_outOfRange b row (column + x) (by simp only [columns] at h; omega)
    rw [if_pos h]
    simp [hg]
  · rw [if_neg h]
    simp only [columns] at h
    have hg := getSquare_inRange b row (column + x) hr (by omega)
    simp [hg]

theorem brkDownRight_eq (b : Board) (color : squareType) (row column x : Int)
    (hr : 0 ≤ row ∧ row < 6) (hc : 0 ≤ column ∧ column < 7) (hx : 0 ≤ x) :
    brkDownRight b color row column x
      = .ok (decide (¬ holds b (row + x) (column + x) color)) := by
  unfold brkDownRight holds
  by_cases h : row + x ≥ (rows : Int)
  · have hg := getSquare_outOfRange b (row + x) (column + x)
      (by simp only [rows] at h; omega)
    rw [if_pos h]
    simp [hg]
  · rw [if_neg h]
    by_cases h' : column + x ≥ (columns : Int)
    · have hg := getSquare_outOfRange b (row + x) (column + x)
        (by simp only [columns] at h'; omega)
      rw [if_pos h']
      simp [hg]
    · rw [if_neg h']
      simp only [rows, columns] at h h'
      have hg := getSquare_inRange b (row + x) (column + x) (by omega) (by omega)
      simp [hg]

theorem brkDownLeft_eq (b : Board) (color : squareType) (row column x : Int)
    (hr : 0 ≤ row ∧ row < 6) (hc : 0 ≤ column ∧ column < 7) (hx : 0 ≤ x) :
    brkDownLeft b color row column x
      = .ok (decide (¬ holds b (row + x) (column - x) color)) := by
  unfold brkDownLeft holds
  by_cases h : row + x ≥ (rows : Int)
  · have hg := getSquare_outOfRange b (row + x) (column - x)
      (by simp only [rows] at h; omega)
    rw [if_pos h]
    simp [hg]
  · rw [if_neg h]
    by_cases h' : column - x < 0
    · have hg := getSquare_outOfRange b (row + x) (column - x) (by omega)
      rw [if_pos h']
      simp [hg]
    · rw [if_neg h']
      simp only [rows] at h
      have hg := getSquare_inRange b (row + x) (column - x) (by omega) (by omega)
      simp [hg]

/-- One direction scan `for (x=1; x<toWin; x++) if (...) break;` whose test
raises no fault: it ends with `x == toWin` exactly when the test is false at
1, 2 and 3. -/
theorem forBreak_toWin (brk : Int → Except Fault Bool) (q : Int → Prop) [DecidablePred q]
    (hb : ∀ x, 0 ≤ x → brk x = .ok (decide (¬ q x))) :
    ∃ x, forBreak 1 toWin brk = .ok x ∧ (x < 4 ∨ x = 4) ∧ (x = 4 ↔ q 1 ∧ q 2 ∧ q 3) := by
  obtain ⟨x, h1, h2, h3, h4, h5⟩ :=
    forBreak_spec 1 toWin (by simp) brk (fun x => decide (¬ q x))
      (fun y hy _ => hb y (by omega))
  simp only [toWin, Nat.cast_ofNat] at h3 h5
  refine ⟨x, h1, by omega, ?_⟩
  constructor
  · intro hx
    have a1 := h4 1 (by omega) (by omega)
    have a2 := h4 2 (by omega) (by omega)
    have a3 := h4 3 (by omega) (by omega)
    simp only [decide_eq_false_iff_not, not_not] at a1 a2 a3
    exact ⟨a1, a2, a3⟩
  · rintro ⟨a1, a2, a3⟩
    by_contra hne
    have hlt : x < 4 := by omega
    have := h5 hlt
    simp only [decide_eq_true_eq] at this
    have hx : x = 1 ∨ x = 2 ∨ x = 3 := by omega
    rcases hx with rfl | rfl | rfl
    · exact this a1
    · exact this a2
    · exact this a3

/-- The chained direction scans at a square of the grid raise no fault, and
reach the test `x==toWin` with `x == toWin` exactly when the three squares
after `(row, column)` hold `color` in one of the four directions. -/
theorem scanDirections_spec (b : Board) (color : squareType) (row column : Int)
    (hr : 0 ≤ row ∧ row < 6) (hc : 0 ≤ column ∧ column < 7) :
    ∃ x, scanDirections b color row column = .ok x
      ∧ (x = 4 ↔
          (holds b (row + 1) column color ∧ holds b (row + 2) column color
            ∧ holds b (row + 3) column color)
          ∨ (holds b row (column + 1) color ∧ holds b row (column + 2) color
            ∧ holds b row (column + 3) color)
          ∨ (holds b (row + 1) (column + 1) color ∧ holds b (row + 2) (column + 2) color
            ∧ holds b (row + 3) (column + 3) color)
          ∨ (holds b (row + 1) (column - 1) color ∧ holds b (row + 2) (column - 2) color
            ∧ holds b (row + 3) (column - 3) color)) := by
  obtain ⟨x1, e1, r1, i1⟩ := forBreak_toWin (brkDown b color row column)
    (fun x => holds b (row + x) column color) (fun x hx => brkDown_eq b color row column x hr hc hx)
  obtain ⟨x2, e2, r2, i2⟩ := forBreak_toWin (brkRight b color row column)
    (fun x => holds b row (column + x) color)
    (fun x hx => brkRight_eq b color row column x hr hc hx)
  obtain ⟨x3, e3, r3, i3⟩ := forBreak_toWin (brkDownRight b color row column)
    (fun x => holds b (row + x) (column + x) color)
    (fun x hx => brkDownRight_eq b color row column x hr hc hx)
  obtain ⟨x4, e4, r4, i4⟩ := forBreak_toWin (brkDownLeft b color row column)
    (fun x => holds b (row + x) (column - x) color)
    (fun x hx => brkDownLeft_eq b color row column x hr hc hx)
  have t4 : ((toWin : Nat) : Int) = 4 := rfl
  unfold scanDirections
  rw [e1]
  simp only [t4] at e2 e3 e4 ⊢
  rcases r1 with l1 | l1
  · rw [if_pos l1, e2]
    simp only
    have n1 : ¬ x1 = 4 := by omega
    rcases r2 with l2 | l2
    · rw [if_pos l2, e3]
      simp only
      have n2 : ¬ x2 = 4 := by omega
      rcases r3 with l3 | l3
      · rw [if_pos l3, e4]
        refine ⟨x4, rfl, ?_⟩
        have n3 : ¬ x3 = 4 := by omega
        rw [i4]
        constructor
        · intro h; exact Or.inr (Or.inr (Or.inr h))
        · rintro (h | h | h | h)
          · exact absurd (i1.mpr h) n1
          · exact absurd (i2.mpr h) n2
          · exact absurd (i3.mpr h) n3
          · exact h
      · rw [if_neg (by omega)]
        refine ⟨x3, rfl, ?_⟩
        constructor
        · intro h; exact Or.inr (Or.inr (Or.inl (i3.mp h)))
        · intro _; exact l3
    · rw [if_neg (by omega)]
      simp only
      rw [if_neg (by omega)]
      refine ⟨x2, rfl, ?_⟩
      constructor
      · intro h; exact Or.inr (Or.inl (i2.mp h))
      · intro _; exact l2
  · rw [if_neg (by omega)]
    simp only
    rw [if_neg (by omega)]
    simp only
    rw [if_neg (by omega)]
    refine ⟨x1, rfl, ?_⟩
    constructor
    · intro h; exact Or.inl (i1.mp h)
    · intro _; exact l1

end Board

theorem startsLine_iff (b : Board) (color : squareType) (r c : Int) :
    startsLine b color r c ↔
      holds b r c color ∧
        ((holds b (r + 1) c color ∧ holds b (r + 2) c color ∧ holds b (r + 3) c color)
        ∨ (holds b r (c + 1) color ∧ holds b r (c + 2) color ∧ holds b r (c + 3) color)
        ∨ (holds b (r + 1) (c + 1) color ∧ holds b (r + 2) (c + 2) color
            ∧ holds b (r + 3) (c + 3) color)
        ∨ (holds b (r + 1) (c - 1) color ∧ holds b (r + 2) (c - 2) color
            ∧ holds b (r + 3) (c - 3) color)) := by
  unfold startsLine isDirection lineFrom
  constructor
  · rintro ⟨dr, dc, (⟨rfl, rfl⟩ | ⟨rfl, rfl⟩ | ⟨rfl, rfl⟩ | ⟨rfl, rfl⟩), h0, h1, h2, h3⟩
    all_goals simp only [mul_one, mul_zero, add_zero, mul_neg, ← sub_eq_add_neg] at h1 h2 h3
    · exact ⟨h0, Or.inl ⟨h1, h2, h3⟩⟩
    · exact ⟨h0, Or.inr (Or.inl ⟨h1, h2, h3⟩)⟩
    · exact ⟨h0, Or.inr (Or.inr (Or.inl ⟨h1, h2, h3⟩))⟩
    · exact ⟨h0, Or.inr (Or.inr (Or.inr ⟨h1, h2, h3⟩))⟩
  · rintro ⟨h0, (⟨h1, h2, h3⟩ | ⟨h1, h2, h3⟩ | ⟨h1, h2, h3⟩ | ⟨h1, h2, h3⟩)⟩
    · refine ⟨1, 0, Or.inl ⟨rfl, rfl⟩, h0, ?_⟩
      simp only [mul_one, mul_zero, add_zero]
      exact ⟨h1, h2, h3⟩
    · refine ⟨0, 1, Or.inr (Or.inl ⟨rfl, rfl⟩), h0, ?_⟩
      simp only [mul_one, mul_zero, add_zero]
      exact ⟨h1, h2, h3⟩
    · refine ⟨1, 1, Or.inr (Or.inr (Or.inl ⟨rfl, rfl⟩)), h0, ?_⟩
      simp only [mul_one]
      exact ⟨h1, h2, h3⟩
    · refine ⟨1, -1, Or.inr (Or.inr (Or.inr ⟨rfl, rfl⟩)), h0, ?_⟩
      simp only [mul_one, mul_neg, ← sub_eq_add_neg]
      exact ⟨h1, h2, h3⟩

theorem hasLine_iff_startsLine (b : Board) (color : squareType) :
    hasLine b color ↔ ∃ r c : Int, startsLine b color r c := by
  unfold hasLine startsLine
  constructor
  · rintro ⟨r, c, dr, dc, h⟩; exact ⟨r, c, dr, dc, h⟩
  · rintro ⟨r, c, dr, dc, h⟩; exact ⟨r, c, dr, dc, h⟩

namespace Board

/-- The body of the win scan at a square of the grid raises no fault, and
returns with a colour exactly when that colour is not `Empty` and a line of 4
of it starts at the square. -/
theorem squareWins_spec (b : Board) (row column : Int)
    (hr : 0 ≤ row ∧ row < 6) (hc : 0 ≤ column ∧ column < 7) :
    ∃ o, squareWins b row column = .ok o
      ∧ ∀ v, o = some v ↔ (v ≠ squareType.Empty ∧ startsLine b v row column) := by
  have hg := getSquare_inRange b row column hr hc
  generalize hs : b.board ⟨row.toNat, _⟩ ⟨column.toNat, _⟩ = s at hg
  unfold squareWins
  rw [hg]
  simp only
  by_cases he : s = squareType.Empty
  · rw [if_neg (by simp [he])]
    refine ⟨none, rfl, ?_⟩
    intro v
    constructor
    · intro h; cases h
    · rintro ⟨hv, hl⟩
      rw [startsLine_iff] at hl
      have := hl.1
      unfold holds at this
      rw [hg] at this
      injection this with this
      exact absurd (this.symm.trans he) hv
  · rw [if_pos he]
    obtain ⟨x, hx, hiff⟩ := scanDirections_spec b s row column hr hc
    rw [hx]
    simp only
    have t4 : ((toWin : Nat) : Int) = 4 := rfl
    rw [t4]
    by_cases h4 : x = 4
    · rw [if_pos h4]
      refine ⟨some s, rfl, ?_⟩
      intro v
      constructor
      · intro h
        injection h with h
        subst h
        exact ⟨he, (startsLine_iff b s row column).mpr ⟨hg, hiff.mp h4⟩⟩
      · rintro ⟨_, hl⟩
        rw [startsLine_iff] at hl
        have := hl.1
        unfold holds at this
        rw [hg] at this
        injection this with this
        rw [this]
    · rw [if_neg h4]
      refine ⟨none, rfl, ?_⟩
      intro v
      constructor
      · intro h; cases h
      · rintro ⟨_, hl⟩
        rw [startsLine_iff] at hl
        have h0 := hl.1
        unfold holds at h0
        rw [hg] at h0
        injection h0 with h0
        subst h0
        exact absurd (hiff.mpr hl.2) h4

/-! ## The win scan and the tie scan -/

theorem startsLine_inRange (b : Board) (v : squareType) (r c : Int)
    (h : startsLine b v r c) : (0 ≤ r ∧ r < 6) ∧ (0 ≤ c ∧ c < 7) := by
  rw [startsLine_iff] at h
  exact getSquare_ok_inRange b r c v h.1

/-- The inner loop of the win scan, on a row of the grid. -/
theorem rowScan_spec (b : Board) (row : Int) (hr : 0 ≤ row ∧ row < 6) :
    ∃ o, forReturn 0 columns (fun column => squareWins b row column) = .ok o
      ∧ ((o = none ∧ ∀ c v, v ≠ squareType.Empty → ¬ startsLine b v row c)
        ∨ ∃ c v, (0 ≤ c ∧ c < 7) ∧ o = some v ∧ v ≠ squareType.Empty ∧ startsLine b v row c
            ∧ ∀ c' v', c' < c → v' ≠ squareType.Empty → ¬ startsLine b v' row c') := by
  have hnone : ∀ c, (0 ≤ c ∧ c < 7) → squareWins b row c = .ok none →
      ∀ v, v ≠ squareType.Empty → ¬ startsLine b v row c := by
    intro c hc hn v hv hl
    obtain ⟨o, ho, hiff⟩ := squareWins_spec b row c hr hc
    rw [hn] at ho
    injection ho with ho
    have := (hiff v).mpr ⟨hv, hl⟩
    rw [← ho] at this
    cases this
  obtain ⟨o, ho, hcase⟩ := forReturn_noFault 0 columns (by simp)
    (fun column => squareWins b row column)
    (fun j h1 h2 => by
      obtain ⟨o, ho, _⟩ := squareWins_spec b row j hr ⟨h1, by simpa using h2⟩
      exact ⟨o, ho⟩)
  refine ⟨o, ho, ?_⟩
  rcases hcase with ⟨hn, hall⟩ | ⟨c, v, hc1, hc2, hov, hcv, hbefore⟩
  · refine Or.inl ⟨hn, ?_⟩
    intro c v hv hl
    have hin := (startsLine_inRange b v row c hl).2
    exact hnone c hin (hall c hin.1 (by simpa using hin.2)) v hv hl
  · have hc : 0 ≤ c ∧ c < 7 := ⟨hc1, by simpa using hc2⟩
    obtain ⟨o', ho', hiff⟩ := squareWins_spec b row c hr hc
    rw [hcv] at ho'
    injection ho' with ho'
    have hv := (hiff v).mp ho'.symm
    refine Or.inr ⟨c, v, hc, hov, hv.1, hv.2, ?_⟩
    intro c' v' hlt hv' hl
    have hin := (startsLine_inRange b v' row c' hl).2
    exact hnone c' hin (hbefore c' hin.1 hlt) v' hv' hl

/-- The win scan raises no fault. It falls through exactly when no line of 4
squares of a colour other than `Empty` starts anywhere; otherwise it returns
the colour of the line that starts at the first square, in row-major order,
where one starts. -/
theorem winScan_spec (b : Board) :
    ∃ o, b.winScan = .ok o
      ∧ ((o = none ∧ ∀ r c v, v ≠ squareType.Empty → ¬ startsLine b v r c)
        ∨ ∃ r c v, (0 ≤ r ∧ r < 6) ∧ (0 ≤ c ∧ c < 7) ∧ o = some v
            ∧ v ≠ squareType.Empty ∧ startsLine b v r c
            ∧ ∀ r' c' v', (r' < r ∨ (r' = r ∧ c' < c)) → v' ≠ squareType.Empty →
                ¬ startsLine b v' r' c') := by
  obtain ⟨o, ho, hcase⟩ := forReturn_noFault 0 rows (by simp)
    (fun row => forReturn 0 columns (fun column => squareWins b row column))
    (fun j h1 h2 => by
      obtain ⟨o, ho, _⟩ := rowScan_spec b j ⟨h1, by simpa using h2⟩
      exact ⟨o, ho⟩)
  refine ⟨o, ho, ?_⟩
  have hnone : ∀ r, (0 ≤ r ∧ r < 6) →
      forReturn 0 columns (fun column => squareWins b r column) = .ok none →
      ∀ c v, v ≠ squareType.Empty → ¬ startsLine b v r c := by
    intro r hr hn
    obtain ⟨o', ho', hc'⟩ := rowScan_spec b r hr
    rw [hn] at ho'
    injection ho' with ho'
    rcases hc' with ⟨_, hall⟩ | ⟨c, v, _, hov, _⟩
    · exact hall
    · rw [← ho'] at hov; cases hov
  rcases hcase with ⟨hn, hall⟩ | ⟨r, v, hr1, hr2, hov, hrv, hbefore⟩
  · refine Or.inl ⟨hn, ?_⟩
    intro r c v hv hl
    have hin := (startsLine_inRange b v r c hl).1
    exact hnone r hin (hall r hin.1 (by simpa using hin.2)) c v hv hl
  · have hr : 0 ≤ r ∧ r < 6 := ⟨hr1, by simpa using hr2⟩
    obtain ⟨o', ho', hc'⟩ := rowScan_spec b r hr
    rw [hrv] at ho'
    injection ho' with ho'
    rcases hc' with ⟨hn', _⟩ | ⟨c, v', hc, hov', hv', hl, hbefore'⟩
    · rw [← ho'] at hn'; cases hn'
    · rw [← ho'] at hov'
      injection hov' with hov'
      subst hov'
      refine Or.inr ⟨r, c, v, hr, hc, hov, hv', hl, ?_⟩
      intro r' c' v'' hlt hv'' hl'
      have hin := (startsLine_inRange b v'' r' c' hl').1
      rcases hlt with hlt | ⟨rfl, hlt⟩
      · exact hnone r' hin (hbefore r' hin.1 hlt) c' v'' hv'' hl'
      · exact hbefore' c' v'' hlt hv'' hl'

theorem hasWinningLine_iff (b : Board) :
    hasWinningLine b ↔ ∃ r c v, v ≠ squareType.Empty ∧ startsLine b v r c := by
  unfold hasWinningLine
  constructor
  · rintro ⟨v, hv, hl⟩
    obtain ⟨r, c, h⟩ := (hasLine_iff_startsLine b v).mp hl
    exact ⟨r, c, v, hv, h⟩
  · rintro ⟨r, c, v, hv, h⟩
    exact ⟨v, hv, (hasLine_iff_startsLine b v).mpr ⟨r, c, h⟩⟩

/-- The win scan falls through exactly when the grid holds no winning line, and
a colour it returns is the colour of a line of the grid. -/
theorem winScan_cases (b : Board) :
    (b.winScan = .ok none ∧ ¬ hasWinningLine b)
      ∨ ∃ v, b.winScan = .ok (some v) ∧ v ≠ squareType.Empty ∧ hasLine b v := by
  obtain ⟨o, ho, hcase⟩ := winScan_spec b
  rcases hcase with ⟨hn, hall⟩ | ⟨r, c, v, _, _, hov, hv, hl, _⟩
  · left
    rw [ho, hn]
    refine ⟨rfl, ?_⟩
    rw [hasWinningLine_iff]
    rintro ⟨r, c, v, hv, hl⟩
    exact hall r c v hv hl
  · right
    rw [ho, hov]
    exact ⟨v, rfl, hv, (hasLine_iff_startsLine b v).mpr ⟨r, c, hl⟩⟩

theorem holds_fin (b : Board) (r : Fin rows) (c : Fin columns) (s : squareType) :
    holds b (r.val : Int) (c.val : Int) s ↔ b.board r c = s := by
  unfold holds
  rw [getSquare_fin]
  constructor
  · intro h; injection h
  · intro h; rw [h]

/-- The tie scan raises no fault, and ends with `x == columns` exactly when
every square of row 0 is not `Empty`. -/
theorem tieScan_spec (b : Board) :
    ∃ x, b.tieScan = .ok x ∧ (x = 7 ↔ topRowFilled b) := by
  have hb : ∀ y, (0 : Int) ≤ y → y < (columns : Int) →
      brkTie b y = .ok (decide (holds b 0 y squareType.Empty)) := by
    intro y h1 h2
    simp only [columns, Nat.cast_ofNat] at h2
    have hg := getSquare_inRange b 0 y (by omega) ⟨h1, h2⟩
    unfold brkTie holds
    simp [hg]
  obtain ⟨x, hx, h1, h2, h3, h4⟩ := forBreak_spec 0 columns (by simp) (brkTie b) _ hb
  simp only [columns, Nat.cast_ofNat] at h2 h4
  refine ⟨x, hx, ?_⟩
  unfold topRowFilled
  constructor
  · intro h7 c
    have hc := c.isLt
    simp only [columns] at hc
    have := h3 (c.val : Int) (by omega) (by omega)
    simp only [decide_eq_false_iff_not] at this
    intro he
    apply this
    exact (holds_fin b 0 c squareType.Empty).mpr he
  · intro hall
    by_contra hne
    have hlt : x < 7 := by omega
    have := h4 hlt
    simp only [decide_eq_true_eq] at this
    have hxn : ((x.toNat : Nat) : Int) = x := by omega
    have hlt' : x.toNat < columns := by simp only [columns]; omega
    have h0 := (holds_fin b 0 ⟨x.toNat, hlt'⟩ squareType.Empty).mp
      (by simpa [hxn] using this)
    exact hall ⟨x.toNat, hlt'⟩ h0

/-! ## The method `move` -/

theorem move_terminal (b : Board) (column : Int) (h : isTerminal b.currentGameState) :
    b.move column = (.ok false, b) := by
  unfold move
  rw [if_pos (show _ ∨ _ ∨ _ from h)]

theorem not_terminal_of_turn {s : gameState} (h : isTurn s) : ¬ isTerminal s := by
  unfold isTurn at h
  unfold isTerminal
  rcases h with h | h <;> rw [h] <;> decide

theorem turn_or_terminal (s : gameState) : isTurn s ∨ isTerminal s := by
  unfold isTurn isTerminal
  cases s <;> simp

/-- A call of `move` in a turn state on a column outside the grid: the fault
of `getSquare(0, column)` leaves the method, nothing is assigned. -/
theorem move_invalid (b : Board) (column : Int) (ht : isTurn b.currentGameState)
    (hc : column < 0 ∨ 7 ≤ column) :
    b.move column = (.error .outOfRange, b) := by
  unfold move
  rw [if_neg (show ¬ (_ ∨ _ ∨ _) from not_terminal_of_turn ht), findRow_invalid b column hc]

/-- A call of `move` in a turn state on a column of the grid whose top square
is not `Empty`. -/
theorem move_full (b : Board) (column : Int) (ht : isTurn b.currentGameState)
    (hc : 0 ≤ column ∧ column < 7) (htop : ¬ holds b 0 column squareType.Empty) :
    b.move column = (.ok false, b) := by
  obtain ⟨row, hrow, h0, h6, hall, _⟩ := findRow_spec b column hc
  have hz : row = 0 := by
    by_contra hne
    exact htop (hall 0 (le_refl _) (by omega))
  unfold move
  rw [if_neg (show ¬ (_ ∨ _ ∨ _) from not_terminal_of_turn ht), hrow]
  simp only
  rw [if_pos hz]

/-- A call of `move` in a turn state on a column of the grid whose top square
is `Empty`: the landing row, the board `b1` after the assignment of the square,
and the state assigned after the two scans of `b1`. -/
theorem move_spec (b : Board) (column : Int) (ht : isTurn b.currentGameState)
    (hc : 0 ≤ column ∧ column < 7) (htop : holds b 0 column squareType.Empty) :
    ∃ row b1, 1 ≤ row ∧ row ≤ 6
      ∧ (∀ r, 0 ≤ r → r < row → holds b r column squareType.Empty)
      ∧ (row < 6 → ¬ holds b row column squareType.Empty)
      ∧ b.setSquare (row - 1) column (moverColour b) = .ok b1
      ∧ (b.move column).1 = .ok true
      ∧ (b.move column).2.board = b1.board
      ∧ (b.move column).2.blackWentFirst = b.blackWentFirst
      ∧ ((∃ v, b1.winScan = .ok (some v) ∧ v ≠ squareType.Empty ∧ hasLine b1 v
              ∧ (b.move column).2.currentGameState = winState v)
        ∨ (¬ hasWinningLine b1 ∧ topRowFilled b1
              ∧ (b.move column).2.currentGameState = Tie)
        ∨ (¬ hasWinningLine b1 ∧ ¬ topRowFilled b1
              ∧ (b.move column).2.currentGameState
                  = if b.currentGameState = RedTurn then BlackTurn else RedTurn)) := by
  obtain ⟨row, hrow, h0, h6, hall, hstop⟩ := findRow_spec b column hc
  have hz : row ≠ 0 := by
    intro hz
    rw [hz] at hstop
    exact hstop (by omega) htop
  obtain ⟨b1, hset, hst, hfl, hbd⟩ :=
    setSquare_inRange b (row - 1) column (moverColour b) (by omega) hc
  refine ⟨row, b1, by omega, h6, hall, hstop, hset, ?_⟩
  unfold moverColour at hset
  obtain ⟨x, hx, htie⟩ := tieScan_spec b1
  have t7 : ((columns : Nat) : Int) = 7 := rfl
  unfold move
  rw [if_neg (show ¬ (_ ∨ _ ∨ _) from not_terminal_of_turn ht), hrow]
  simp only
  rw [if_neg hz, hset]
  simp only
  rcases winScan_cases b1 with ⟨hw, hno⟩ | ⟨v, hw, hv, hl⟩
  · rw [hw]
    simp only
    rw [hx]
    simp only [t7]
    by_cases h7 : x = 7
    · rw [if_pos h7]
      exact ⟨rfl, rfl, hfl, Or.inr (Or.inl ⟨hno, htie.mp h7, rfl⟩)⟩
    · rw [if_neg h7]
      refine ⟨rfl, rfl, hfl, Or.inr (Or.inr ⟨hno, fun h => h7 (htie.mpr h), ?_⟩)⟩
      simp only [hst]
  · rw [hw]
    exact ⟨rfl, rfl, hfl, Or.inl ⟨v, rfl, hv, hl, rfl⟩⟩

theorem holds_congr (b b' : Board) (h : b.board = b'.board) (r c : Int) (s : squareType) :
    holds b r c s ↔ holds b' r c s := by
  unfold holds
  rw [getSquare_congr b b' h]

theorem hasLine_congr (b b' : Board) (h : b.board = b'.board) (v : squareType) :
    hasLine b v ↔ hasLine b' v := by
  unfold hasLine lineFrom
  simp only [holds_congr b b' h]

theorem hasWinningLine_congr (b b' : Board) (h : b.board = b'.board) :
    hasWinningLine b ↔ hasWinningLine b' := by
  unfold hasWinningLine
  simp only [hasLine_congr b b' h]

theorem topRowFilled_congr (b b' : Board) (h : b.board = b'.board) :
    topRowFilled b ↔ topRowFilled b' := by
  unfold topRowFilled
  rw [h]

/-- The squares the constructor starts from do not show in the board it builds. -/
theorem construct_eq_fresh (uninitialised : Grid) : construct uninitialised = fresh := rfl

theorem moves_nil (b : Board) : b.moves [] = b := rfl

theorem moves_cons (b : Board) (c : Int) (cs : List Int) :
    b.moves (c :: cs) = (b.move c).2.moves cs := rfl

theorem moves_terminal (b : Board) (h : isTerminal b.currentGameState) (cols : List Int) :
    b.moves cols = b ∧ ∀ r ∈ moveResults b cols, r = .ok false := by
  induction cols with
  | nil => exact ⟨rfl, fun r hr => by cases hr⟩
  | cons c cs ih =>
    rw [moves_cons]
    unfold moveResults
    rw [move_terminal b c h]
    refine ⟨ih.1, ?_⟩
    intro r hr
    rcases List.mem_cons.mp hr with e | e
    · exact e
    · exact ih.2 r e

end Board

set_option maxRecDepth 100000

/-! ## The claims -/

open Board

/-- C1: in a state `RedWins`, `BlackWins` or `Tie`, `move` returns `false` for
every column index (inside the grid or not) and leaves the whole board, so the
grid and the state, as it was; hence after any sequence of further `move` calls
the board is still the same, and every one of these calls returned `false`. -/
theorem move_rejected_when_terminal (b : Board) (h : isTerminal b.currentGameState)
    (column : Int) (cols : List Int) :
    b.move column = (.ok false, b)
      ∧ b.moves cols = b
      ∧ (b.moves cols).board = b.board
      ∧ (b.moves cols).currentGameState = b.currentGameState
      ∧ ∀ r ∈ moveResults b cols, r = .ok false := by
  have hm := moves_terminal b h cols
  refine ⟨move_terminal b column h, hm.1, ?_, ?_, hm.2⟩
  · rw [hm.1]
  · rw [hm.1]

theorem move_rejected_when_terminal_witness :
    isTerminal redWon.currentGameState
      ∧ redWon.move 3 = (.ok false, redWon)
      ∧ redWon.moves [4, 9, -1] = redWon
      ∧ (redWon.moves [4, 9, -1]).board = redWon.board
      ∧ (redWon.moves [4, 9, -1]).currentGameState = redWon.currentGameState
      ∧ ∀ r ∈ moveResults redWon [4, 9, -1], r = .ok false :=
  ⟨by decide, move_rejected_when_terminal redWon (by decide) 3 [4, 9, -1]⟩

/-- C2: in a turn state, on a column `0 ≤ c < 7` whose top square `(0, c)`
holds a colour other than `Empty`, `move(c)` returns `false` and leaves the
board (grid and state) as it was. On a fresh board seven calls `move(0)` return
`true` six times and `false` the seventh time, and the seventh leaves the grid
as the sixth left it. -/
theorem move_rejected_on_full_column (b : Board) (ht : isTurn b.currentGameState)
    (c : Int) (hc0 : 0 ≤ c) (hc7 : c < 7) (s : squareType) (htop : holds b 0 c s)
    (hs : s ≠ squareType.Empty) :
    b.move c = (.ok false, b)
      ∧ moveResults Board.fresh [0, 0, 0, 0, 0, 0, 0]
          = [.ok true, .ok true, .ok true, .ok true, .ok true, .ok true, .ok false]
      ∧ (Board.fresh.moves [0, 0, 0, 0, 0, 0, 0]).board
          = (Board.fresh.moves [0, 0, 0, 0, 0, 0]).board := by
  refine ⟨move_full b c ht ⟨hc0, hc7⟩ ?_, by decide, ?_⟩
  · intro he
    unfold holds at htop he
    rw [htop] at he
    injection he with he
    exact hs he
  · show ((Board.fresh.moves [0, 0, 0, 0, 0, 0]).move 0).2.board = _
    rw [move_full _ 0 (by decide) (by decide) (by decide)]

theorem move_rejected_on_full_column_witness :
    isTurn columnZeroFull.currentGameState
      ∧ holds columnZeroFull 0 0 Black
      ∧ columnZeroFull.move 0 = (.ok false, columnZeroFull) :=
  ⟨by decide, by decide,
    (move_rejected_on_full_column columnZeroFull (by decide) 0 (by decide) (by decide)
      Black (by decide) (by decide)).1⟩

/-- C3 as stated fails: on a fresh board (Red to move) `move(7)` and
`move(-1)` do not return `false`, they raise the out-of-range fault of
`getSquare(0, column)`. -/
theorem move_outside_grid_faults :
    isTurn Board.fresh.currentGameState
      ∧ (Board.fresh.move 7).1 = .error .outOfRange
      ∧ (Board.fresh.move 7).1 ≠ .ok false
      ∧ (Board.fresh.move (-1)).1 = .error .outOfRange := by
  decide

/-- C3, amended: for a column index outside `[0, 7)`, `move` leaves the board
(grid and state) as it was; in a state `RedWins`, `BlackWins` or `Tie` it
returns `false` and raises no fault, and in a turn state it raises the
out-of-range fault of `getSquare(0, column)` instead of returning. -/
theorem move_outside_grid (b : Board) (column : Int) (hc : column < 0 ∨ 7 ≤ column) :
    (b.move column).2 = b
      ∧ (isTerminal b.currentGameState → (b.move column).1 = .ok false)
      ∧ (isTurn b.currentGameState → (b.move column).1 = .error .outOfRange) := by
  refine ⟨?_, ?_, ?_⟩
  · rcases turn_or_terminal b.currentGameState with ht | ht
    · rw [move_invalid b column ht hc]
    · rw [move_terminal b column ht]
  · intro ht; rw [move_terminal b column ht]
  · intro ht; rw [move_invalid b column ht hc]

theorem move_outside_grid_witness :
    (threeInRow.move 7).2 = threeInRow
      ∧ (isTerminal threeInRow.currentGameState → (threeInRow.move 7).1 = .ok false)
      ∧ (isTurn threeInRow.currentGameState → (threeInRow.move 7).1 = .error .outOfRange) :=
  move_outside_grid threeInRow 7 (by decide)

/-- C4: on a board that satisfies the gravity invariant, in a turn state, on a
column `0 ≤ c < 7` whose top square is `Empty`, `move(c)` returns `true` and the
mover's colour (`Red` in `RedTurn`, `Black` in `BlackTurn`) is written into the
square `(r, c)` where `r` is the greatest row index whose square of column `c`
was `Empty`. -/
theorem move_lands_on_lowest_empty (b : Board) (hg : Gravity b)
    (ht : isTurn b.currentGameState) (c : Int) (hc0 : 0 ≤ c) (hc7 : c < 7)
    (htop : holds b 0 c squareType.Empty) :
    (b.move c).1 = .ok true
      ∧ ∃ r, holds b r c squareType.Empty
          ∧ (∀ r', r < r' → ¬ holds b r' c squareType.Empty)
          ∧ holds (b.move c).2 r c (moverColour b)
          ∧ (b.currentGameState = RedTurn → holds (b.move c).2 r c Red)
          ∧ (b.currentGameState = BlackTurn → holds (b.move c).2 r c Black) := by
  obtain ⟨row, b1, h1, h6, hall, hstop, hset, hret, hbd, _, _⟩ :=
    move_spec b c ht ⟨hc0, hc7⟩ htop
  have hplaced : holds (b.move c).2 (row - 1) c (moverColour b) := by
    rw [holds_congr _ b1 hbd]
    unfold holds
    rw [getSquare_setSquare b b1 _ _ _ hset, if_pos ⟨rfl, rfl⟩]
  refine ⟨hret, row - 1, hall (row - 1) (by omega) (by omega), ?_, hplaced, ?_, ?_⟩
  · intro r' hlt hr'
    have hin := getSquare_ok_inRange b r' c _ hr'
    have hrow : row < 6 := by omega
    have hne := hstop hrow
    have hrn : row.toNat < rows := by simp only [rows]; omega
    have hrn' : r'.toNat < rows := by simp only [rows]; omega
    have hcn : c.toNat < columns := by simp only [columns]; omega
    have e1 : (((⟨row.toNat, hrn⟩ : Fin rows).val : Nat) : Int) = row := by simp only; omega
    have e2 : (((⟨r'.toNat, hrn'⟩ : Fin rows).val : Nat) : Int) = r' := by simp only; omega
    have e3 : (((⟨c.toNat, hcn⟩ : Fin columns).val : Nat) : Int) = c := by simp only; omega
    have hne' : b.board ⟨row.toNat, hrn⟩ ⟨c.toNat, hcn⟩ ≠ squareType.Empty := by
      intro he
      apply hne
      have := (holds_fin b ⟨row.toNat, hrn⟩ ⟨c.toNat, hcn⟩ squareType.Empty).mpr he
      rwa [e1, e3] at this
    have he' : b.board ⟨r'.toNat, hrn'⟩ ⟨c.toNat, hcn⟩ = squareType.Empty := by
      apply (holds_fin b ⟨r'.toNat, hrn'⟩ ⟨c.toNat, hcn⟩ squareType.Empty).mp
      rwa [e2, e3]
    by_cases heq : r' = row
    · subst heq; exact hne' he'
    · exact hg ⟨c.toNat, hcn⟩ ⟨row.toNat, hrn⟩ ⟨r'.toNat, hrn'⟩
        (by rw [Fin.lt_def]; simp only; omega) hne' he'
  · intro hs
    have : moverColour b = Red := by unfold moverColour; rw [if_pos hs]
    rwa [this] at hplaced
  · intro hs
    have : moverColour b = Black := by unfold moverColour; rw [hs]; decide
    rwa [this] at hplaced

theorem move_lands_on_lowest_empty_witness :
    Gravity threeInRow ∧ isTurn threeInRow.currentGameState
      ∧ holds threeInRow 0 0 squareType.Empty
      ∧ (threeInRow.move 0).1 = .ok true
      ∧ ∃ r, holds threeInRow r 0 squareType.Empty
          ∧ (∀ r', r < r' → ¬ holds threeInRow r' 0 squareType.Empty)
          ∧ holds (threeInRow.move 0).2 r 0 (moverColour threeInRow)
          ∧ (threeInRow.currentGameState = RedTurn → holds (threeInRow.move 0).2 r 0 Red)
          ∧ (threeInRow.currentGameState = BlackTurn
              → holds (threeInRow.move 0).2 r 0 Black) :=
  ⟨by decide, by decide, by decide,
    move_lands_on_lowest_empty threeInRow (by decide) (by decide) 0 (by decide) (by decide)
      (by decide)⟩

theorem winState_cases (v : squareType) : winState v = RedWins ∨ winState v = BlackWins := by
  unfold winState
  by_cases h : v = Red
  · rw [if_pos h]; exact Or.inl rfl
  · rw [if_neg h]; exact Or.inr rfl

theorem hasWinningLine_of_lineFrom (b : Board) (v : squareType) (hv : v ≠ squareType.Empty)
    (r c dr dc : Int) (hd : isDirection dr dc) (hl : lineFrom b v r c dr dc) :
    hasWinningLine b :=
  ⟨v, hv, r, c, dr, dc, hd, hl⟩

/-- C5: in a turn state, on a column `0 ≤ c < 7` whose top square is `Empty`
(the column is not full, `move` places the piece), the state after `move` is
`RedWins` or `BlackWins` if and only if there are a start square `(r0, c0)` and
one of the four directions (down, right, down-right, down-left) such that the 4
squares `(r0, c0)`, `(r0, c0)+d`, `(r0, c0)+2d`, `(r0, c0)+3d` all lie inside
the grid and all hold the same colour other than `Empty`; otherwise the state
is `Tie` or a turn state. -/
theorem win_state_iff_line (b : Board) (ht : isTurn b.currentGameState)
    (c : Int) (hc0 : 0 ≤ c) (hc7 : c < 7) (htop : holds b 0 c squareType.Empty) :
    (((b.move c).2.currentGameState = RedWins ∨ (b.move c).2.currentGameState = BlackWins)
        ↔ ∃ (r0 c0 dr dc : Int) (color : squareType), isDirection dr dc
            ∧ color ≠ squareType.Empty ∧ lineFrom (b.move c).2 color r0 c0 dr dc)
      ∧ (¬ ((b.move c).2.currentGameState = RedWins
            ∨ (b.move c).2.currentGameState = BlackWins)
          → (b.move c).2.currentGameState = Tie ∨ isTurn (b.move c).2.currentGameState) := by
  obtain ⟨row, b1, -, -, -, -, -, -, hbd, -, hcase⟩ := move_spec b c ht ⟨hc0, hc7⟩ htop
  have hline : hasWinningLine (b.move c).2 ↔
      ∃ (r0 c0 dr dc : Int) (color : squareType), isDirection dr dc
        ∧ color ≠ squareType.Empty ∧ lineFrom (b.move c).2 color r0 c0 dr dc := by
    constructor
    · rintro ⟨v, hv, r0, c0, dr, dc, hd, hl⟩
      exact ⟨r0, c0, dr, dc, v, hd, hv, hl⟩
    · rintro ⟨r0, c0, dr, dc, v, hd, hv, hl⟩
      exact ⟨v, hv, r0, c0, dr, dc, hd, hl⟩
  rw [← hline, hasWinningLine_congr _ b1 hbd]
  refine ⟨?_, ?_⟩
  · rcases hcase with ⟨v, -, hv, hl, hst⟩ | ⟨hno, -, hst⟩ | ⟨hno, -, hst⟩
    · rw [hst]
      exact ⟨fun _ => ⟨v, hv, hl⟩, fun _ => winState_cases v⟩
    · rw [hst]
      constructor
      · rintro (h | h) <;> cases h
      · intro h; exact absurd h hno
    · rw [hst]
      constructor
      · unfold isTurn at ht
        rcases ht with h | h <;> rw [h] <;> simp
      · intro h; exact absurd h hno
  · intro hnw
    cases hs : (b.move c).2.currentGameState with
    | RedTurn => exact Or.inr (Or.inl rfl)
    | BlackTurn => exact Or.inr (Or.inr rfl)
    | RedWins => exact absurd (Or.inl hs) hnw
    | BlackWins => exact absurd (Or.inr hs) hnw
    | Tie => exact Or.inl rfl

theorem win_state_iff_line_witness :
    isTurn threeInRow.currentGameState ∧ holds threeInRow 0 3 squareType.Empty
      ∧ (((threeInRow.move 3).2.currentGameState = RedWins
            ∨ (threeInRow.move 3).2.currentGameState = BlackWins)
          ↔ ∃ (r0 c0 dr dc : Int) (color : squareType), isDirection dr dc
              ∧ color ≠ squareType.Empty ∧ lineFrom (threeInRow.move 3).2 color r0 c0 dr dc)
      ∧ (¬ ((threeInRow.move 3).2.currentGameState = RedWins
            ∨ (threeInRow.move 3).2.currentGameState = BlackWins)
          → (threeInRow.move 3).2.currentGameState = Tie
            ∨ isTurn (threeInRow.move 3).2.currentGameState) :=
  ⟨by decide, by decide,
    win_state_iff_line threeInRow (by decide) 3 (by decide) (by decide) (by decide)⟩

/-! ## Invariants of the reachable states -/

theorem moverColour_ne_empty (b : Board) : moverColour b ≠ squareType.Empty := by
  unfold moverColour
  split <;> decide

theorem board_setSquare (b b1 : Board) (row column : Int) (v : squareType)
    (h : b.setSquare row column v = .ok b1) (r : Fin rows) (c : Fin columns) :
    b1.board r c = if (r.val : Int) = row ∧ (c.val : Int) = column then v else b.board r c := by
  have hg := getSquare_setSquare b b1 row column v h r.val c.val
  rw [getSquare_fin, getSquare_fin] at hg
  by_cases hrc : (r.val : Int) = row ∧ (c.val : Int) = column
  · rw [if_pos hrc] at hg ⊢
    injection hg
  · rw [if_neg hrc] at hg ⊢
    injection hg

/-- A call of `move` either leaves the board as it was, or it is made in a turn
state on a column of the grid whose top square is `Empty`. -/
theorem move_cases (b : Board) (column : Int) :
    (b.move column).2 = b
      ∨ (isTurn b.currentGameState ∧ (0 ≤ column ∧ column < 7)
          ∧ holds b 0 column squareType.Empty) := by
  rcases turn_or_terminal b.currentGameState with ht | ht
  · by_cases hc : 0 ≤ column ∧ column < 7
    · by_cases htop : holds b 0 column squareType.Empty
      · exact Or.inr ⟨ht, hc, htop⟩
      · left; rw [move_full b column ht hc htop]
    · left; rw [move_invalid b column ht (by omega)]
  · left; rw [move_terminal b column ht]

theorem noLine_of_empty (b : Board) (h : ∀ r c, b.board r c = squareType.Empty) :
    ¬ hasWinningLine b := by
  rintro ⟨v, hv, r, c, dr, dc, -, h0, -⟩
  have hin := getSquare_ok_inRange b r c v h0
  unfold holds at h0
  rw [getSquare_inRange b r c hin.1 hin.2, h] at h0
  injection h0 with h0
  exact hv h0.symm

/-- After the assignment of the mover's colour to one square of a grid without
a winning line, every winning line is of the mover's colour. -/
theorem line_after_setSquare (b b1 : Board) (row column : Int)
    (hno : ¬ hasWinningLine b)
    (hset : b.setSquare row column (moverColour b) = .ok b1)
    (v : squareType) (hv : v ≠ squareType.Empty) (hl : hasLine b1 v) :
    v = moverColour b := by
  by_contra hne
  have key : ∀ r c, holds b1 r c v → holds b r c v := by
    intro r c h
    unfold holds at h ⊢
    rw [getSquare_setSquare b b1 row column _ hset] at h
    by_cases hrc : r = row ∧ c = column
    · rw [if_pos hrc] at h
      injection h with h
      exact absurd h.symm hne
    · rwa [if_neg hrc] at h
  obtain ⟨r, c, dr, dc, hd, h0, h1, h2, h3⟩ := hl
  exact hno ⟨v, hv, r, c, dr, dc, hd, key _ _ h0, key _ _ h1, key _ _ h2, key _ _ h3⟩

/-- In a reachable turn state the grid holds no winning line. -/
theorem reachable_turn_noLine (b : Board) (h : Reachable b) :
    isTurn b.currentGameState → ¬ hasWinningLine b := by
  induction h with
  | fresh => intro _; exact noLine_of_empty _ (fun _ _ => rfl)
  | newGame b _ _ => intro _; exact noLine_of_empty _ (fun _ _ => rfl)
  | move b column _ ih =>
    intro ht'
    rcases move_cases b column with hsame | ⟨ht, hc, htop⟩
    · rw [hsame] at ht' ⊢
      exact ih ht'
    · obtain ⟨row, b1, -, -, -, -, -, -, hbd, -, hcase⟩ := move_spec b column ht hc htop
      rw [hasWinningLine_congr _ b1 hbd]
      rcases hcase with ⟨v, -, -, -, hst⟩ | ⟨-, -, hst⟩ | ⟨hno, -, -⟩
      · rw [hst] at ht'
        unfold isTurn at ht'
        rcases winState_cases v with e | e <;> rw [e] at ht' <;> simp at ht'
      · rw [hst] at ht'
        unfold isTurn at ht'
        simp at ht'
      · exact hno

theorem move_preserves_gravity (b : Board) (column : Int) (hg : Gravity b) :
    Gravity (b.move column).2 := by
  rcases move_cases b column with hsame | ⟨ht, hc, htop⟩
  · rw [hsame]; exact hg
  · obtain ⟨row, b1, h1, h6, hall, hstop, hset, -, hbd, -, -⟩ :=
      move_spec b column ht hc htop
    have hb := board_setSquare b b1 _ _ _ hset
    intro c r r' hlt hne
    rw [hbd] at hne ⊢
    rw [hb] at hne ⊢
    have hr := r.isLt
    have hr' := r'.isLt
    have hcl := c.isLt
    simp only [rows, columns] at hr hr' hcl
    rw [Fin.lt_def] at hlt
    by_cases hp' : (r'.val : Int) = row - 1 ∧ (c.val : Int) = column
    · rw [if_pos hp']
      exact moverColour_ne_empty b
    · rw [if_neg hp']
      by_cases hp : (r.val : Int) = row - 1 ∧ (c.val : Int) = column
      · have hrow : row < 6 := by omega
        have hrn : row.toNat < rows := by simp only [rows]; omega
        have e1 : (((⟨row.toNat, hrn⟩ : Fin rows).val : Nat) : Int) = row := by
          simp only; omega
        have hne' : b.board ⟨row.toNat, hrn⟩ c ≠ squareType.Empty := by
          intro he
          apply hstop hrow
          have := (holds_fin b ⟨row.toNat, hrn⟩ c squareType.Empty).mpr he
          rwa [e1, hp.2] at this
        by_cases heq : (r'.val : Int) = row
        · have : r' = ⟨row.toNat, hrn⟩ := by apply Fin.ext; simp only; omega
          rw [this]; exact hne'
        · exact hg c ⟨row.toNat, hrn⟩ r' (by rw [Fin.lt_def]; simp only; omega) hne'
      · rw [if_neg hp] at hne
        exact hg c r r' (by rw [Fin.lt_def]; exact hlt) hne

/-- The test of `move` for a full column (`row==0`, the top square is not
`Empty`) and the column having no `Empty` square at all are the same thing on a
board that satisfies the gravity invariant. -/
theorem top_empty_iff_some_empty (b : Board) (hg : Gravity b) (c : Int)
    (hc : 0 ≤ c ∧ c < 7) :
    holds b 0 c squareType.Empty ↔ ∃ r, holds b r c squareType.Empty := by
  constructor
  · intro h; exact ⟨0, h⟩
  · rintro ⟨r, hr⟩
    have hin := (getSquare_ok_inRange b r c _ hr).1
    by_cases h0 : r = 0
    · rwa [h0] at hr
    · by_contra htop
      have hrn : r.toNat < rows := by simp only [rows]; omega
      have hcn : c.toNat < columns := by simp only [columns]; omega
      have e1 : (((⟨r.toNat, hrn⟩ : Fin rows).val : Nat) : Int) = r := by simp only; omega
      have e2 : (((⟨c.toNat, hcn⟩ : Fin columns).val : Nat) : Int) = c := by simp only; omega
      have e0 : (((0 : Fin rows).val : Nat) : Int) = 0 := rfl
      have hne : b.board 0 ⟨c.toNat, hcn⟩ ≠ squareType.Empty := by
        intro he
        apply htop
        have := (holds_fin b 0 ⟨c.toNat, hcn⟩ squareType.Empty).mpr he
        rwa [e0, e2] at this
      have he : b.board ⟨r.toNat, hrn⟩ ⟨c.toNat, hcn⟩ = squareType.Empty := by
        apply (holds_fin b _ _ squareType.Empty).mp
        rwa [e1, e2]
      exact hg ⟨c.toNat, hcn⟩ 0 ⟨r.toNat, hrn⟩
        (by rw [Fin.lt_def]; simp only [Fin.val_zero]; omega) hne he

/-- The gravity invariant holds in every reachable state. -/
theorem reachable_gravity (b : Board) (h : Reachable b) : Gravity b := by
  induction h with
  | fresh => intro c r r' _ h; exact absurd rfl h
  | newGame b _ _ => intro c r r' _ h; exact absurd rfl h
  | move b column _ ih => exact move_preserves_gravity b column ih

theorem reachable_moves (b : Board) (h : Reachable b) (cols : List Int) :
    Reachable (b.moves cols) := by
  induction cols generalizing b with
  | nil => exact h
  | cons c cs ih => exact ih _ (Reachable.move b c h)

/-- C6: in a state reachable from a fresh board, with a player to move, if
after `move(column)` the grid holds a line of 4 squares of the mover's colour
in one of the four directions (in a reachable turn state the grid holds no
line, so this is a line the placed piece completes), then that call returns
`true` and sets the state to the win state of the mover: `RedWins` if Red
moved, `BlackWins` if Black moved, not a turn state. On a fresh board the moves
0,0,1,1,2,2,3 end in `RedWins`, with Red on row 5, columns 0-3. -/
theorem completing_move_wins (b : Board) (hreach : Reachable b)
    (ht : isTurn b.currentGameState) (column : Int) (r c dr dc : Int)
    (hd : isDirection dr dc) (hline : lineFrom (b.move column).2 (moverColour b) r c dr dc) :
    (b.move column).1 = .ok true
      ∧ (b.move column).2.currentGameState = winState (moverColour b)
      ∧ (b.currentGameState = RedTurn → (b.move column).2.currentGameState = RedWins)
      ∧ (b.currentGameState = BlackTurn → (b.move column).2.currentGameState = BlackWins)
      ∧ ¬ isTurn (b.move column).2.currentGameState
      ∧ (Board.fresh.moves [0, 0, 1, 1, 2, 2, 3]).getGameState = RedWins
      ∧ ((Board.fresh.moves [0, 0, 1, 1, 2, 2]).move 3).1 = .ok true
      ∧ holds (Board.fresh.moves [0, 0, 1, 1, 2, 2, 3]) 5 0 Red
      ∧ holds (Board.fresh.moves [0, 0, 1, 1, 2, 2, 3]) 5 1 Red
      ∧ holds (Board.fresh.moves [0, 0, 1, 1, 2, 2, 3]) 5 2 Red
      ∧ holds (Board.fresh.moves [0, 0, 1, 1, 2, 2, 3]) 5 3 Red := by
  have hno := reachable_turn_noLine b hreach ht
  have hwin : hasWinningLine (b.move column).2 :=
    hasWinningLine_of_lineFrom _ _ (moverColour_ne_empty b) r c dr dc hd hline
  have hst : (b.move column).1 = .ok true
      ∧ (b.move column).2.currentGameState = winState (moverColour b) := by
    rcases move_cases b column with hsame | ⟨-, hc, htop⟩
    · rw [hsame] at hwin
      exact absurd hwin hno
    · obtain ⟨row, b1, -, -, -, -, hset, hret, hbd, -, hcase⟩ :=
        move_spec b column ht hc htop
      rw [hasWinningLine_congr _ b1 hbd] at hwin
      rcases hcase with ⟨v, -, hv, hl, hs⟩ | ⟨hn, -, -⟩ | ⟨hn, -, -⟩
      · rw [line_after_setSquare b b1 _ _ hno hset v hv hl] at hs
        exact ⟨hret, hs⟩
      · exact absurd hwin hn
      · exact absurd hwin hn
  have hred : b.currentGameState = RedTurn →
      (b.move column).2.currentGameState = RedWins := by
    intro h
    rw [hst.2]
    unfold winState moverColour
    rw [if_pos h, if_pos rfl]
  have hblack : b.currentGameState = BlackTurn →
      (b.move column).2.currentGameState = BlackWins := by
    intro h
    rw [hst.2]
    unfold winState moverColour
    rw [h]
    decide
  refine ⟨hst.1, hst.2, hred, hblack, ?_, by decide, by decide, by decide, by decide,
    by decide, by decide⟩
  rw [hst.2]
  unfold isTurn
  rcases winState_cases (moverColour b) with e | e <;> rw [e] <;> simp

theorem completing_move_wins_witness :
    Reachable threeInRow ∧ isTurn threeInRow.currentGameState
      ∧ lineFrom (threeInRow.move 3).2 (moverColour threeInRow) 5 0 0 1
      ∧ (threeInRow.move 3).1 = .ok true
      ∧ (threeInRow.move 3).2.currentGameState = RedWins :=
  ⟨reachable_moves _ Reachable.fresh _, by decide, by decide,
    (completing_move_wins threeInRow (reachable_moves _ Reachable.fresh _) (by decide) 3
      5 0 0 1 (by decide) (by decide)).1,
    (completing_move_wins threeInRow (reachable_moves _ Reachable.fresh _) (by decide) 3
      5 0 0 1 (by decide) (by decide)).2.2.1 (by decide)⟩

theorem noLine_of_winScan (b : Board) (h : b.winScan = .ok none) : ¬ hasWinningLine b := by
  rcases winScan_cases b with ⟨-, hno⟩ | ⟨v, hv, -⟩
  · exact hno
  · rw [h] at hv; cases hv

/-- C7: in a turn state, on a column `0 ≤ c < 7` whose top square is `Empty`:
if the grid after the placement holds no line of 4 squares of one colour and
all 7 squares of row 0 are not `Empty`, `move` returns `true` and sets the state
to `Tie`; if it holds no line and some square of row 0 is `Empty`, the state is
not `Tie`. -/
theorem tie_when_top_row_filled (b : Board) (ht : isTurn b.currentGameState)
    (c : Int) (hc0 : 0 ≤ c) (hc7 : c < 7) (htop : holds b 0 c squareType.Empty)
    (hno : ¬ hasWinningLine (b.move c).2) :
    (topRowFilled (b.move c).2
        → (b.move c).1 = .ok true ∧ (b.move c).2.currentGameState = Tie)
      ∧ ((∃ c' : Fin columns, (b.move c).2.board 0 c' = squareType.Empty)
        → (b.move c).2.currentGameState ≠ Tie) := by
  obtain ⟨row, b1, -, -, -, -, -, hret, hbd, -, hcase⟩ := move_spec b c ht ⟨hc0, hc7⟩ htop
  rw [hasWinningLine_congr _ b1 hbd] at hno
  rw [topRowFilled_congr _ b1 hbd]
  rcases hcase with ⟨v, -, hv, hl, -⟩ | ⟨-, hfill, hs⟩ | ⟨-, hnfill, hs⟩
  · exact absurd ⟨v, hv, hl⟩ hno
  · refine ⟨fun _ => ⟨hret, hs⟩, ?_⟩
    rintro ⟨c', he⟩
    rw [hbd] at he
    exact absurd he (hfill c')
  · refine ⟨fun h => absurd h hnfill, ?_⟩
    intro _
    rw [hs]
    unfold isTurn at ht
    rcases ht with h | h <;> rw [h] <;> simp

theorem tie_when_top_row_filled_witness :
    isTurn oneSquareLeft.currentGameState ∧ holds oneSquareLeft 0 0 squareType.Empty
      ∧ ¬ hasWinningLine (oneSquareLeft.move 0).2
      ∧ topRowFilled (oneSquareLeft.move 0).2
      ∧ (oneSquareLeft.move 0).1 = .ok true
      ∧ (oneSquareLeft.move 0).2.currentGameState = Tie :=
  have hno : ¬ hasWinningLine (oneSquareLeft.move 0).2 :=
    noLine_of_winScan _ (by decide)
  have hfill : topRowFilled (oneSquareLeft.move 0).2 := by decide
  ⟨by decide, by decide, hno, hfill,
    (tie_when_top_row_filled oneSquareLeft (by decide) 0 (by decide) (by decide) (by decide)
      hno).1 hfill⟩

/-- C8: in a turn state, on a column `0 ≤ c < 7` whose top square is `Empty`:
if the grid after the placement holds no line of 4 and row 0 is not completely
filled, `move` returns `true` and the state becomes the other player's turn
(`RedTurn` becomes `BlackTurn`, `BlackTurn` becomes `RedTurn`); and whatever the
grid after the placement, the move succeeds and the state after it is not the
state before it, so the same player never keeps the turn. -/
theorem turn_passes_to_other_player (b : Board) (ht : isTurn b.currentGameState)
    (c : Int) (hc0 : 0 ≤ c) (hc7 : c < 7) (htop : holds b 0 c squareType.Empty) :
    (¬ hasWinningLine (b.move c).2 → ¬ topRowFilled (b.move c).2 →
        (b.move c).1 = .ok true
          ∧ (b.currentGameState = RedTurn → (b.move c).2.currentGameState = BlackTurn)
          ∧ (b.currentGameState = BlackTurn → (b.move c).2.currentGameState = RedTurn))
      ∧ (b.move c).1 = .ok true
      ∧ (b.move c).2.currentGameState ≠ b.currentGameState := by
  obtain ⟨row, b1, -, -, -, -, -, hret, hbd, -, hcase⟩ := move_spec b c ht ⟨hc0, hc7⟩ htop
  rw [hasWinningLine_congr _ b1 hbd, topRowFilled_congr _ b1 hbd]
  refine ⟨?_, hret, ?_⟩
  · intro hno hnfill
    rcases hcase with ⟨v, -, hv, hl, -⟩ | ⟨-, hfill, -⟩ | ⟨-, -, hs⟩
    · exact absurd ⟨v, hv, hl⟩ hno
    · exact absurd hfill hnfill
    · refine ⟨hret, ?_, ?_⟩
      · intro h; rw [hs, if_pos h]
      · intro h; rw [hs, h]; decide
  · unfold isTurn at ht
    rcases hcase with ⟨v, -, -, -, hs⟩ | ⟨-, -, hs⟩ | ⟨-, -, hs⟩
    · rw [hs]
      rcases winState_cases v with e | e <;> rcases ht with h | h <;> rw [e, h] <;> decide
    · rw [hs]
      rcases ht with h | h <;> rw [h] <;> decide
    · rw [hs]
      rcases ht with h | h <;> rw [h] <;> decide

theorem turn_passes_to_other_player_witness :
    isTurn threeInRow.currentGameState ∧ holds threeInRow 0 4 squareType.Empty
      ∧ ¬ hasWinningLine (threeInRow.move 4).2 ∧ ¬ topRowFilled (threeInRow.move 4).2
      ∧ threeInRow.currentGameState = RedTurn
      ∧ (threeInRow.move 4).1 = .ok true
      ∧ (threeInRow.move 4).2.currentGameState = BlackTurn
      ∧ (threeInRow.move 4).2.currentGameState ≠ threeInRow.currentGameState :=
  have hno : ¬ hasWinningLine (threeInRow.move 4).2 :=
    reachable_turn_noLine _ (Reachable.move _ 4 (reachable_moves _ Reachable.fresh _))
      (by decide)
  have hnf : ¬ topRowFilled (threeInRow.move 4).2 := by decide
  have hred : threeInRow.currentGameState = RedTurn := by decide
  have h := turn_passes_to_other_player threeInRow (by decide) 4 (by decide) (by decide)
    (by decide)
  ⟨by decide, by decide, hno, hnf, hred, h.2.1, (h.1 hno hnf).2.1 hred, h.2.2⟩

/-- C9: when `move` on a column `0 ≤ column < 7` returns `true`, exactly one
square of the grid differs between the board before and the board after: it
lies in the chosen column, was `Empty` before and holds the mover's colour
(which is not `Empty`) after; every other square and the flag `blackWentFirst`
are as before. -/
theorem move_changes_one_square (b : Board) (column : Int) (hc0 : 0 ≤ column)
    (hc7 : column < 7) (hret : (b.move column).1 = .ok true) :
    ∃ (r : Fin rows) (c : Fin columns), (c.val : Int) = column
      ∧ b.board r c = squareType.Empty
      ∧ (b.move column).2.board r c = moverColour b
      ∧ moverColour b ≠ squareType.Empty
      ∧ (∀ (r' : Fin rows) (c' : Fin columns), ¬ (r' = r ∧ c' = c) →
          (b.move column).2.board r' c' = b.board r' c')
      ∧ (b.move column).2.blackWentFirst = b.blackWentFirst := by
  rcases turn_or_terminal b.currentGameState with ht | ht
  · by_cases htop : holds b 0 column squareType.Empty
    · obtain ⟨row, b1, h1, h6, hall, -, hset, -, hbd, hfl, -⟩ :=
        move_spec b column ht ⟨hc0, hc7⟩ htop
      have hb := board_setSquare b b1 _ _ _ hset
      have hrn : (row - 1).toNat < rows := by simp only [rows]; omega
      have hcn : column.toNat < columns := by simp only [columns]; omega
      have e1 : (((⟨(row - 1).toNat, hrn⟩ : Fin rows).val : Nat) : Int) = row - 1 := by
        simp only; omega
      have e2 : (((⟨column.toNat, hcn⟩ : Fin columns).val : Nat) : Int) = column := by
        simp only; omega
      refine ⟨⟨(row - 1).toNat, hrn⟩, ⟨column.toNat, hcn⟩, e2, ?_, ?_,
        moverColour_ne_empty b, ?_, hfl⟩
      · apply (holds_fin b _ _ squareType.Empty).mp
        rw [e1, e2]
        exact hall (row - 1) (by omega) (by omega)
      · rw [hbd, hb, if_pos ⟨e1, e2⟩]
      · intro r' c' hne
        rw [hbd, hb, if_neg]
        rintro ⟨h1', h2'⟩
        apply hne
        constructor
        · apply Fin.ext; simp only; omega
        · apply Fin.ext; simp only; omega
    · rw [move_full b column ht ⟨hc0, hc7⟩ htop] at hret
      cases hret
  · rw [move_terminal b column ht] at hret
    cases hret

theorem move_changes_one_square_witness :
    (threeInRow.move 3).1 = .ok true
      ∧ ∃ (r : Fin rows) (c : Fin columns), (c.val : Int) = 3
        ∧ threeInRow.board r c = squareType.Empty
        ∧ (threeInRow.move 3).2.board r c = moverColour threeInRow
        ∧ moverColour threeInRow ≠ squareType.Empty
        ∧ (∀ (r' : Fin rows) (c' : Fin columns), ¬ (r' = r ∧ c' = c) →
            (threeInRow.move 3).2.board r' c' = threeInRow.board r' c')
        ∧ (threeInRow.move 3).2.blackWentFirst = threeInRow.blackWentFirst :=
  ⟨by decide, move_changes_one_square threeInRow 3 (by decide) (by decide) (by decide)⟩

/-- C10: the gravity invariant. In every state reachable from a freshly
constructed board by any sequence of `move` and `newGame` calls there are no
column `c` and rows `r < r'` such that the square `(r, c)` is not `Empty` and the
square `(r', c)` is `Empty`. -/
theorem gravity_of_reachable (b : Board) (h : Reachable b) :
    ¬ ∃ (c : Fin columns) (r r' : Fin rows), r < r'
        ∧ b.board r c ≠ squareType.Empty ∧ b.board r' c = squareType.Empty := by
  rintro ⟨c, r, r', hlt, hne, he⟩
  exact reachable_gravity b h c r r' hlt hne he

theorem gravity_of_reachable_witness :
    Reachable (redWon.newGame.moves [3, 3, 9, 2])
      ∧ ¬ ∃ (c : Fin columns) (r r' : Fin rows), r < r'
          ∧ (redWon.newGame.moves [3, 3, 9, 2]).board r c ≠ squareType.Empty
          ∧ (redWon.newGame.moves [3, 3, 9, 2]).board r' c = squareType.Empty :=
  have hr : Reachable (redWon.newGame.moves [3, 3, 9, 2]) :=
    reachable_moves _ (Reachable.newGame _ (reachable_moves _ Reachable.fresh _)) _
  ⟨hr, gravity_of_reachable _ hr⟩

/-! ## Frame properties of sequences of moves -/

theorem moves_append (b : Board) (cols1 cols2 : List Int) :
    b.moves (cols1 ++ cols2) = (b.moves cols1).moves cols2 := by
  unfold Board.moves
  rw [List.foldl_append]

/-- A call of `move` leaves a square that is not `Empty` as it is. -/
theorem move_keeps_occupied (b : Board) (column : Int) (r : Fin rows) (c : Fin columns)
    (h : b.board r c ≠ squareType.Empty) :
    (b.move column).2.board r c = b.board r c := by
  rcases move_cases b column with hsame | ⟨ht, hc, htop⟩
  · rw [hsame]
  · obtain ⟨row, b1, h1, h6, hall, -, hset, -, hbd, -, -⟩ := move_spec b column ht hc htop
    rw [hbd, board_setSquare b b1 _ _ _ hset, if_neg]
    rintro ⟨e1, e2⟩
    apply h
    apply (holds_fin b r c squareType.Empty).mp
    rw [e1, e2]
    exact hall (row - 1) (by omega) (by omega)

theorem moves_keep_occupied (b : Board) (cols : List Int) (r : Fin rows) (c : Fin columns)
    (h : b.board r c ≠ squareType.Empty) :
    (b.moves cols).board r c = b.board r c := by
  induction cols generalizing b with
  | nil => rfl
  | cons col cs ih =>
    rw [Board.moves_cons]
    have h1 := move_keeps_occupied b col r c h
    rw [ih (b.move col).2 (by rw [h1]; exact h), h1]

theorem move_blackWentFirst (b : Board) (column : Int) :
    (b.move column).2.blackWentFirst = b.blackWentFirst := by
  rcases move_cases b column with hsame | ⟨ht, hc, htop⟩
  · rw [hsame]
  · obtain ⟨row, b1, -, -, -, -, -, -, -, hfl, -⟩ := move_spec b column ht hc htop
    exact hfl

theorem moves_blackWentFirst (b : Board) (cols : List Int) :
    (b.moves cols).blackWentFirst = b.blackWentFirst := by
  induction cols generalizing b with
  | nil => rfl
  | cons col cs ih => rw [Board.moves_cons, ih, move_blackWentFirst]

/-- C11: along any sequence of `move` calls (whatever their arguments, no
`newGame` in between), a square that is not `Empty` at some point, after the
calls `cols1`, holds exactly the same colour after every later sequence of
calls `cols2`: `move` never resets a square to `Empty` and never recolours
one. -/
theorem occupied_square_keeps_colour (b : Board) (cols1 cols2 : List Int)
    (r : Fin rows) (c : Fin columns)
    (h : (b.moves cols1).board r c ≠ squareType.Empty) :
    (b.moves (cols1 ++ cols2)).board r c = (b.moves cols1).board r c
      ∧ (b.moves (cols1 ++ cols2)).board r c ≠ squareType.Empty := by
  rw [moves_append]
  have e := moves_keep_occupied (b.moves cols1) cols2 r c h
  exact ⟨e, by rw [e]; exact h⟩

theorem occupied_square_keeps_colour_witness :
    (Board.fresh.moves [0, 0, 1]).board 4 0 ≠ squareType.Empty
      ∧ (Board.fresh.moves ([0, 0, 1] ++ [0, 7, 0, 0, 0, 0, 3])).board 4 0
          = (Board.fresh.moves [0, 0, 1]).board 4 0
      ∧ (Board.fresh.moves ([0, 0, 1] ++ [0, 7, 0, 0, 0, 0, 3])).board 4 0
          ≠ squareType.Empty :=
  ⟨by decide,
    occupied_square_keeps_colour Board.fresh [0, 0, 1] [0, 7, 0, 0, 0, 0, 3] 4 0 (by decide)⟩

/-- C12: after `newGame`, from any board (in an end state or not), every one
of the 42 squares is `Empty`, the flag `blackWentFirst` is flipped, and the
state is a turn state, not an end state: `BlackTurn` if the flipped flag is
true, `RedTurn` otherwise. -/
theorem newGame_resets (b : Board) :
    (∀ (r : Fin rows) (c : Fin columns), b.newGame.board r c = squareType.Empty)
      ∧ b.newGame.blackWentFirst = (!b.blackWentFirst)
      ∧ b.newGame.currentGameState
          = (if b.newGame.blackWentFirst = true then BlackTurn else RedTurn)
      ∧ isTurn b.newGame.currentGameState
      ∧ ¬ isTerminal b.newGame.currentGameState := by
  have hs : b.newGame.currentGameState
      = (if b.newGame.blackWentFirst = true then BlackTurn else RedTurn) := rfl
  have ht : isTurn b.newGame.currentGameState := by
    rw [hs]
    unfold isTurn
    split
    · exact Or.inr rfl
    · exact Or.inl rfl
  exact ⟨fun _ _ => rfl, rfl, hs, ht, not_terminal_of_turn ht⟩

/-- C13: the starting player alternates between consecutive games. From any
board, with any sequence of `move` calls played between two `newGame` calls, the
state right after the second `newGame` is the opposite turn of the state right
after the first; `move` never alters the flag `blackWentFirst`, and `newGame`
applied twice restores it. -/
theorem starting_player_alternates (b : Board) (cols : List Int) :
    ((b.newGame.currentGameState = RedTurn
          ∧ (b.newGame.moves cols).newGame.currentGameState = BlackTurn)
        ∨ (b.newGame.currentGameState = BlackTurn
          ∧ (b.newGame.moves cols).newGame.currentGameState = RedTurn))
      ∧ (b.moves cols).blackWentFirst = b.blackWentFirst
      ∧ b.newGame.newGame.blackWentFirst = b.blackWentFirst := by
  refine ⟨?_, moves_blackWentFirst b cols, ?_⟩
  · have h1 : b.newGame.currentGameState
        = (if (!b.blackWentFirst) = true then BlackTurn else RedTurn) := rfl
    have h2 : (b.newGame.moves cols).newGame.currentGameState
        = (if (!(b.newGame.moves cols).blackWentFirst) = true then BlackTurn else RedTurn) :=
      rfl
    have h3 : b.newGame.blackWentFirst = (!b.blackWentFirst) := rfl
    rw [moves_blackWentFirst, h3] at h2
    rw [h1, h2]
    cases b.blackWentFirst <;> simp
  · show (!(!b.blackWentFirst)) = b.blackWentFirst
    cases b.blackWentFirst <;> rfl

/-- C14: `getSquare(row, column)` raises the out-of-range fault if and only if
`row` is outside `[0, 6)` or `column` is outside `[0, 7)`; for arguments in range
it returns the content of that square. The method is `const`: it is a function
of the board and gives no new board, so grid and state are as before in both
cases. -/
theorem getSquare_fault_iff_outside (b : Board) (row column : Int) :
    (b.getSquare row column = .error .outOfRange
        ↔ (row < 0 ∨ 6 ≤ row) ∨ (column < 0 ∨ 7 ≤ column))
      ∧ ((∃ s, b.getSquare row column = .ok s)
        ↔ (0 ≤ row ∧ row < 6) ∧ (0 ≤ column ∧ column < 7))
      ∧ (∀ (r : Fin rows) (c : Fin columns),
          b.getSquare (r.val : Int) (c.val : Int) = .ok (b.board r c)) := by
  refine ⟨?_, ?_, fun r c => getSquare_fin b r c⟩
  · constructor
    · intro h
      by_contra hn
      rw [getSquare_inRange b row column (by omega) (by omega)] at h
      cases h
    · intro h
      exact getSquare_outOfRange b row column (by omega)
  · constructor
    · rintro ⟨s, hs⟩
      exact getSquare_ok_inRange b row column s hs
    · rintro ⟨hr, hc⟩
      exact ⟨_, getSquare_inRange b row column hr hc⟩

/-! ## Absence of faults -/

/-- On a column of the grid `move` returns: `false` when nothing is placed,
`true` when a piece is placed. -/
theorem move_returns (b : Board) (c : Int) (hc : 0 ≤ c ∧ c < 7) :
    (b.move c).1 = .ok true ∨ (b.move c).1 = .ok false := by
  rcases turn_or_terminal b.currentGameState with ht | ht
  · by_cases htop : holds b 0 c squareType.Empty
    · obtain ⟨row, b1, -, -, -, -, -, hret, -⟩ := move_spec b c ht hc htop
      exact Or.inl hret
    · right; rw [move_full b c ht hc htop]
  · right; rw [move_terminal b c ht]

/-- C15: on every board (any grid, any state) and every column `0 ≤ c < 7`,
`move(c)` returns a boolean and raises no out-of-range fault. `move` is a total
function, and each of its parts is free of faults: the landing scan on a column
of the grid, the win scan and the tie scan on any grid, the chained direction
scans at any square of the grid, and each of the four tests at the offsets
1, 2, 3 the loops visit (an access outside the grid would make the test
raise the fault, so the bounds tests come first). -/
theorem move_never_faults (b : Board) (c : Int) (hc0 : 0 ≤ c) (hc7 : c < 7) :
    ((b.move c).1 = .ok true ∨ (b.move c).1 = .ok false)
      ∧ (b.move c).1 ≠ .error .outOfRange
      ∧ (∃ row, b.findRow c = .ok row ∧ 0 ≤ row ∧ row ≤ 6)
      ∧ (∃ o, (b.move c).2.winScan = .ok o)
      ∧ (∃ x, (b.move c).2.tieScan = .ok x)
      ∧ (∀ (row column : Int) (color : squareType), 0 ≤ row ∧ row < 6 →
          0 ≤ column ∧ column < 7 →
          (∃ x, (b.move c).2.scanDirections color row column = .ok x)
            ∧ ∀ x, 1 ≤ x ∧ x < 4 →
              (∃ t, (b.move c).2.brkDown color row column x = .ok t)
                ∧ (∃ t, (b.move c).2.brkRight color row column x = .ok t)
                ∧ (∃ t, (b.move c).2.brkDownRight color row column x = .ok t)
                ∧ (∃ t, (b.move c).2.brkDownLeft color row column x = .ok t)) := by
  have hret := move_returns b c ⟨hc0, hc7⟩
  refine ⟨hret, ?_, ?_, ?_, ?_, ?_⟩
  · rcases hret with h | h <;> rw [h] <;> intro e <;> cases e
  · obtain ⟨row, h, h0, h6, -⟩ := findRow_spec b c ⟨hc0, hc7⟩
    exact ⟨row, h, h0, h6⟩
  · obtain ⟨o, h, -⟩ := winScan_spec (b.move c).2
    exact ⟨o, h⟩
  · obtain ⟨x, h, -⟩ := tieScan_spec (b.move c).2
    exact ⟨x, h⟩
  · intro row column color hr hcol
    refine ⟨?_, ?_⟩
    · obtain ⟨x, h, -⟩ := scanDirections_spec (b.move c).2 color row column hr hcol
      exact ⟨x, h⟩
    · intro x hx
      exact ⟨⟨_, brkDown_eq _ color row column x hr hcol (by omega)⟩,
        ⟨_, brkRight_eq _ color row column x hr hcol (by omega)⟩,
        ⟨_, brkDownRight_eq _ color row column x hr hcol (by omega)⟩,
        ⟨_, brkDownLeft_eq _ color row column x hr hcol (by omega)⟩⟩

theorem move_never_faults_witness :
    ((oneSquareLeft.move 0).1 = .ok true ∨ (oneSquareLeft.move 0).1 = .ok false)
      ∧ (oneSquareLeft.move 0).1 ≠ .error .outOfRange :=
  ⟨(move_never_faults oneSquareLeft 0 (by decide) (by decide)).1,
    (move_never_faults oneSquareLeft 0 (by decide) (by decide)).2.1⟩

/-! ## The state and the grid of a reachable board -/

theorem winState_eq_redWins (v : squareType) : winState v = RedWins ↔ v = Red := by
  unfold winState
  by_cases h : v = Red
  · rw [if_pos h]; exact ⟨fun _ => h, fun _ => rfl⟩
  · rw [if_neg h]; exact ⟨fun e => (by cases e), fun e => absurd e h⟩

theorem moverColour_cases (b : Board) : moverColour b = Red ∨ moverColour b = Black := by
  unfold moverColour
  by_cases h : b.currentGameState = RedTurn
  · rw [if_pos h]; exact Or.inl rfl
  · rw [if_neg h]; exact Or.inr rfl

theorem newGame_isTurn (b : Board) : isTurn b.newGame.currentGameState := by
  show isTurn (if (!b.blackWentFirst) = true then BlackTurn else RedTurn)
  unfold isTurn
  split
  · exact Or.inr rfl
  · exact Or.inl rfl

/-- The state of a board whose grid is empty and whose state is a turn state
agrees with its grid. -/
theorem agreement_of_empty (b : Board) (ht : isTurn b.currentGameState)
    (he : ∀ r c, b.board r c = squareType.Empty) :
    (isTurn b.currentGameState → ¬ hasWinningLine b)
      ∧ (b.currentGameState = RedWins → hasLine b Red ∧ ¬ hasLine b Black)
      ∧ (b.currentGameState = BlackWins → hasLine b Black ∧ ¬ hasLine b Red)
      ∧ (b.currentGameState = Tie → topRowFilled b ∧ ¬ hasWinningLine b) := by
  have hnt := not_terminal_of_turn ht
  unfold isTerminal at hnt
  refine ⟨fun _ => noLine_of_empty b he, ?_, ?_, ?_⟩
  · intro h; exact absurd (Or.inl h) hnt
  · intro h; exact absurd (Or.inr (Or.inl h)) hnt
  · intro h; exact absurd (Or.inr (Or.inr h)) hnt

/-- In every reachable state the state agrees with the grid: no winning line
in a turn state, a line of the winner and none of the loser in a win state, a
filled top row and no winning line in `Tie`. -/
theorem reachable_agreement (b : Board) (h : Reachable b) :
    (isTurn b.currentGameState → ¬ hasWinningLine b)
      ∧ (b.currentGameState = RedWins → hasLine b Red ∧ ¬ hasLine b Black)
      ∧ (b.currentGameState = BlackWins → hasLine b Black ∧ ¬ hasLine b Red)
      ∧ (b.currentGameState = Tie → topRowFilled b ∧ ¬ hasWinningLine b) := by
  induction h with
  | fresh => exact agreement_of_empty _ (Or.inl rfl) (fun _ _ => rfl)
  | newGame b _ _ => exact agreement_of_empty _ (newGame_isTurn b) (fun _ _ => rfl)
  | move b column _ ih =>
    rcases move_cases b column with hsame | ⟨ht, hc, htop⟩
    · rw [hsame]; exact ih
    · have hno := ih.1 ht
      obtain ⟨row, b1, -, -, -, -, hset, -, hbd, -, hcase⟩ := move_spec b column ht hc htop
      rw [hasWinningLine_congr _ b1 hbd, hasLine_congr _ b1 hbd Red,
        hasLine_congr _ b1 hbd Black, topRowFilled_congr _ b1 hbd]
      have hmover := line_after_setSquare b b1 _ _ hno hset
      rcases hcase with ⟨v, -, hv, hl, hs⟩ | ⟨hn, hfill, hs⟩ | ⟨hn, -, hs⟩
      · have hvm := hmover v hv hl
        rw [hs]
        refine ⟨?_, ?_, ?_, ?_⟩
        · intro h
          unfold isTurn at h
          rcases winState_cases v with e | e <;> rw [e] at h <;> simp at h
        · intro h
          have hr : v = Red := (winState_eq_redWins v).mp h
          rw [hr] at hl hvm
          refine ⟨hl, fun hb => ?_⟩
          have := hmover Black (by decide) hb
          rw [← hvm] at this
          cases this
        · intro h
          have hnr : v ≠ Red := by
            intro e
            rw [(winState_eq_redWins v).mpr e] at h
            cases h
          have hb : v = Black := by
            rcases moverColour_cases b with e | e
            · exact absurd (hvm.trans e) hnr
            · exact hvm.trans e
          rw [hb] at hl hvm
          refine ⟨hl, fun hr => ?_⟩
          have := hmover Red (by decide) hr
          rw [← hvm] at this
          cases this
        · intro h
          rcases winState_cases v with e | e <;> rw [e] at h <;> cases h
      · rw [hs]
        refine ⟨fun _ => hn, ?_, ?_, fun _ => ⟨hfill, hn⟩⟩
        · intro h; cases h
        · intro h; cases h
      · rw [hs]
        unfold isTurn at ht
        refine ⟨fun _ => hn, ?_, ?_, ?_⟩ <;> intro h <;>
          rcases ht with e | e <;> rw [e] at h <;> simp at h

theorem hasLine_of_lineFrom (b : Board) (v : squareType) (r c dr dc : Int)
    (hd : isDirection dr dc) (hl : lineFrom b v r c dr dc) : hasLine b v :=
  ⟨r, c, dr, dc, hd, hl⟩

/-- C19: in every state reachable from a freshly constructed board by `move`
and `newGame` calls, the state agrees with the grid: in `RedTurn` or `BlackTurn`
the grid holds no line of 4 squares of either colour; in `RedWins` it holds a
line of 4 Red squares and no line of 4 Black squares; in `BlackWins` it holds a
line of 4 Black squares and no line of 4 Red squares. -/
theorem state_agrees_with_grid (b : Board) (h : Reachable b) :
    (isTurn b.currentGameState → ¬ hasLine b Red ∧ ¬ hasLine b Black)
      ∧ (b.currentGameState = RedWins → hasLine b Red ∧ ¬ hasLine b Black)
      ∧ (b.currentGameState = BlackWins → hasLine b Black ∧ ¬ hasLine b Red) := by
  obtain ⟨h1, h2, h3, -⟩ := reachable_agreement b h
  refine ⟨?_, h2, h3⟩
  intro ht
  have hno := h1 ht
  exact ⟨fun hl => hno ⟨Red, by decide, hl⟩, fun hl => hno ⟨Black, by decide, hl⟩⟩

theorem state_agrees_with_grid_witness :
    Reachable redWon ∧ redWon.currentGameState = RedWins
      ∧ hasLine redWon Red ∧ ¬ hasLine redWon Black :=
  have hr : Reachable redWon := reachable_moves _ Reachable.fresh _
  ⟨hr, by decide, (state_agrees_with_grid redWon hr).2.1 (by decide)⟩

/-- C20: in every state reachable from a freshly constructed board, the state
`Tie` implies that all 42 squares are not `Empty` and that the grid holds no
line of 4 squares of one colour. -/
theorem tie_means_full_board (b : Board) (h : Reachable b)
    (htie : b.currentGameState = Tie) :
    (∀ (r : Fin rows) (c : Fin columns), b.board r c ≠ squareType.Empty)
      ∧ ¬ hasWinningLine b
      ∧ ¬ hasLine b Red ∧ ¬ hasLine b Black := by
  obtain ⟨-, -, -, h4⟩ := reachable_agreement b h
  obtain ⟨hfill, hno⟩ := h4 htie
  have hg := reachable_gravity b h
  refine ⟨?_, hno, fun hl => hno ⟨Red, by decide, hl⟩, fun hl => hno ⟨Black, by decide, hl⟩⟩
  intro r c
  by_cases h0 : r = 0
  · rw [h0]; exact hfill c
  · exact hg c 0 r (Fin.pos_iff_ne_zero.mpr h0) (hfill c)

theorem tie_means_full_board_witness :
    Reachable (oneSquareLeft.move 0).2 ∧ (oneSquareLeft.move 0).2.currentGameState = Tie
      ∧ (∀ (r : Fin rows) (c : Fin columns),
          (oneSquareLeft.move 0).2.board r c ≠ squareType.Empty)
      ∧ ¬ hasWinningLine (oneSquareLeft.move 0).2
      ∧ ¬ hasLine (oneSquareLeft.move 0).2 Red ∧ ¬ hasLine (oneSquareLeft.move 0).2 Black :=
  have hr : Reachable (oneSquareLeft.move 0).2 :=
    Reachable.move _ 0 (reachable_moves _ Reachable.fresh _)
  ⟨hr, by decide, tie_means_full_board _ hr (by decide)⟩

/-- C17: the win check comes before the tie check. In a turn state, on a
column `0 ≤ c < 7` whose top square is `Empty`: if the grid after the placement
holds a line of 4 (whether or not the placement also fills row 0), `move` sets
the state to the win state of the colour of a line of the grid, not to `Tie`;
and `Tie` is set only when no line of 4 exists (and row 0 is filled). -/
theorem win_check_precedes_tie (b : Board) (ht : isTurn b.currentGameState)
    (c : Int) (hc0 : 0 ≤ c) (hc7 : c < 7) (htop : holds b 0 c squareType.Empty) :
    (hasWinningLine (b.move c).2 →
        (∃ v, v ≠ squareType.Empty ∧ hasLine (b.move c).2 v
            ∧ (b.move c).2.currentGameState = winState v)
          ∧ ((b.move c).2.currentGameState = RedWins
              ∨ (b.move c).2.currentGameState = BlackWins)
          ∧ (b.move c).2.currentGameState ≠ Tie)
      ∧ ((b.move c).2.currentGameState = Tie →
          ¬ hasWinningLine (b.move c).2 ∧ topRowFilled (b.move c).2) := by
  obtain ⟨row, b1, -, -, -, -, -, -, hbd, -, hcase⟩ := move_spec b c ht ⟨hc0, hc7⟩ htop
  simp only [hasWinningLine_congr _ b1 hbd, hasLine_congr _ b1 hbd,
    topRowFilled_congr _ b1 hbd]
  rcases hcase with ⟨v, -, hv, hl, hs⟩ | ⟨hn, hfill, hs⟩ | ⟨hn, -, hs⟩
  · rw [hs]
    refine ⟨fun _ => ⟨⟨v, hv, hl, rfl⟩, winState_cases v, ?_⟩, ?_⟩
    · rcases winState_cases v with e | e <;> rw [e] <;> decide
    · intro h
      rcases winState_cases v with e | e <;> rw [e] at h <;> cases h
  · exact ⟨fun h => absurd h hn, fun _ => ⟨hn, hfill⟩⟩
  · refine ⟨fun h => absurd h hn, ?_⟩
    rw [hs]
    intro h
    unfold isTurn at ht
    rcases ht with e | e <;> rw [e] at h <;> simp at h

theorem win_check_precedes_tie_witness :
    isTurn lastSquareWins.currentGameState ∧ holds lastSquareWins 0 3 squareType.Empty
      ∧ topRowFilled (lastSquareWins.move 3).2
      ∧ hasWinningLine (lastSquareWins.move 3).2
      ∧ (lastSquareWins.move 3).2.currentGameState = BlackWins
      ∧ (lastSquareWins.move 3).2.currentGameState ≠ Tie :=
  have hline : hasWinningLine (lastSquareWins.move 3).2 :=
    hasWinningLine_of_lineFrom _ Black (by decide) 0 3 1 1 (by decide) (by decide)
  have h := (win_check_precedes_tie lastSquareWins (by decide) 3 (by decide) (by decide)
    (by decide)).1 hline
  ⟨by decide, by decide, by decide, hline, by decide, h.2.2⟩

/-! ## The whole-board scan and the lines through the placed square -/

/-- The landing scan and the assignment of a call of `move` that places a
piece. -/
theorem findRow_placed (b : Board) (column : Int) (hc : 0 ≤ column ∧ column < 7)
    (htop : holds b 0 column squareType.Empty) :
    ∃ row b1, b.findRow column = .ok row ∧ row ≠ 0
      ∧ b.setSquare (row - 1) column (moverColour b) = .ok b1 := by
  obtain ⟨row, hrow, h0, h6, -, hstop⟩ := findRow_spec b column hc
  have hz : row ≠ 0 := by
    intro hz
    rw [hz] at hstop
    exact hstop (by omega) htop
  obtain ⟨b1, hset, -⟩ := setSquare_inRange b (row - 1) column (moverColour b) (by omega) hc
  exact ⟨row, b1, hrow, hz, hset⟩

/-- After the assignment of one square of a grid without a winning line, every
winning line contains the assigned square. -/
theorem line_contains_assigned (b b1 : Board) (row column : Int) (m : squareType)
    (hno : ¬ hasWinningLine b) (hset : b.setSquare row column m = .ok b1)
    (v : squareType) (hv : v ≠ squareType.Empty) (r c dr dc : Int) (hd : isDirection dr dc)
    (hl : lineFrom b1 v r c dr dc) :
    (r = row ∧ c = column) ∨ (r + dr = row ∧ c + dc = column)
      ∨ (r + 2 * dr = row ∧ c + 2 * dc = column)
      ∨ (r + 3 * dr = row ∧ c + 3 * dc = column) := by
  by_contra hn
  have key : ∀ r' c', ¬ (r' = row ∧ c' = column) → holds b1 r' c' v → holds b r' c' v := by
    intro r' c' hne h
    unfold holds at h ⊢
    rwa [getSquare_setSquare b b1 row column _ hset, if_neg hne] at h
  obtain ⟨h0, h1, h2, h3⟩ := hl
  exact hno ⟨v, hv, r, c, dr, dc, hd,
    key _ _ (fun e => hn (Or.inl e)) h0,
    key _ _ (fun e => hn (Or.inr (Or.inl e))) h1,
    key _ _ (fun e => hn (Or.inr (Or.inr (Or.inl e)))) h2,
    key _ _ (fun e => hn (Or.inr (Or.inr (Or.inr e)))) h3⟩

theorem mem_directions_iff (dr dc : Int) : (dr, dc) ∈ directions ↔ isDirection dr dc := by
  unfold directions isDirection
  simp

theorem hasLine_of_lineThrough (b : Board) (v : squareType) (r c : Int)
    (h : lineThrough b v r c) : hasLine b v := by
  obtain ⟨d, hd, k, -, hl⟩ := h
  exact ⟨_, _, d.1, d.2, (mem_directions_iff d.1 d.2).mp hd, hl⟩

theorem lineThrough_of_lineFrom (b : Board) (v : squareType) (row column r c dr dc : Int)
    (hd : isDirection dr dc) (hl : lineFrom b v r c dr dc)
    (hk : (r = row ∧ c = column) ∨ (r + dr = row ∧ c + dc = column)
      ∨ (r + 2 * dr = row ∧ c + 2 * dc = column)
      ∨ (r + 3 * dr = row ∧ c + 3 * dc = column)) :
    lineThrough b v row column := by
  refine ⟨(dr, dc), (mem_directions_iff dr dc).mpr hd, ?_⟩
  rcases hk with ⟨e1, e2⟩ | ⟨e1, e2⟩ | ⟨e1, e2⟩ | ⟨e1, e2⟩
  · refine ⟨0, by simp, ?_⟩
    have a1 : row - 0 * dr = r := by omega
    have a2 : column - 0 * dc = c := by omega
    simp only [a1, a2]; exact hl
  · refine ⟨1, by simp, ?_⟩
    have a1 : row - 1 * dr = r := by omega
    have a2 : column - 1 * dc = c := by omega
    simp only [a1, a2]; exact hl
  · refine ⟨2, by simp, ?_⟩
    have a1 : row - 2 * dr = r := by omega
    have a2 : column - 2 * dc = c := by omega
    simp only [a1, a2]; exact hl
  · refine ⟨3, by simp, ?_⟩
    have a1 : row - 3 * dr = r := by omega
    have a2 : column - 3 * dc = c := by omega
    simp only [a1, a2]; exact hl

/-- On a board whose grid holds no winning line (every reachable board in a
turn state is one), `move` and the variant that looks at the placed square only
return the same value and leave the same board. -/
theorem move_eq_placedSquareOnly (b : Board)
    (hno : isTurn b.currentGameState → ¬ hasWinningLine b) (column : Int) :
    b.move column = movePlacedSquareOnly b column := by
  rcases turn_or_terminal b.currentGameState with ht | ht
  · have hnterm : ¬ (b.currentGameState = RedWins ∨ b.currentGameState = BlackWins
        ∨ b.currentGameState = Tie) := not_terminal_of_turn ht
    by_cases hc : 0 ≤ column ∧ column < 7
    · by_cases htop : holds b 0 column squareType.Empty
      · obtain ⟨row, b1, hrow, hz, hset⟩ := findRow_placed b column hc htop
        have hset' := hset
        unfold moverColour at hset'
        unfold move movePlacedSquareOnly
        simp only [if_neg hnterm, hrow, if_neg hz, hset, hset']
        rcases winScan_cases b1 with ⟨hw, hn1⟩ | ⟨v, hw, hv, hl⟩
        · have hnt : ¬ lineThrough b1 (moverColour b) (row - 1) column := by
            intro h
            exact hn1 ⟨_, moverColour_ne_empty b, hasLine_of_lineThrough _ _ _ _ h⟩
          simp only [hw, if_neg hnt]
        · have hvm := line_after_setSquare b b1 _ _ (hno ht) hset v hv hl
          obtain ⟨r, c, dr, dc, hd, hline⟩ := hl
          have hk := line_contains_assigned b b1 _ _ _ (hno ht) hset v hv r c dr dc hd hline
          have hthrough : lineThrough b1 (moverColour b) (row - 1) column := by
            rw [← hvm]
            exact lineThrough_of_lineFrom b1 v _ _ r c dr dc hd hline hk
          simp only [hw, if_pos hthrough]
          rw [← hvm]
          rfl
      · have hrow : b.findRow column = .ok 0 := by
          obtain ⟨row, hrow, h0, h6, hall, -⟩ := findRow_spec b column hc
          have hz : row = 0 := by
            by_contra hne
            exact htop (hall 0 (le_refl _) (by omega))
          rw [hrow, hz]
        unfold move movePlacedSquareOnly
        simp only [if_neg hnterm, hrow]
        rfl
    · unfold move movePlacedSquareOnly
      simp only [if_neg hnterm, findRow_invalid b column (by omega)]
  · have hterm : b.currentGameState = RedWins ∨ b.currentGameState = BlackWins
        ∨ b.currentGameState = Tie := ht
    unfold move movePlacedSquareOnly
    simp only [if_pos hterm]

/-- C16: on every state reachable from a freshly constructed board, the
whole-board win scan of `move` is equivalent to checking only the lines of 4
through the square just placed: `move` and the variant that reports the mover's
win if and only if some line of 4 of the mover's colour contains the placed
square return the same value and leave the same board, so the same state, for
every column; in particular in a turn state on a column of the grid whose top
square is `Empty`. -/
theorem whole_scan_equals_placed_square_scan (b : Board) (h : Reachable b) (column : Int) :
    b.move column = movePlacedSquareOnly b column
      ∧ (b.move column).2.currentGameState
          = (movePlacedSquareOnly b column).2.currentGameState := by
  have e := move_eq_placedSquareOnly b (reachable_turn_noLine b h) column
  exact ⟨e, by rw [e]⟩

theorem whole_scan_equals_placed_square_scan_witness :
    Reachable threeInRow ∧ isTurn threeInRow.currentGameState
      ∧ holds threeInRow 0 3 squareType.Empty
      ∧ threeInRow.move 3 = movePlacedSquareOnly threeInRow 3
      ∧ (threeInRow.move 3).2.currentGameState = RedWins
      ∧ (movePlacedSquareOnly threeInRow 3).2.currentGameState = RedWins :=
  have hr : Reachable threeInRow := reachable_moves _ Reachable.fresh _
  ⟨hr, by decide, by decide, (whole_scan_equals_placed_square_scan threeInRow hr 3).1,
    by decide, by decide⟩

/-! ## The order of the direction scans -/

theorem brkAlong_eq (b : Board) (color : squareType) (row column : Int)
    (hr : 0 ≤ row ∧ row < 6) (hc : 0 ≤ column ∧ column < 7) (d : Direction) (x : Int)
    (hx : 0 ≤ x) :
    brkAlong b color row column d x
      = .ok (decide (¬ offsetHolds b color row column d x)) := by
  cases d
  · exact brkDown_eq b color row column x hr hc hx
  · exact brkRight_eq b color row column x hr hc hx
  · exact brkDownRight_eq b color row column x hr hc hx
  · exact brkDownLeft_eq b color row column x hr hc hx

/-- The direction scans in any order, at a square of the grid, raise no fault
and end with `x == toWin` exactly when they start with it or the three squares
after the square hold `color` in one of the directions of the list. -/
theorem scanRest_spec (b : Board) (color : squareType) (row column : Int)
    (hr : 0 ≤ row ∧ row < 6) (hc : 0 ≤ column ∧ column < 7) :
    ∀ (ds : List Direction) (x : Int), (x < 4 ∨ x = 4) →
      ∃ x', scanRest b color row column ds x = .ok x' ∧ (x' < 4 ∨ x' = 4)
        ∧ (x' = 4 ↔ (x = 4 ∨ ∃ d ∈ ds, offsetHolds b color row column d 1
            ∧ offsetHolds b color row column d 2 ∧ offsetHolds b color row column d 3)) := by
  have t4 : ((toWin : Nat) : Int) = 4 := rfl
  intro ds
  induction ds with
  | nil =>
    intro x hx
    exact ⟨x, rfl, hx, by simp⟩
  | cons d ds ih =>
    intro x hx
    obtain ⟨x1, e1, r1, i1⟩ := forBreak_toWin (brkAlong b color row column d)
      (fun x => offsetHolds b color row column d x)
      (fun x hx => brkAlong_eq b color row column hr hc d x hx)
    unfold scanRest
    rcases hx with hlt | heq
    · rw [if_pos (by rw [t4]; exact hlt), e1]
      obtain ⟨x', e', r', i'⟩ := ih x1 r1
      refine ⟨x', e', r', ?_⟩
      rw [i', i1]
      constructor
      · rintro (h | ⟨d', hd', h⟩)
        · exact Or.inr ⟨d, List.mem_cons_self d ds, h⟩
        · exact Or.inr ⟨d', List.mem_cons_of_mem d hd', h⟩
      · rintro (h | ⟨d', hd', h⟩)
        · omega
        · rcases List.mem_cons.mp hd' with e | e
          · rw [e] at h; exact Or.inl h
          · exact Or.inr ⟨d', e, h⟩
    · rw [if_neg (by rw [t4]; omega)]
      obtain ⟨x', e', r', i'⟩ := ih x (Or.inr heq)
      refine ⟨x', e', r', ?_⟩
      rw [i']
      exact ⟨fun _ => Or.inl heq, fun _ => Or.inl heq⟩

/-- With every direction in the list, the chained scans in the order of the
list end with `x == toWin` exactly when those of the source do. -/
theorem scanDirectionsInOrder_spec (order : List Direction) (hall : ∀ d, d ∈ order)
    (b : Board) (color : squareType) (row column : Int)
    (hr : 0 ≤ row ∧ row < 6) (hc : 0 ≤ column ∧ column < 7) :
    ∃ x x', b.scanDirections color row column = .ok x
      ∧ scanDirectionsInOrder order b color row column = .ok x'
      ∧ (x' = 4 ↔ x = 4) := by
  obtain ⟨x, hx, hiff⟩ := scanDirections_spec b color row column hr hc
  obtain ⟨x', hx', -, hiff'⟩ := scanRest_spec b color row column hr hc order 1 (Or.inl (by omega))
  refine ⟨x, x', hx, hx', ?_⟩
  rw [hiff, hiff']
  constructor
  · rintro (h | ⟨d, -, h⟩)
    · omega
    · cases d
      · exact Or.inl h
      · exact Or.inr (Or.inl h)
      · exact Or.inr (Or.inr (Or.inl h))
      · exact Or.inr (Or.inr (Or.inr h))
  · rintro (h | h | h | h)
    · exact Or.inr ⟨Direction.down, hall _, h⟩
    · exact Or.inr ⟨Direction.right, hall _, h⟩
    · exact Or.inr ⟨Direction.downRight, hall _, h⟩
    · exact Or.inr ⟨Direction.downLeft, hall _, h⟩

theorem squareWinsInOrder_eq (order : List Direction) (hall : ∀ d, d ∈ order)
    (b : Board) (row column : Int)
    (hr : 0 ≤ row ∧ row < 6) (hc : 0 ≤ column ∧ column < 7) :
    squareWinsInOrder order b row column = b.squareWins row column := by
  have hg := getSquare_inRange b row column hr hc
  generalize b.board ⟨row.toNat, _⟩ ⟨column.toNat, _⟩ = s at hg
  have t4 : ((toWin : Nat) : Int) = 4 := rfl
  unfold squareWinsInOrder squareWins
  simp only [hg]
  by_cases he : s = squareType.Empty
  · simp only [he, ne_eq, not_true_eq_false, if_false]
  · obtain ⟨x, x', hx, hx', hiff⟩ :=
      scanDirectionsInOrder_spec order hall b s row column hr hc
    simp only [ne_eq, he, not_false_eq_true, if_true, hx, hx', t4]
    by_cases h4 : x = 4
    · rw [if_pos h4, if_pos (hiff.mpr h4)]
    · rw [if_neg h4, if_neg (fun h => h4 (hiff.mp h))]

theorem forReturnLoop_congr {α : Type} (hi : Int) (body body' : Int → Except Fault (Option α)) :
    ∀ (n : Nat) (i : Int), (∀ j, i ≤ j → j < hi → body j = body' j) →
      forReturnLoop hi body n i = forReturnLoop hi body' n i := by
  intro n
  induction n with
  | zero => intro i _; rfl
  | succ n ih =>
    intro i h
    unfold forReturnLoop
    by_cases hlt : i < hi
    · rw [if_pos hlt, if_pos hlt, h i (le_refl _) hlt,
        ih (i + 1) (fun j h1 h2 => h j (by omega) h2)]
    · rw [if_neg hlt, if_neg hlt]

theorem forReturn_congr {α : Type} (lo hi : Int) (body body' : Int → Except Fault (Option α))
    (h : ∀ j, lo ≤ j → j < hi → body j = body' j) :
    forReturn lo hi body = forReturn lo hi body' := by
  unfold forReturn
  exact forReturnLoop_congr hi body body' _ lo h

theorem winScanInOrder_eq (order : List Direction) (hall : ∀ d, d ∈ order) (b : Board) :
    winScanInOrder order b = b.winScan := by
  unfold winScanInOrder winScan
  apply forReturn_congr
  intro row hr1 hr2
  apply forReturn_congr
  intro column hc1 hc2
  exact squareWinsInOrder_eq order hall b row column ⟨hr1, by simpa using hr2⟩
    ⟨hc1, by simpa using hc2⟩

/-- With every direction in the list, `move` with the directions tried in the
order of the list is `move`. -/
theorem moveInOrder_eq (order : List Direction) (hall : ∀ d, d ∈ order) (b : Board)
    (column : Int) : moveInOrder order b column = b.move column := by
  unfold moveInOrder move
  simp only [winScanInOrder_eq order hall]

theorem startsLine_congr (b b' : Board) (h : b.board = b'.board) (v : squareType)
    (r c : Int) : startsLine b v r c ↔ startsLine b' v r c := by
  unfold startsLine lineFrom
  simp only [holds_congr b b' h]

/-- C18: win detection is fixed by the scan order. On any grid (reachable or
not, also one with lines of both colours), in a turn state, on a column
`0 ≤ c < 7` whose top square is `Empty`, if the grid after the placement holds a
line of 4, `move` returns `true` and the winner it reports is the colour of the
first square, in row-major order (rows 0..5, columns 0..6 within a row), at
which a line of 4 starts in one of the four directions; and `move` with the four
directions tried in any other order returns the same value and leaves the
same board. -/
theorem winner_is_first_line_start (b : Board) (ht : isTurn b.currentGameState)
    (c : Int) (hc0 : 0 ≤ c) (hc7 : c < 7) (htop : holds b 0 c squareType.Empty)
    (hline : hasWinningLine (b.move c).2) :
    (∃ (r0 c0 : Int) (v : squareType), (0 ≤ r0 ∧ r0 < 6) ∧ (0 ≤ c0 ∧ c0 < 7)
        ∧ v ≠ squareType.Empty ∧ holds (b.move c).2 r0 c0 v
        ∧ startsLine (b.move c).2 v r0 c0
        ∧ (∀ (r' c' : Int) (v' : squareType), (r' < r0 ∨ (r' = r0 ∧ c' < c0)) →
            v' ≠ squareType.Empty → ¬ startsLine (b.move c).2 v' r' c')
        ∧ (b.move c).1 = .ok true
        ∧ (b.move c).2.currentGameState = winState v)
      ∧ ∀ order : List Direction, (∀ d, d ∈ order) → moveInOrder order b c = b.move c := by
  refine ⟨?_, fun order hall => moveInOrder_eq order hall b c⟩
  obtain ⟨row, b1, -, -, -, -, -, hret, hbd, -, hcase⟩ := move_spec b c ht ⟨hc0, hc7⟩ htop
  rw [hasWinningLine_congr _ b1 hbd] at hline
  simp only [startsLine_congr _ b1 hbd, holds_congr _ b1 hbd]
  rcases hcase with ⟨v, hw, -, -, hs⟩ | ⟨hn, -, -⟩ | ⟨hn, -, -⟩
  · obtain ⟨o, ho, hfirst⟩ := winScan_spec b1
    rw [hw] at ho
    injection ho with ho
    rcases hfirst with ⟨hnone, -⟩ | ⟨r0, c0, v', hr0, hc0', hov, hv', hl, hbefore⟩
    · rw [← ho] at hnone; cases hnone
    · rw [← ho] at hov
      injection hov with hov
      subst hov
      exact ⟨r0, c0, v, hr0, hc0', hv', ((startsLine_iff b1 v r0 c0).mp hl).1, hl, hbefore,
        hret, hs⟩
  · exact absurd hline hn
  · exact absurd hline hn

theorem winner_is_first_line_start_witness :
    isTurn twoLines.currentGameState ∧ holds twoLines 0 6 squareType.Empty
      ∧ lineFrom (twoLines.move 6).2 Red 2 6 1 0
      ∧ lineFrom (twoLines.move 6).2 Black 2 0 0 1
      ∧ (twoLines.move 6).2.currentGameState = BlackWins
      ∧ (∃ (r0 c0 : Int) (v : squareType), (0 ≤ r0 ∧ r0 < 6) ∧ (0 ≤ c0 ∧ c0 < 7)
          ∧ v ≠ squareType.Empty ∧ holds (twoLines.move 6).2 r0 c0 v
          ∧ startsLine (twoLines.move 6).2 v r0 c0
          ∧ (∀ (r' c' : Int) (v' : squareType), (r' < r0 ∨ (r' = r0 ∧ c' < c0)) →
              v' ≠ squareType.Empty → ¬ startsLine (twoLines.move 6).2 v' r' c')
          ∧ (twoLines.move 6).1 = .ok true
          ∧ (twoLines.move 6).2.currentGameState = winState v)
      ∧ moveInOrder [Direction.downLeft, Direction.right, Direction.down, Direction.downRight]
          twoLines 6 = twoLines.move 6 :=
  have hline : hasWinningLine (twoLines.move 6).2 :=
    hasWinningLine_of_lineFrom _ Red (by decide) 2 6 1 0 (by decide) (by decide)
  have h := winner_is_first_line_start twoLines (by decide) 6 (by decide) (by decide)
    (by decide) hline
  ⟨by decide, by decide, by decide, by decide, by decide, h.1,
    h.2 _ (fun d => by cases d <;> decide)⟩

/-- C25: a freshly constructed board has all 42 squares `Empty` and the state
`RedTurn`, whatever the array held before: the flag `blackWentFirst`,
initialised to `true`, is flipped to `false` by the `newGame` call of the
constructor, so Red moves first in the first game, and after any moves the next
`newGame` gives the first move of the second game to Black. -/
theorem fresh_board_red_moves_first (uninitialised : Grid) (cols : List Int) :
    (∀ (r : Fin rows) (c : Fin columns),
        (Board.construct uninitialised).board r c = squareType.Empty)
      ∧ (Board.construct uninitialised).currentGameState = RedTurn
      ∧ (Board.construct uninitialised).blackWentFirst = false
      ∧ moverColour (Board.construct uninitialised) = Red
      ∧ Board.construct uninitialised = Board.fresh
      ∧ ((Board.construct uninitialised).moves cols).newGame.currentGameState = BlackTurn
      ∧ ((Board.construct uninitialised).moves cols).newGame.blackWentFirst = true := by
  have hflag : ((Board.construct uninitialised).moves cols).blackWentFirst = false := by
    rw [moves_blackWentFirst]; rfl
  refine ⟨fun _ _ => rfl, rfl, rfl, rfl, rfl, ?_, ?_⟩
  · show (if (!((Board.construct uninitialised).moves cols).blackWentFirst) = true
        then BlackTurn else RedTurn) = BlackTurn
    rw [hflag]; rfl
  · show (!((Board.construct uninitialised).moves cols).blackWentFirst) = true
    rw [hflag]; rfl

/-! ## The console controller -/

theorem digit_key_column (key : Char)
    (h : key = '1' ∨ key = '2' ∨ key = '3' ∨ key = '4' ∨ key = '5' ∨ key = '6' ∨ key = '7') :
    0 ≤ (key.toNat : Int) - ('1'.toNat : Int) ∧ (key.toNat : Int) - ('1'.toNat : Int) < 7 := by
  rcases h with h | h | h | h | h | h | h <;> rw [h] <;> decide

/-- The method `processKey` on a key `'1'` to `'7'`: it returns, and leaves the
board of `move(key-'1')`. -/
theorem processKey_digit (b : Board) (key : Char)
    (h : key = '1' ∨ key = '2' ∨ key = '3' ∨ key = '4' ∨ key = '5' ∨ key = '6' ∨ key = '7') :
    processKey b key = (.returned (), (b.move ((key.toNat : Int) - ('1'.toNat : Int))).2) := by
  have hcol := digit_key_column key h
  unfold processKey
  rw [if_pos h]
  rcases move_returns b _ hcol with hr | hr
  · generalize hm : b.move ((key.toNat : Int) - ('1'.toNat : Int)) = m at hr ⊢
    obtain ⟨m1, m2⟩ := m
    simp only at hr
    rw [hr]
  · generalize hm : b.move ((key.toNat : Int) - ('1'.toNat : Int)) = m at hr ⊢
    obtain ⟨m1, m2⟩ := m
    simp only at hr
    rw [hr]

/-- C26: the key mapping of the console controller. For every board and every
character other than `'q'`, `processKey` returns; it leaves the board of
`move(key - '1')` when the key is one of `'1'` to `'7'` (the column passed is in
`[0, 7)` and `move` raises no fault), the board of `newGame()` when the key is
`'n'`, and the board as it was for every other character. -/
theorem processKey_mapping (b : Board) (key : Char) (hq : key ≠ 'q') :
    (processKey b key).1 = .returned ()
      ∧ ((key = '1' ∨ key = '2' ∨ key = '3' ∨ key = '4' ∨ key = '5' ∨ key = '6' ∨ key = '7') →
          (processKey b key).2 = (b.move ((key.toNat : Int) - ('1'.toNat : Int))).2
            ∧ 0 ≤ (key.toNat : Int) - ('1'.toNat : Int)
            ∧ (key.toNat : Int) - ('1'.toNat : Int) < 7
            ∧ (b.move ((key.toNat : Int) - ('1'.toNat : Int))).1 ≠ .error .outOfRange)
      ∧ (key = 'n' → (processKey b key).2 = b.newGame)
      ∧ (¬ (key = '1' ∨ key = '2' ∨ key = '3' ∨ key = '4' ∨ key = '5' ∨ key = '6' ∨ key = '7') →
          key ≠ 'n' → (processKey b key).2 = b) := by
  by_cases hd : key = '1' ∨ key = '2' ∨ key = '3' ∨ key = '4' ∨ key = '5' ∨ key = '6' ∨ key = '7'
  · have hp := processKey_digit b key hd
    have hcol := digit_key_column key hd
    have hn : key ≠ 'n' := by
      rcases hd with h | h | h | h | h | h | h <;> rw [h] <;> decide
    refine ⟨by rw [hp], fun _ => ⟨by rw [hp], hcol.1, hcol.2, ?_⟩, fun h => absurd h hn,
      fun h => absurd hd h⟩
    rcases move_returns b _ hcol with hr | hr <;> rw [hr] <;> intro e <;> cases e
  · by_cases hn : key = 'n'
    · have hp : processKey b key = (.returned (), b.newGame) := by
        unfold processKey
        rw [if_neg hd, if_pos hn]
      exact ⟨by rw [hp], fun h => absurd h hd, fun _ => by rw [hp], fun _ h => absurd hn h⟩
    · have hp : processKey b key = (.returned (), b) := by
        unfold processKey
        rw [if_neg hd, if_neg hn, if_neg hq]
      exact ⟨by rw [hp], fun h => absurd h hd, fun h => absurd h hn, fun _ _ => by rw [hp]⟩

theorem processKey_mapping_witness :
    (processKey threeInRow '4').1 = .returned ()
      ∧ (processKey threeInRow '4').2 = (threeInRow.move 3).2
      ∧ (processKey threeInRow 'n').2 = threeInRow.newGame
      ∧ (processKey threeInRow 'x').2 = threeInRow :=
  ⟨(processKey_mapping threeInRow '4' (by decide)).1,
    ((processKey_mapping threeInRow '4' (by decide)).2.1 (by decide)).1,
    (processKey_mapping threeInRow 'n' (by decide)).2.2.1 rfl,
    (processKey_mapping threeInRow 'x' (by decide)).2.2.2 (by decide) (by decide)⟩

/-! ## Counting the pieces -/

/-- A call of `move` that returns `true`: it is made in a turn state, it writes
the mover's colour into one square that was `Empty` and leaves the others and the
flag, and if the state after it is a turn state it is the other player's. -/
theorem move_true_spec (b : Board) (column : Int) (hret : (b.move column).1 = .ok true) :
    isTurn b.currentGameState
      ∧ (∃ (r0 : Fin rows) (c0 : Fin columns), b.board r0 c0 = squareType.Empty
          ∧ ∀ (r : Fin rows) (c : Fin columns), (b.move column).2.board r c
              = if r = r0 ∧ c = c0 then moverColour b else b.board r c)
      ∧ (b.move column).2.blackWentFirst = b.blackWentFirst
      ∧ (isTurn (b.move column).2.currentGameState →
          (b.move column).2.currentGameState
            = if b.currentGameState = RedTurn then BlackTurn else RedTurn) := by
  rcases turn_or_terminal b.currentGameState with ht | ht
  · by_cases hc : 0 ≤ column ∧ column < 7
    · by_cases htop : holds b 0 column squareType.Empty
      · obtain ⟨row, b1, h1, h6, hall, -, hset, -, hbd, hfl, hcase⟩ :=
          move_spec b column ht hc htop
        have hb := board_setSquare b b1 _ _ _ hset
        have hrn : (row - 1).toNat < rows := by simp only [rows]; omega
        have hcn : column.toNat < columns := by simp only [columns]; omega
        have e1 : (((⟨(row - 1).toNat, hrn⟩ : Fin rows).val : Nat) : Int) = row - 1 := by
          simp only; omega
        have e2 : (((⟨column.toNat, hcn⟩ : Fin columns).val : Nat) : Int) = column := by
          simp only; omega
        refine ⟨ht, ⟨⟨(row - 1).toNat, hrn⟩, ⟨column.toNat, hcn⟩, ?_, ?_⟩, hfl, ?_⟩
        · apply (holds_fin b _ _ squareType.Empty).mp
          rw [e1, e2]
          exact hall (row - 1) (by omega) (by omega)
        · intro r c
          rw [hbd, hb]
          by_cases hrc : (r.val : Int) = row - 1 ∧ (c.val : Int) = column
          · have e : r = ⟨(row - 1).toNat, hrn⟩ ∧ c = ⟨column.toNat, hcn⟩ :=
              ⟨Fin.ext (by simp only; omega), Fin.ext (by simp only; omega)⟩
            rw [if_pos hrc, if_pos e]
          · have e : ¬ (r = ⟨(row - 1).toNat, hrn⟩ ∧ c = ⟨column.toNat, hcn⟩) := by
              rintro ⟨ea, eb⟩
              apply hrc
              rw [ea, eb]
              exact ⟨e1, e2⟩
            rw [if_neg hrc, if_neg e]
        · intro ht'
          unfold isTurn at ht'
          rcases hcase with ⟨v, -, -, -, hs⟩ | ⟨-, -, hs⟩ | ⟨-, -, hs⟩
          · rw [hs] at ht'
            rcases winState_cases v with e | e <;> rw [e] at ht' <;> simp at ht'
          · rw [hs] at ht'; simp at ht'
          · exact hs
      · rw [move_full b column ht hc htop] at hret; cases hret
    · rw [move_invalid b column ht (by omega)] at hret; cases hret
  · rw [move_terminal b column ht] at hret; cases hret

/-- A call of `move` that does not return `true` leaves the board as it was. -/
theorem move_not_true (b : Board) (column : Int) (hret : (b.move column).1 ≠ .ok true) :
    (b.move column).2 = b := by
  rcases move_cases b column with hsame | ⟨ht, hc, htop⟩
  · exact hsame
  · obtain ⟨row, b1, -, -, -, -, -, h, -⟩ := move_spec b column ht hc htop
    exact absurd h hret

theorem countOf_of_empty (b : Board) (he : ∀ r c, b.board r c = squareType.Empty)
    (v : squareType) (hv : v ≠ squareType.Empty) : countOf b v = 0 := by
  unfold countOf
  rw [Finset.card_eq_zero, Finset.filter_eq_empty_iff]
  intro p _ h
  rw [he] at h
  exact hv h.symm

theorem occupied_of_empty (b : Board) (he : ∀ r c, b.board r c = squareType.Empty) :
    occupied b = 0 := by
  unfold occupied
  rw [Finset.card_eq_zero, Finset.filter_eq_empty_iff]
  intro p _ h
  exact h (he _ _)

/-- Writing a colour into one `Empty` square adds one square of that colour
and one occupied square, and leaves the number of squares of any other colour. -/
theorem counts_after_write (b b' : Board) (r0 : Fin rows) (c0 : Fin columns)
    (m : squareType) (hm : m ≠ squareType.Empty) (he : b.board r0 c0 = squareType.Empty)
    (hb : ∀ (r : Fin rows) (c : Fin columns),
      b'.board r c = if r = r0 ∧ c = c0 then m else b.board r c) :
    countOf b' m = countOf b m + 1
      ∧ (∀ v, v ≠ m → v ≠ squareType.Empty → countOf b' v = countOf b v)
      ∧ occupied b' = occupied b + 1 := by
  refine ⟨?_, ?_, ?_⟩
  · unfold countOf
    have hnot : (r0, c0) ∉ Finset.univ.filter
        (fun p : Fin rows × Fin columns => b.board p.1 p.2 = m) := by
      simp only [Finset.mem_filter, Finset.mem_univ, true_and]
      rw [he]
      exact fun h => hm h.symm
    rw [← Finset.card_insert_of_not_mem hnot]
    congr 1
    ext p
    obtain ⟨r, c⟩ := p
    simp only [Finset.mem_filter, Finset.mem_univ, true_and, Finset.mem_insert, Prod.mk.injEq]
    rw [hb]
    by_cases h : r = r0 ∧ c = c0
    · simp [h]
    · simp [h]
  · intro v hvm hve
    unfold countOf
    congr 1
    ext p
    obtain ⟨r, c⟩ := p
    simp only [Finset.mem_filter, Finset.mem_univ, true_and]
    rw [hb]
    by_cases h : r = r0 ∧ c = c0
    · rw [if_pos h, h.1, h.2, he]
      exact ⟨fun e => absurd e.symm hvm, fun e => absurd e.symm hve⟩
    · rw [if_neg h]
  · unfold occupied
    have hnot : (r0, c0) ∉ Finset.univ.filter
        (fun p : Fin rows × Fin columns => b.board p.1 p.2 ≠ squareType.Empty) := by
      simp only [Finset.mem_filter, Finset.mem_univ, true_and]
      exact fun h => h he
    rw [← Finset.card_insert_of_not_mem hnot]
    congr 1
    ext p
    obtain ⟨r, c⟩ := p
    simp only [Finset.mem_filter, Finset.mem_univ, true_and, Finset.mem_insert, Prod.mk.injEq]
    rw [hb]
    by_cases h : r = r0 ∧ c = c0
    · simp [h, hm]
    · simp [h]

theorem starterColour_cases (b : Board) : starterColour b = Red ∨ starterColour b = Black := by
  unfold starterColour
  cases b.blackWentFirst
  · exact Or.inl rfl
  · exact Or.inr rfl

/-- The piece counts of a reachable board after `k` successful moves of the
current game. -/
theorem reachableIn_balance (k : Nat) (b : Board) (h : ReachableIn k b) :
    countOf b (starterColour b) = (k + 1) / 2
      ∧ countOf b (otherColour (starterColour b)) = k / 2
      ∧ occupied b = k
      ∧ (isTurn b.currentGameState → (moverColour b = starterColour b ↔ k % 2 = 0)) := by
  induction h with
  | fresh =>
    refine ⟨countOf_of_empty _ (fun _ _ => rfl) _ (by decide),
      countOf_of_empty _ (fun _ _ => rfl) _ (by decide),
      occupied_of_empty _ (fun _ _ => rfl), fun _ => by decide⟩
  | newGame k b _ _ =>
    have hs := starterColour_cases b.newGame
    refine ⟨countOf_of_empty _ (fun _ _ => rfl) _ ?_, countOf_of_empty _ (fun _ _ => rfl) _ ?_,
      occupied_of_empty _ (fun _ _ => rfl), fun _ => ?_⟩
    · rcases hs with e | e <;> rw [e] <;> decide
    · rcases hs with e | e <;> rw [e] <;> decide
    · unfold moverColour starterColour Board.newGame
      cases b.blackWentFirst <;> simp
  | rejected k b column _ hret ih =>
    rw [move_not_true b column hret]
    exact ih
  | moved k b column _ hret ih =>
    obtain ⟨ht, ⟨r0, c0, he, hb⟩, hfl, hturn⟩ := move_true_spec b column hret
    obtain ⟨hplus, hsame, hocc⟩ :=
      counts_after_write b (b.move column).2 r0 c0 (moverColour b) (moverColour_ne_empty b) he hb
    obtain ⟨i1, i2, i3, i4⟩ := ih
    have hst : starterColour (b.move column).2 = starterColour b := by
      unfold starterColour; rw [hfl]
    rw [hst]
    have hs := starterColour_cases b
    have hm := moverColour_cases b
    have hiff := i4 ht
    refine ⟨?_, ?_, by rw [hocc, i3], ?_⟩
    · by_cases hk : k % 2 = 0
      · rw [← hiff.mpr hk, hplus, hiff.mpr hk, i1]; omega
      · have hne : starterColour b ≠ moverColour b := fun e => hk (hiff.mp e.symm)
        rw [hsame _ hne (by rcases hs with e | e <;> rw [e] <;> decide), i1]; omega
    · by_cases hk : k % 2 = 0
      · have hne : otherColour (starterColour b) ≠ moverColour b := by
          rw [hiff.mpr hk]
          rcases hs with e | e <;> rw [e] <;> decide
        rw [hsame _ hne (by rcases hs with e | e <;> rw [e] <;> decide), i2]; omega
      · have hne : moverColour b ≠ starterColour b := fun e => hk (hiff.mp e)
        have heq : otherColour (starterColour b) = moverColour b := by
          rcases hs with e | e <;> rcases hm with e' | e' <;> rw [e, e'] at hne ⊢ <;>
            first | rfl | exact absurd rfl hne
        rw [heq, hplus, ← heq, i2]; omega
    · intro ht'
      have hnew := hturn ht'
      have hmv : moverColour (b.move column).2 = otherColour (moverColour b) := by
        unfold moverColour
        rw [hnew]
        unfold isTurn at ht
        rcases ht with e | e <;> rw [e] <;> decide
      rw [hmv]
      constructor
      · intro e
        have hne : moverColour b ≠ starterColour b := by
          intro e2
          rw [e2] at e
          rcases hs with e3 | e3 <;> rw [e3] at e <;> revert e <;> decide
        have : ¬ k % 2 = 0 := fun hk => hne (hiff.mpr hk)
        omega
      · intro hk1
        have hne : moverColour b ≠ starterColour b := by
          intro e2
          have := hiff.mp e2
          omega
        rcases hs with e | e <;> rcases hm with e' | e' <;> rw [e, e'] at hne ⊢ <;>
          first | rfl | exact absurd rfl hne

theorem reachable_of_reachableIn (k : Nat) (b : Board) (h : ReachableIn k b) :
    Reachable b := by
  induction h with
  | fresh => exact Reachable.fresh
  | newGame k b _ ih => exact Reachable.newGame b ih
  | moved k b column _ _ ih => exact Reachable.move b column ih
  | rejected k b column _ _ ih => exact Reachable.move b column ih

/-- Every reachable state is reached with some number of successful moves
since the last `newGame`. -/
theorem reachableIn_of_reachable (b : Board) (h : Reachable b) : ∃ k, ReachableIn k b := by
  induction h with
  | fresh => exact ⟨0, ReachableIn.fresh⟩
  | newGame b _ ih =>
    obtain ⟨k, hk⟩ := ih
    exact ⟨0, ReachableIn.newGame k b hk⟩
  | move b column _ ih =>
    obtain ⟨k, hk⟩ := ih
    by_cases hret : (b.move column).1 = .ok true
    · exact ⟨k + 1, ReachableIn.moved k b column hk hret⟩
    · exact ⟨k, ReachableIn.rejected k b column hk hret⟩

theorem reachableIn_moves (k : Nat) (b : Board) (h : ReachableIn k b) (cols : List Int) :
    ReachableIn (k + successes b cols) (b.moves cols) := by
  induction cols generalizing k b with
  | nil => exact h
  | cons c cs ih =>
    rw [Board.moves_cons]
    unfold successes
    by_cases hret : (b.move c).1 = .ok true
    · rw [if_pos hret]
      have := ih (k + 1) _ (ReachableIn.moved k b c h hret)
      rwa [Nat.add_assoc] at this
    · rw [if_neg hret, Nat.zero_add]
      exact ih k _ (ReachableIn.rejected k b c h hret)

/-- C22: piece-count balance. In every state reachable from a freshly
constructed board, after `k` successful moves since the last `newGame` the grid
holds exactly `k` squares that are not `Empty`; the player who started the game
owns `ceil(k/2)` of them and the other player `floor(k/2)`, so the numbers of Red
and Black squares differ by at most 1; and in a turn state the player to move is
the starter if and only if `k` is even. -/
theorem piece_count_balance (k : Nat) (b : Board) (h : ReachableIn k b) :
    occupied b = k
      ∧ countOf b (starterColour b) = (k + 1) / 2
      ∧ countOf b (otherColour (starterColour b)) = k / 2
      ∧ countOf b Red + countOf b Black = k
      ∧ countOf b Red ≤ countOf b Black + 1
      ∧ countOf b Black ≤ countOf b Red + 1
      ∧ (isTurn b.currentGameState → (moverColour b = starterColour b ↔ k % 2 = 0)) := by
  obtain ⟨h1, h2, h3, h4⟩ := reachableIn_balance k b h
  refine ⟨h3, h1, h2, ?_, ?_, ?_, h4⟩ <;>
    rcases starterColour_cases b with e | e <;> rw [e] at h1 h2 <;>
    simp only [otherColour, if_true, if_false, reduceCtorEq] at h2 <;> omega

theorem reachableIn_redWon : ReachableIn 7 redWon := by
  have h := reachableIn_moves 0 _ ReachableIn.fresh [0, 0, 1, 1, 2, 2, 3]
  have e : 0 + successes Board.fresh [0, 0, 1, 1, 2, 2, 3] = 7 := by decide
  rw [e] at h
  exact h

theorem piece_count_balance_witness :
    ReachableIn 7 redWon
      ∧ occupied redWon = 7
      ∧ countOf redWon (starterColour redWon) = 4
      ∧ countOf redWon (otherColour (starterColour redWon)) = 3
      ∧ countOf redWon Red + countOf redWon Black = 7 :=
  ⟨reachableIn_redWon, (piece_count_balance 7 redWon reachableIn_redWon).1,
    (piece_count_balance 7 redWon reachableIn_redWon).2.1,
    (piece_count_balance 7 redWon reachableIn_redWon).2.2.1,
    (piece_count_balance 7 redWon reachableIn_redWon).2.2.2.1⟩

/-! ## The game cannot get stuck -/

/-- In a reachable turn state some square of row 0 is `Empty`. -/
theorem reachable_turn_top_open (b : Board) (h : Reachable b) :
    isTurn b.currentGameState → ¬ topRowFilled b := by
  induction h with
  | fresh => intro _ hf; exact hf 0 rfl
  | newGame b _ _ => intro _ hf; exact hf 0 rfl
  | move b column _ ih =>
    intro ht'
    rcases move_cases b column with hsame | ⟨ht, hc, htop⟩
    · rw [hsame] at ht' ⊢
      exact ih ht'
    · obtain ⟨row, b1, -, -, -, -, -, -, hbd, -, hcase⟩ := move_spec b column ht hc htop
      rw [topRowFilled_congr _ b1 hbd]
      rcases hcase with ⟨v, -, -, -, hst⟩ | ⟨-, -, hst⟩ | ⟨-, hnf, -⟩
      · rw [hst] at ht'
        unfold isTurn at ht'
        rcases winState_cases v with e | e <;> rw [e] at ht' <;> simp at ht'
      · rw [hst] at ht'
        unfold isTurn at ht'
        simp at ht'
      · exact hnf

theorem occupied_le (b : Board) : occupied b ≤ 42 := by
  unfold occupied
  have h := Finset.card_filter_le (Finset.univ : Finset (Fin rows × Fin columns))
    (fun p => b.board p.1 p.2 ≠ squareType.Empty)
  have hu : (Finset.univ : Finset (Fin rows × Fin columns)).card = 42 := by
    rw [Finset.card_univ, Fintype.card_prod, Fintype.card_fin, Fintype.card_fin]
    rfl
  omega

theorem occupied_lt_of_empty (b : Board) (r : Fin rows) (c : Fin columns)
    (he : b.board r c = squareType.Empty) : occupied b < 42 := by
  unfold occupied
  have hss : Finset.univ.filter
      (fun p : Fin rows × Fin columns => b.board p.1 p.2 ≠ squareType.Empty) ⊂ Finset.univ :=
    Finset.filter_ssubset.mpr ⟨(r, c), Finset.mem_univ _, fun h => h he⟩
  have h := Finset.card_lt_card hss
  have hu : (Finset.univ : Finset (Fin rows × Fin columns)).card = 42 := by
    rw [Finset.card_univ, Fintype.card_prod, Fintype.card_fin, Fintype.card_fin]
    rfl
  omega

/-- C21: the game cannot get stuck. In every state reachable from a freshly
constructed board (here with the number `k` of successful moves since the last
`newGame`) whose state is `RedTurn` or `BlackTurn`, some column `c` in `[0, 7)`
has an `Empty` top square and `move(c)` returns `true`; and a game has at most 42
successful moves: `k ≤ 42`, in a turn state `k < 42`, and after 42 successful
moves the state is an end state. -/
theorem game_cannot_get_stuck (k : Nat) (b : Board) (h : ReachableIn k b) :
    (isTurn b.currentGameState →
        ∃ c : Int, 0 ≤ c ∧ c < 7 ∧ holds b 0 c squareType.Empty
          ∧ (b.move c).1 = .ok true)
      ∧ k ≤ 42
      ∧ (isTurn b.currentGameState → k < 42)
      ∧ (k = 42 → isTerminal b.currentGameState) := by
  have hocc := (reachableIn_balance k b h).2.2.1
  have hreach := reachable_of_reachableIn k b h
  have hopen : isTurn b.currentGameState → ∃ c0 : Fin columns, b.board 0 c0 = squareType.Empty := by
    intro ht
    have hnf := reachable_turn_top_open b hreach ht
    unfold topRowFilled at hnf
    by_contra hn
    apply hnf
    intro c hc
    exact hn ⟨c, hc⟩
  have hlt : isTurn b.currentGameState → k < 42 := by
    intro ht
    obtain ⟨c0, he⟩ := hopen ht
    have := occupied_lt_of_empty b 0 c0 he
    omega
  refine ⟨?_, ?_, hlt, ?_⟩
  · intro ht
    obtain ⟨c0, he⟩ := hopen ht
    have hc := c0.isLt
    simp only [columns] at hc
    have htop : holds b 0 (c0.val : Int) squareType.Empty :=
      (holds_fin b 0 c0 squareType.Empty).mpr he
    obtain ⟨row, b1, -, -, -, -, -, hret, -⟩ :=
      move_spec b (c0.val : Int) ht ⟨by omega, by omega⟩ htop
    exact ⟨(c0.val : Int), by omega, by omega, htop, hret⟩
  · have := occupied_le b
    omega
  · intro hk
    rcases turn_or_terminal b.currentGameState with ht | ht
    · have := hlt ht
      omega
    · exact ht

theorem reachableIn_tieBoard : ReachableIn 42 (oneSquareLeft.move 0).2 := by
  have h := reachableIn_moves 0 _ ReachableIn.fresh
    [5, 4, 5, 0, 6, 2, 4, 5, 5, 0, 4, 1, 1, 0, 4, 5, 6, 5, 3, 1, 1, 2, 2, 6, 2, 6, 6, 3, 6, 2,
      0, 3, 0, 3, 3, 4, 3, 1, 4, 2, 1, 0]
  have e : 0 + successes Board.fresh
      [5, 4, 5, 0, 6, 2, 4, 5, 5, 0, 4, 1, 1, 0, 4, 5, 6, 5, 3, 1, 1, 2, 2, 6, 2, 6, 6, 3, 6, 2,
        0, 3, 0, 3, 3, 4, 3, 1, 4, 2, 1, 0] = 42 := by decide
  rw [e] at h
  exact h

theorem game_cannot_get_stuck_witness :
    ReachableIn 42 (oneSquareLeft.move 0).2
      ∧ isTerminal (oneSquareLeft.move 0).2.currentGameState :=
  ⟨reachableIn_tieBoard,
    (game_cannot_get_stuck 42 _ reachableIn_tieBoard).2.2.2 rfl⟩

/-! ## Lines longer than `toWin` -/

/-- After a call of `move` on a reachable board in a turn state, every line of
4 of the grid is of the mover's colour. -/
theorem reachable_lines_after_move (b : Board) (h : Reachable b)
    (ht : isTurn b.currentGameState) (column : Int) (v : squareType)
    (hv : v ≠ squareType.Empty) (hl : hasLine (b.move column).2 v) :
    v = moverColour b := by
  have hno := reachable_turn_noLine b h ht
  rcases move_cases b column with hsame | ⟨-, hc, htop⟩
  · rw [hsame] at hl
    exact absurd ⟨v, hv, hl⟩ hno
  · obtain ⟨row, b1, -, -, -, -, hset, -, hbd, -, -⟩ := move_spec b column ht hc htop
    rw [hasLine_congr _ b1 hbd] at hl
    exact line_after_setSquare b b1 _ _ hno hset v hv hl

/-- A line of 5 after a placement wins for its colour when the grid holds no
line of 4 of another colour, as on every reachable board. -/
theorem longer_line_wins_of (b : Board) (ht : isTurn b.currentGameState)
    (c : Int) (hc0 : 0 ≤ c) (hc7 : c < 7) (htop : holds b 0 c squareType.Empty)
    (v : squareType) (hv : v ≠ squareType.Empty) (r0 c0 dr dc : Int)
    (hd : isDirection dr dc) (hrun : runOfFive (b.move c).2 v r0 c0 dr dc)
    (hother : Reachable b ∨ ∀ v', v' ≠ squareType.Empty → v' ≠ v → ¬ hasLine (b.move c).2 v') :
    (b.move c).1 = .ok true
      ∧ (b.move c).2.currentGameState = winState v
      ∧ (v = Red → (b.move c).2.currentGameState = RedWins)
      ∧ (v = Black → (b.move c).2.currentGameState = BlackWins) := by
  have hline : hasLine (b.move c).2 v := ⟨r0, c0, dr, dc, hd, hrun.1⟩
  have hother' : ∀ v', v' ≠ squareType.Empty → v' ≠ v → ¬ hasLine (b.move c).2 v' := by
    rcases hother with hr | ho
    · intro v' hv' hne hl'
      have e1 := reachable_lines_after_move b hr ht c v hv hline
      have e2 := reachable_lines_after_move b hr ht c v' hv' hl'
      exact hne (e2.trans e1.symm)
    · exact ho
  obtain ⟨row, b1, -, -, -, -, -, hret, hbd, -, hcase⟩ := move_spec b c ht ⟨hc0, hc7⟩ htop
  have hst : (b.move c).2.currentGameState = winState v := by
    rcases hcase with ⟨v', -, hv', hl', hs⟩ | ⟨hn, -, -⟩ | ⟨hn, -, -⟩
    · have : v' = v := by
        by_contra hne
        exact hother' v' hv' hne ((hasLine_congr _ b1 hbd v').mpr hl')
      rw [hs, this]
    · exact absurd ⟨v, hv, (hasLine_congr _ b1 hbd v).mp hline⟩ hn
    · exact absurd ⟨v, hv, (hasLine_congr _ b1 hbd v).mp hline⟩ hn
  refine ⟨hret, hst, ?_, ?_⟩
  · intro e; rw [hst, e]; rfl
  · intro e; rw [hst, e]; rfl

/-- C23: a line longer than `toWin` also wins. On every board a game can
reach, in a turn state, on a column `0 ≤ c < 7` whose top square is `Empty`, if
the placement yields 5 squares in a row of one colour `v` other than `Empty` (in
a row, a column or a diagonal; more than 5 contain 5), `move` returns `true` and
sets the win state of `v`. Lines of 4 start at the first and at the second square
of the run: the check is "at least 4 squares in a row from some start square",
not "a run of exactly 4". -/
theorem longer_line_wins (b : Board) (hreach : Reachable b)
    (ht : isTurn b.currentGameState)
    (c : Int) (hc0 : 0 ≤ c) (hc7 : c < 7) (htop : holds b 0 c squareType.Empty)
    (v : squareType) (hv : v ≠ squareType.Empty) (r0 c0 dr dc : Int)
    (hd : isDirection dr dc) (hrun : runOfFive (b.move c).2 v r0 c0 dr dc) :
    (b.move c).1 = .ok true
      ∧ (b.move c).2.currentGameState = winState v
      ∧ (v = Red → (b.move c).2.currentGameState = RedWins)
      ∧ (v = Black → (b.move c).2.currentGameState = BlackWins)
      ∧ lineFrom (b.move c).2 v r0 c0 dr dc
      ∧ lineFrom (b.move c).2 v (r0 + dr) (c0 + dc) dr dc := by
  obtain ⟨h1, h2, h3, h4⟩ :=
    longer_line_wins_of b ht c hc0 hc7 htop v hv r0 c0 dr dc hd hrun (Or.inl hreach)
  refine ⟨h1, h2, h3, h4, hrun.1, ?_⟩
  obtain ⟨⟨-, a1, a2, a3⟩, a4⟩ := hrun
  unfold lineFrom
  have e2 : r0 + dr + 2 * dr = r0 + 3 * dr := by ring
  have e2' : c0 + dc + 2 * dc = c0 + 3 * dc := by ring
  have e1 : r0 + dr + dr = r0 + 2 * dr := by ring
  have e1' : c0 + dc + dc = c0 + 2 * dc := by ring
  have e3 : r0 + dr + 3 * dr = r0 + 4 * dr := by ring
  have e3' : c0 + dc + 3 * dc = c0 + 4 * dc := by ring
  rw [e1, e1', e2, e2', e3, e3']
  exact ⟨a1, a2, a3, a4⟩

theorem longer_line_wins_witness :
    Reachable fourOfFive
      ∧ isTurn fourOfFive.currentGameState ∧ holds fourOfFive 0 2 squareType.Empty
      ∧ holds fourOfFive 5 0 Red ∧ holds fourOfFive 5 1 Red
      ∧ holds fourOfFive 5 3 Red ∧ holds fourOfFive 5 4 Red
      ∧ runOfFive (fourOfFive.move 2).2 Red 5 0 0 1
      ∧ (fourOfFive.move 2).1 = .ok true
      ∧ (fourOfFive.move 2).2.currentGameState = RedWins :=
  have hr : Reachable fourOfFive := reachable_moves _ Reachable.fresh _
  have h := longer_line_wins fourOfFive hr (by decide) 2 (by decide) (by decide) (by decide)
    Red (by decide) 5 0 0 1 (by decide) (by decide)
  ⟨hr, by decide, by decide, by decide, by decide, by decide, by decide, by decide,
    h.1, h.2.2.1 rfl⟩

end Lab11

/-! # The two implementations of `move` -/

namespace Lab11Sol

open Lab11 Lab11.Board Lab11.squareType Lab11.gameState

/-- One direction scan at a square of the grid raises no fault and leaves `x`
at most at `toWin`. -/
theorem forBreak_direction (b : Board) (color : squareType) (row column : Int)
    (hr : 0 ≤ row ∧ row < 6) (hc : 0 ≤ column ∧ column < 7) (d : Direction) :
    ∃ x, forBreak 1 toWin (brkAlong b color row column d) = .ok x ∧ (x < 4 ∨ x = 4) := by
  obtain ⟨x, e, r, -⟩ := forBreak_toWin (brkAlong b color row column d)
    (fun x => offsetHolds b color row column d x)
    (fun x hx => brkAlong_eq b color row column hr hc d x hx)
  exact ⟨x, e, r⟩

/-- At a square of the grid the body of the win scan of `lab11sol.cpp` (four
scans, each with its own test) and the body of `lab11.cpp` (scans chained by
`if (x<toWin)`, one final test) give the same result. -/
theorem squareWins_eq (b : Board) (row column : Int)
    (hr : 0 ≤ row ∧ row < 6) (hc : 0 ≤ column ∧ column < 7) :
    Lab11Sol.squareWins b row column = b.squareWins row column := by
  have hg := getSquare_inRange b row column hr hc
  generalize b.board ⟨row.toNat, _⟩ ⟨column.toNat, _⟩ = s at hg
  have t4 : ((toWin : Nat) : Int) = 4 := rfl
  obtain ⟨x1, e1, r1⟩ := forBreak_direction b s row column hr hc Direction.down
  obtain ⟨x2, e2, r2⟩ := forBreak_direction b s row column hr hc Direction.right
  obtain ⟨x3, e3, r3⟩ := forBreak_direction b s row column hr hc Direction.downRight
  obtain ⟨x4, e4, r4⟩ := forBreak_direction b s row column hr hc Direction.downLeft
  have e1' : forBreak 1 toWin (b.brkDown s row column) = .ok x1 := e1
  have e2' : forBreak 1 toWin (b.brkRight s row column) = .ok x2 := e2
  have e3' : forBreak 1 toWin (b.brkDownRight s row column) = .ok x3 := e3
  have e4' : forBreak 1 toWin (b.brkDownLeft s row column) = .ok x4 := e4
  rw [t4] at e1' e2' e3' e4'
  unfold Lab11Sol.squareWins Lab11.Board.squareWins Lab11.Board.scanDirections
  simp only [hg, t4]
  by_cases he : s = squareType.Empty
  · subst he
    rfl
  · rw [if_pos he, if_pos he]
    simp only [e1', e2', e3', e4']
    by_cases h1 : x1 = 4
    · simp only [h1, if_true, if_neg (show ¬ (4 : Int) < 4 by omega)]
    · have l1 : x1 < 4 := by omega
      simp only [if_neg h1, if_pos l1]
      by_cases h2 : x2 = 4
      · simp only [h2, if_true, if_neg (show ¬ (4 : Int) < 4 by omega)]
      · have l2 : x2 < 4 := by omega
        simp only [if_neg h2, if_pos l2]
        by_cases h3 : x3 = 4
        · simp only [h3, if_true, if_neg (show ¬ (4 : Int) < 4 by omega)]
        · have l3 : x3 < 4 := by omega
          simp only [if_neg h3, if_pos l3]

theorem winScan_eq (b : Board) : Lab11Sol.winScan b = b.winScan := by
  unfold Lab11Sol.winScan Lab11.Board.winScan
  apply forReturn_congr
  intro row hr1 hr2
  apply forReturn_congr
  intro column hc1 hc2
  exact squareWins_eq b row column ⟨hr1, by simpa using hr2⟩ ⟨hc1, by simpa using hc2⟩

theorem move_eq (b : Board) (column : Int) : Lab11Sol.move b column = b.move column := by
  unfold Lab11Sol.move Lab11.Board.move
  simp only [winScan_eq]

/-- C24: the two implementations of the board agree. For every board (grid,
state, starting-player flag) and every column argument, `move` of `lab11sol.cpp`
and `move` of `lab11.cpp` return the same boolean or raise the same fault, and
leave the same board: the same grid, the same state and the same flag. -/
theorem implementations_agree (b : Board) (column : Int) :
    Lab11Sol.move b column = b.move column
      ∧ (Lab11Sol.move b column).1 = (b.move column).1
      ∧ (Lab11Sol.move b column).2.board = (b.move column).2.board
      ∧ (Lab11Sol.move b column).2.currentGameState = (b.move column).2.currentGameState
      ∧ (Lab11Sol.move b column).2.blackWentFirst = (b.move column).2.blackWentFirst
      ∧ ((Lab11Sol.move b column).1 = .error .outOfRange
          ↔ (b.move column).1 = .error .outOfRange) := by
  have e := move_eq b column
  exact ⟨e, by rw [e], by rw [e], by rw [e], by rw [e], by rw [e]⟩

/-! # The click guard of `lab11sol.cpp` -/

/-- What `processEvent` does with a click: the guard accepts the columns 0 to
7, and the call raises the fault exactly for column 7 in a turn state. -/
theorem processEvent_push (b : Board) (event_x : Int) :
    ((0 ≤ Int.tdiv event_x 50 ∧ Int.tdiv event_x 50 < 7) →
        (processEvent b (Event.push event_x)).1 = .returned true
          ∧ (processEvent b (Event.push event_x)).2 = (b.move (Int.tdiv event_x 50)).2)
      ∧ (Int.tdiv event_x 50 = 7 → isTurn b.currentGameState →
        processEvent b (Event.push event_x) = (.threw .outOfRange, b))
      ∧ ((Int.tdiv event_x 50 < 0 ∨ 7 < Int.tdiv event_x 50) →
        processEvent b (Event.push event_x) = (.returned false, b)) := by
  have t7 : ((columns : Nat) : Int) = 7 := rfl
  refine ⟨?_, ?_, ?_⟩
  · intro hcol
    have hg : Int.tdiv event_x 50 ≥ 0 ∧ Int.tdiv event_x 50 ≤ (columns : Int) := by
      rw [t7]; omega
    unfold processEvent
    simp only [if_pos hg, move_eq]
    rcases move_returns b _ hcol with hr | hr
    · generalize b.move (Int.tdiv event_x 50) = m at hr ⊢
      obtain ⟨m1, m2⟩ := m
      simp only at hr
      rw [hr]
      exact ⟨rfl, rfl⟩
    · generalize b.move (Int.tdiv event_x 50) = m at hr ⊢
      obtain ⟨m1, m2⟩ := m
      simp only at hr
      rw [hr]
      exact ⟨rfl, rfl⟩
  · intro h7 ht
    have hg : Int.tdiv event_x 50 ≥ 0 ∧ Int.tdiv event_x 50 ≤ (columns : Int) := by
      rw [t7]; omega
    rw [h7] at hg
    unfold processEvent
    simp only [h7, if_pos hg, move_eq, move_invalid b 7 ht (by omega)]
  · intro hout
    have hg : ¬ (Int.tdiv event_x 50 ≥ 0 ∧ Int.tdiv event_x 50 ≤ (columns : Int)) := by
      rw [t7]; omega
    unfold processEvent
    simp only [if_neg hg]

/-- C27, the code at the failing input: a click at `x = 350` on a fresh board.
`350/50` is 7, the guard `col>=0 && col<=Board::columns` accepts it, and
`move(7)` raises the out-of-range fault, which leaves `processEvent`. -/
theorem click_at_350_faults :
    Int.tdiv 350 50 = 7
      ∧ (Int.tdiv 350 50 ≥ 0 ∧ Int.tdiv 350 50 ≤ (columns : Int))
      ∧ ¬ (Int.tdiv 350 50 < 7)
      ∧ (Lab11Sol.move Board.fresh 7).1 = .error .outOfRange
      ∧ (processEvent Board.fresh (Event.push 350)).1 = .threw .outOfRange := by
  decide

end Lab11Sol

/-! # The range-based `for` over `Range` -/

namespace Exam

theorem wrapInt_of_isInt (x : Int) (h : isInt x) : wrapInt x = x := by
  unfold isInt at h
  unfold wrapInt
  omega

theorem isInt_wrapInt (x : Int) : isInt (wrapInt x) := by
  unfold isInt wrapInt
  omega

theorem wrapInt_congruent (x : Int) : (wrapInt x - x) % 4294967296 = 0 := by
  unfold wrapInt
  omega

/-- The values `a + k*s` on the way from `a` to `b = a + n*s` lie between the
two, so they are `int` values when `a` and `b` are. -/
theorem isInt_between (a b s : Int) (n k : Nat) (ha : isInt a) (hb : isInt b)
    (hd : b - a = n * s) (hk : k ≤ n) : isInt (a + k * s) := by
  unfold isInt at ha hb ⊢
  have hkn : (k : Int) ≤ (n : Int) := by exact_mod_cast hk
  have hk0 : (0 : Int) ≤ (k : Int) := by positivity
  rcases le_or_lt 0 s with hs | hs
  · have h1 : 0 ≤ (k : Int) * s := mul_nonneg hk0 hs
    have h2 : (k : Int) * s ≤ (n : Int) * s := mul_le_mul_of_nonneg_right hkn hs
    constructor <;> linarith
  · have h1 : (k : Int) * s ≤ 0 := mul_nonpos_of_nonneg_of_nonpos hk0 (le_of_lt hs)
    have h2 : (n : Int) * s ≤ (k : Int) * s := mul_le_mul_of_nonpos_right hkn (le_of_lt hs)
    constructor <;> linarith

namespace Range

/-- When the end index is `n` steps away, no addition on the way wraps around:
the loop ends within any `fuel > n` tests of its condition, and yields the `n`
values `index + k*step`. -/
theorem rangeForLoop_of_multiple (e : Iterator) (s : Int) (hs : s ≠ 0) (he : isInt e.index) :
    ∀ (n : Nat) (it : Iterator), it.step = s → isInt it.index →
      e.index - it.index = n * s → ∀ fuel, n < fuel →
        rangeForLoop e fuel it = some ((List.range n).map (fun k : Nat => it.index + k * s)) := by
  intro n
  induction n with
  | zero =>
    intro it _ _ hd fuel hf
    obtain ⟨f, rfl⟩ : ∃ f, fuel = f + 1 := ⟨fuel - 1, by omega⟩
    have heq : it.index = e.index := by
      simp only [Nat.cast_zero, zero_mul] at hd
      omega
    unfold rangeForLoop Iterator.eq
    simp [heq]
  | succ n ih =>
    intro it hst hi hd fuel hf
    obtain ⟨f, rfl⟩ : ∃ f, fuel = f + 1 := ⟨fuel - 1, by omega⟩
    have hne : it.index ≠ e.index := by
      intro heq
      rw [heq] at hd
      have h0 : ((n + 1 : Nat) : Int) * s = 0 := by rw [← hd]; ring
      rcases mul_eq_zero.mp h0 with h | h
      · have : ((n + 1 : Nat) : Int) ≠ 0 := by positivity
        exact this h
      · exact hs h
    have hin : isInt (it.index + s) := by
      have := isInt_between it.index e.index s (n + 1) 1 hi he hd (by omega)
      simpa using this
    have hidx : it.next.index = it.index + s := by
      show wrapInt (it.index + it.step) = it.index + s
      rw [hst]
      exact wrapInt_of_isInt _ hin
    have hnext : e.index - it.next.index = n * s := by
      rw [hidx]
      have : ((n + 1 : Nat) : Int) * s = n * s + s := by push_cast; ring
      rw [this] at hd
      linarith
    have hrec := ih it.next hst (by rw [hidx]; exact hin) hnext f (by omega)
    unfold rangeForLoop Iterator.eq
    rw [if_neg (by simpa using hne), hrec]
    simp only [Option.map_some', Iterator.deref]
    congr 1
    rw [List.range_succ_eq_map, List.map_cons, List.map_map]
    congr 1
    · simp
    · apply List.map_congr_left
      intro k _
      show it.next.index + (k : Int) * s = it.index + ((k + 1 : Nat) : Int) * s
      rw [hidx]
      push_cast
      ring

/-- When the loop ends, the end index is a whole number of steps away modulo
`2^32`. -/
theorem congruent_of_rangeForLoop (e : Iterator) (s : Int) :
    ∀ (fuel : Nat) (it : Iterator) (out : List Int), it.step = s →
      rangeForLoop e fuel it = some out →
      ∃ n : Nat, (it.index + n * s - e.index) % 4294967296 = 0 := by
  intro fuel
  induction fuel with
  | zero =>
    intro it out _ h
    unfold rangeForLoop at h
    cases h
  | succ f ih =>
    intro it out hst h
    unfold rangeForLoop Iterator.eq at h
    by_cases heq : it.index = e.index
    · exact ⟨0, by rw [heq]; simp⟩
    · rw [if_neg (by simpa using heq)] at h
      cases hrec : rangeForLoop e f it.next with
      | none => rw [hrec] at h; cases h
      | some out' =>
        obtain ⟨n, hn⟩ := ih it.next out' hst hrec
        refine ⟨n + 1, ?_⟩
        have hn' : (wrapInt (it.index + it.step) + n * s - e.index) % 4294967296 = 0 := hn
        rw [hst] at hn'
        have hw := wrapInt_congruent (it.index + s)
        have e1 : ((n + 1 : Nat) : Int) * s = n * s + s := by push_cast; ring
        rw [e1]
        generalize (n : Int) * s = t at hn' ⊢
        generalize wrapInt (it.index + s) = w at hn' hw
        omega

/-- When the end index is a whole number of steps away modulo `2^32`, the loop
ends. -/
theorem rangeForLoop_of_congruent (e : Iterator) (s : Int) (he : isInt e.index) :
    ∀ (n : Nat) (it : Iterator), it.step = s → isInt it.index →
      (it.index + n * s - e.index) % 4294967296 = 0 →
      ∃ out, rangeForLoop e (n + 1) it = some out := by
  intro n
  induction n with
  | zero =>
    intro it _ hi hd
    have heq : it.index = e.index := by
      unfold isInt at hi he
      simp only [Nat.cast_zero, zero_mul, add_zero] at hd
      omega
    refine ⟨[], ?_⟩
    unfold rangeForLoop Iterator.eq
    simp [heq]
  | succ n ih =>
    intro it hst hi hd
    by_cases heq : it.index = e.index
    · refine ⟨[], ?_⟩
      unfold rangeForLoop Iterator.eq
      simp [heq]
    · have hnext : (it.next.index + n * s - e.index) % 4294967296 = 0 := by
        show (wrapInt (it.index + it.step) + n * s - e.index) % 4294967296 = 0
        rw [hst]
        have hw := wrapInt_congruent (it.index + s)
        have e1 : ((n + 1 : Nat) : Int) * s = n * s + s := by push_cast; ring
        rw [e1] at hd
        generalize (n : Int) * s = t at hd ⊢
        generalize wrapInt (it.index + s) = w at hw ⊢
        omega
      obtain ⟨out', hout⟩ := ih it.next hst (isInt_wrapInt _) hnext
      refine ⟨it.deref :: out', ?_⟩
      rw [rangeForLoop, Iterator.eq, if_neg (by simpa using heq), hout]
      rfl

/-- The loop over a range of `int` values ends exactly when `stop` is a whole
number of steps away from `start` modulo `2^32`. -/
theorem terminates_iff_congruent (r : Range) (hwf : r.wellFormed) :
    r.terminates ↔ ∃ n : Nat, (r.start + n * r.step - r.stop) % 4294967296 = 0 := by
  constructor
  · rintro ⟨fuel, out, h⟩
    exact congruent_of_rangeForLoop r.endIterator r.step fuel r.begin out rfl h
  · rintro ⟨n, hn⟩
    obtain ⟨out, h⟩ := rangeForLoop_of_congruent r.endIterator r.step hwf.2.1 n r.begin rfl
      hwf.1 hn
    exact ⟨n + 1, out, h⟩

/-- C28 as stated fails for the `int` arithmetic of the program: the loop over
`Range(2147483646, -2147483648, 1)` ends after two iterations, the second
addition wrapping around to `stop`, and the loop over `Range(0, 10, 3)` ends
too, although in neither case `stop - start` is a non-negative multiple of
`step`. -/
theorem range_for_ends_after_wrap_around :
    (Range.ofBounds 2147483646 (-2147483648) 1).wellFormed
      ∧ (Range.ofBounds 2147483646 (-2147483648) 1).rangeFor 3
          = some [2147483646, 2147483647]
      ∧ (Range.ofBounds 2147483646 (-2147483648) 1).terminates
      ∧ (¬ ∃ n : Nat, (-2147483648 : Int) - 2147483646 = n * 1)
      ∧ (Range.ofBounds 0 10 3).wellFormed
      ∧ (Range.ofBounds 0 10 3).terminates
      ∧ (¬ ∃ n : Nat, (10 : Int) - 0 = n * 3) := by
  refine ⟨by decide, by decide, ⟨3, _, (by decide : (Range.ofBounds 2147483646
    (-2147483648) 1).rangeFor 3 = some [2147483646, 2147483647])⟩, ?_, by decide, ?_, ?_⟩
  · rintro ⟨n, hn⟩; omega
  · exact (terminates_iff_congruent _ (by decide)).mpr ⟨2863311534, by decide⟩
  · rintro ⟨n, hn⟩; omega

/-- C28, amended: the range-based `for` over `Range(start, stop, step)` with
`int` members, a step that is not zero, and `index+=step` wrapping around modulo
`2^32`. If `stop - start` is `n * step` for a natural number `n`, then `n` is
`(stop - start)/step`, the loop ends, and with any `fuel > n` it yields exactly
the values `start + k*step` for `0 ≤ k < n`, in increasing `k`. In general the
loop ends if and only if `start + n*step` is congruent to `stop` modulo `2^32` for
some natural number `n` (the end is found by equality of the index with `stop`).
`Range(stop)` is `Range(0, stop, 1)`, and so is the range with the default
step. -/
theorem range_for_with_wrap_around (r : Range) (hwf : r.wellFormed) (hstep : r.step ≠ 0)
    (stop : Int) :
    (∀ n : Nat, r.stop - r.start = n * r.step →
        r.terminates
          ∧ (n : Int) = (r.stop - r.start) / r.step
          ∧ ∀ fuel, n < fuel →
              r.rangeFor fuel
                = some ((List.range n).map (fun k : Nat => r.start + k * r.step)))
      ∧ (r.terminates ↔ ∃ n : Nat, (r.start + n * r.step - r.stop) % 4294967296 = 0)
      ∧ Range.ofStop stop = Range.ofBounds 0 stop 1
      ∧ Range.ofBounds 0 stop = Range.ofBounds 0 stop 1
      ∧ (∀ fuel, (Range.ofStop stop).rangeFor fuel = (Range.ofBounds 0 stop 1).rangeFor fuel) := by
  have hyield : ∀ n : Nat, r.stop - r.start = n * r.step → ∀ fuel, n < fuel →
      r.rangeFor fuel = some ((List.range n).map (fun k : Nat => r.start + k * r.step)) := by
    intro n hn fuel hf
    exact rangeForLoop_of_multiple r.endIterator r.step hstep hwf.2.1 n r.begin rfl hwf.1 hn
      fuel hf
  refine ⟨?_, terminates_iff_congruent r hwf, rfl, rfl, fun _ => rfl⟩
  intro n hn
  refine ⟨⟨n + 1, _, hyield n hn (n + 1) (by omega)⟩, ?_, hyield n hn⟩
  rw [hn, Int.mul_ediv_cancel _ hstep]

theorem range_for_with_wrap_around_witness :
    (Range.ofBounds 10 0 (-2)).wellFormed ∧ (Range.ofBounds 10 0 (-2)).step ≠ 0
      ∧ (Range.ofBounds 10 0 (-2)).terminates
      ∧ (Range.ofBounds 10 0 (-2)).rangeFor 6 = some [10, 8, 6, 4, 2]
      ∧ (Range.ofBounds 0 5 2).wellFormed
      ∧ ¬ (Range.ofBounds 0 5 2).terminates :=
  have h1 := range_for_with_wrap_around (Range.ofBounds 10 0 (-2)) (by decide) (by decide) 0
  have h2 := range_for_with_wrap_around (Range.ofBounds 0 5 2) (by decide) (by decide) 0
  ⟨by decide, by decide, (h1.1 5 (by decide)).1, (h1.1 5 (by decide)).2.2 6 (by decide),
    by decide, fun ht => by
      obtain ⟨n, hn⟩ := h2.2.1.mp ht
      have : ((0 : Int) + n * 2 - 5) % 4294967296 = 0 := hn
      omega⟩

end Range

end Exam
